import Mathlib

/-!
# ConsensLib: enumeration of connected induced subgraphs

A shallow embedding of `include/ConsensLib/Intern/Enumeration.hpp` (the driver
`runEnumeration` and the two recursive extension procedures
`generateRecursiveLinear` / `generateRecursiveNonLinear`), of the graph access
contract `GraphTraits` and of the validity checker of the test suite, followed
by the properties proved about them.

Conventions of the embedding.

* `std::vector<Node>` is `List α`; an iterator into a vector is the index of its
  position (`end()` is the length of the list).
* The comparator is a function `cmp : α → α → Bool`.
* `size_t` values (`upper`, `current.size()`) are natural numbers; no arithmetic
  is performed on them besides the comparison `current.size() < upper`.
* `current` and `subgraphs` are passed by non-const reference in the source and
  are mutated in place; the embedding threads both through every call and
  returns the pair `(current, subgraphs)`.
* The recursion of the extension procedures is not structural.  The embedding
  carries a counter of remaining nesting depth (`depth`), initialised with
  `upper - current.size()`; `generateRecursive_depth_irrelevant` shows, for
  every graph and comparator, that this counter is never exhausted: any larger
  value gives the same result.
* The test graphs look up adjacency with `unordered_map::at`, which throws for
  an absent key; the fixtures give the empty list there.
-/

namespace ConsensLib

variable {α : Type}

/-! ## The graph access contract -/

/-- The capability set of `GraphTraits<Graph>` for one graph value:
`nodesBegin/nodesEnd` give the range `nodes`, `adjancencyBegin/adjancencyEnd`
give the range `adjancency v` for a node `v`, and `listsSorted()` is the static
flag that selects the sorted path. -/
structure Graph (α : Type) where
  nodes : List α
  adjancency : α → List α
  listsSorted : Bool

/-- The same graph with the flag `listsSorted()` set to `b`: the same node and
adjacency ranges served through the sorted (`true`) or the unsorted (`false`)
path. -/
def Graph.withListsSorted (g : Graph α) (b : Bool) : Graph α :=
  { g with listsSorted := b }

/-- The same graph with the range of `nodesBegin/nodesEnd` replaced by
`nodes`. -/
def Graph.withNodes (g : Graph α) (nodes : List α) : Graph α :=
  { g with nodes := nodes }

/-- The same graph with the ranges of `adjancencyBegin/adjancencyEnd` replaced
by those of `adjancency`. -/
def Graph.withAdjancency (g : Graph α) (adjancency : α → List α) : Graph α :=
  { g with adjancency := adjancency }

/-- The default filter `NoFilter` of `Types.hpp`: accepts every subgraph. -/
def NoFilter (_subgraph : List α) : Bool := true

/-! ## The standard algorithms used by the source -/

/-- The function `std::lower_bound(first, last, value, comp)`, as an index: the furthermost
position `i` such that `comp(*j, value)` holds for every `j` before `i`. -/
def lower_bound (cmp : α → α → Bool) : List α → α → Nat
  | [], _ => 0
  | e :: l, v => if cmp e v then lower_bound cmp l v + 1 else 0

/-- The call `vector.insert(pos, value)` with the iterator `pos` given as an index. -/
def vector_insert (l : List α) (pos : Nat) (v : α) : List α :=
  l.take pos ++ v :: l.drop pos

/-- The call `vector.erase(pos)` with the iterator `pos` given as an index.  Erasing
at `end()` is undefined in C++; the embedding leaves the list unchanged there
(`restore_current` shows that the source never does it for a strict total
order). -/
def vector_erase (l : List α) (pos : Nat) : List α :=
  l.eraseIdx pos

/-- The test `it != end && p(*it)` (for `atEnd = false`) or `it == end || p(*it)`
(for `atEnd = true`) on the iterator at index `i` of `l`. -/
def iterTest (l : List α) (i : Nat) (atEnd : Bool) (p : α → Bool) : Bool :=
  match l[i]? with
  | none => atEnd
  | some x => p x

/-- Inner loop of `std::set_union` once the head `x` of the first range is
fixed: walks the second range. `rec1` is `set_union` on the tail of the first
range. -/
def set_unionStep (cmp : α → α → Bool) (x : α) (l1 : List α) (rec1 : List α → List α) :
    List α → List α
  | [] => x :: l1
  | y :: l2 =>
    if cmp x y then x :: rec1 (y :: l2)
    else if cmp y x then y :: set_unionStep cmp x l1 rec1 l2
    else x :: rec1 l2

/-- The function `std::set_union(first1, last1, first2, last2, back_inserter(out), comp)`:
the merge loop of the standard library, returning `out`. -/
def set_union (cmp : α → α → Bool) : List α → List α → List α
  | [], l2 => l2
  | x :: l1, l2 => set_unionStep cmp x l1 (set_union cmp l1) l2

/-- Inner loop of `std::set_difference` once the head `x` of the first range is
fixed. -/
def set_differenceStep (cmp : α → α → Bool) (x : α) (l1 : List α) (rec1 : List α → List α) :
    List α → List α
  | [] => x :: l1
  | y :: l2 =>
    if cmp x y then x :: rec1 (y :: l2)
    else if cmp y x then set_differenceStep cmp x l1 rec1 l2
    else rec1 l2

/-- The function `std::set_difference(first1, last1, first2, last2, back_inserter(out), comp)`:
the loop of the standard library, returning `out`. -/
def set_difference (cmp : α → α → Bool) : List α → List α → List α
  | [], _ => []
  | x :: l1, l2 => set_differenceStep cmp x l1 (set_difference cmp l1) l2

/-- Insertion of one element into a sorted list, before the first element that
is greater. -/
def sortInsert (cmp : α → α → Bool) (v : α) : List α → List α
  | [] => [v]
  | e :: l => if cmp v e then v :: e :: l else e :: sortInsert cmp v l

/-- The function `std::sort(first, last, comp)`, as an insertion sort.  For a strict total
order every sorting algorithm returns the same sequence. -/
def sort (cmp : α → α → Bool) : List α → List α
  | [] => []
  | v :: l => sortInsert cmp v (sort cmp l)

/-! ## The extension procedures -/

/-- The pair `(current, subgraphs)` of the two vectors that the extension
procedures mutate. -/
abbrev State (α : Type) := List α × List (List α)

/-- Lines 61-78 of `generateRecursiveLinear`: `nextForbidden` and
`nextCandidates` for the candidate `c`, where `pre` is the range
`[candidates.begin(), candidateIter)`, `post` is
`[candidateIter + 1, candidates.end())` and `current` already contains `c`.
Returns `(nextCandidates, nextForbidden)`. -/
def linearNext (g : Graph α) (cmp : α → α → Bool)
    (current pre : List α) (c : α) (post forbidden : List α) : List α × List α :=
  let nextForbidden := set_union cmp pre forbidden
  let tempComplement := set_difference cmp (g.adjancency c) current
  let complement := set_difference cmp tempComplement nextForbidden
  let nextCandidates := set_union cmp post complement
  (nextCandidates, nextForbidden)

/-- Body of the neighbor loop of `generateRecursiveNonLinear` (lines 141-156)
for one neighbor `n`: returns the updated `nextCandidates`. -/
def nonLinearNeighbor (cmp : α → α → Bool) (nextForbidden current : List α)
    (nextCandidates : List α) (n : α) : List α :=
  let foundIter := lower_bound cmp nextForbidden n
  if iterTest nextForbidden foundIter false (fun f => !cmp n f) then
    nextCandidates
  else
    let currentIter := lower_bound cmp current n
    if iterTest current currentIter false (fun x => !cmp x n && !cmp n x) then
      nextCandidates
    else
      let insertIter := lower_bound cmp nextCandidates n
      if iterTest nextCandidates insertIter true (fun y => cmp n y) then
        vector_insert nextCandidates insertIter n
      else
        nextCandidates

/-- Lines 134-156 of `generateRecursiveNonLinear`: `nextCandidates` and
`nextForbidden` for the candidate `c` (same conventions as `linearNext`).
Returns `(nextCandidates, nextForbidden)`. -/
def nonLinearNext (g : Graph α) (cmp : α → α → Bool)
    (current pre : List α) (c : α) (post forbidden : List α) : List α × List α :=
  let nextCandidates := post
  let nextForbidden := set_union cmp forbidden pre
  let nextCandidates :=
    (g.adjancency c).foldl (nonLinearNeighbor cmp nextForbidden current) nextCandidates
  (nextCandidates, nextForbidden)

/-- The candidate loop shared by both extension procedures (lines 58-82 and
131-160), from the iterator position that splits `candidates` into `pre` and
`rest`.  `next` computes `(nextCandidates, nextForbidden)` and `child` is the
recursive call. -/
def candidateLoop (cmp : α → α → Bool)
    (next : List α → List α → α → List α → List α → List α × List α)
    (child : List α → List α → List α → List (List α) → State α)
    (forbidden : List α) : List α → List α → State α → State α
  | _, [], st => st
  | pre, c :: post, st =>
    let subgraphIter := lower_bound cmp st.1 c
    let current := vector_insert st.1 subgraphIter c
    let nx := next current pre c post forbidden
    let r := child current nx.1 nx.2 st.2
    let eraseIter := lower_bound cmp r.1 c
    let current := vector_erase r.1 eraseIter
    candidateLoop cmp next child forbidden (pre ++ [c]) post (current, r.2)

/-- The extension procedure with a counter of remaining nesting depth; `next`
selects the sorted (`linearNext`) or the unsorted (`nonLinearNext`) variant. -/
def generateRecursive (cmp : α → α → Bool)
    (next : List α → List α → α → List α → List α → List α × List α)
    (upper : Nat) (filter : List α → Bool) :
    Nat → List α → List α → List α → List (List α) → State α
  | depth, current, candidates, forbidden, subgraphs =>
    let subgraphs := if filter current then subgraphs ++ [current] else subgraphs
    if current.length < upper then
      match depth with
      | 0 => (current, subgraphs)
      | depth + 1 =>
        candidateLoop cmp next (generateRecursive cmp next upper filter depth)
          forbidden [] candidates (current, subgraphs)
    else
      (current, subgraphs)

/-- The procedure `generateRecursiveLinear(graph, upper, filter, current, candidates,
forbidden, subgraphs, compare)`; returns the final `(current, subgraphs)`. -/
def generateRecursiveLinear (g : Graph α) (upper : Nat) (filter : List α → Bool)
    (current candidates forbidden : List α) (subgraphs : List (List α))
    (cmp : α → α → Bool) : State α :=
  generateRecursive cmp (linearNext g cmp) upper filter (upper - current.length)
    current candidates forbidden subgraphs

/-- The procedure `generateRecursiveNonLinear(graph, upper, filter, current, candidates,
forbidden, subgraphs, compare)`; returns the final `(current, subgraphs)`. -/
def generateRecursiveNonLinear (g : Graph α) (upper : Nat) (filter : List α → Bool)
    (current candidates forbidden : List α) (subgraphs : List (List α))
    (cmp : α → α → Bool) : State α :=
  generateRecursive cmp (nonLinearNext g cmp) upper filter (upper - current.length)
    current candidates forbidden subgraphs

/-! ## The driver -/

/-- Lines 214-220 of `runEnumeration`: the candidates of a root on the unsorted
path, the neighbors not found in `forbidden`, sorted. -/
def rootCandidatesNonLinear (g : Graph α) (cmp : α → α → Bool) (v : α)
    (forbidden : List α) : List α :=
  sort cmp ((g.adjancency v).filter (fun n =>
    iterTest forbidden (lower_bound cmp forbidden n) true (fun f => cmp n f)))

/-- Line 210 of `runEnumeration`: the candidates of a root on the sorted
path. -/
def rootCandidatesLinear (g : Graph α) (cmp : α → α → Bool) (v : α)
    (forbidden : List α) : List α :=
  set_difference cmp (g.adjancency v) forbidden

/-- One iteration of the root loop of `runEnumeration` (lines 204-222) for the
node `v`, with `forbidden` the nodes before `v` in the sorted node vector. -/
def rootStep (g : Graph α) (upper : Nat) (filter : List α → Bool) (cmp : α → α → Bool)
    (forbidden : List α) (v : α) (subgraphs : List (List α)) : List (List α) :=
  if g.listsSorted then
    (generateRecursiveLinear g upper filter [v] (rootCandidatesLinear g cmp v forbidden)
      forbidden subgraphs cmp).2
  else
    (generateRecursiveNonLinear g upper filter [v] (rootCandidatesNonLinear g cmp v forbidden)
      forbidden subgraphs cmp).2

/-- The root loop of `runEnumeration` (line 203) from the iterator position
that splits `nodesVector` into `pre` and `rest`. -/
def rootLoop (g : Graph α) (upper : Nat) (filter : List α → Bool) (cmp : α → α → Bool) :
    List α → List α → List (List α) → List (List α)
  | _, [], subgraphs => subgraphs
  | pre, v :: post, subgraphs =>
    rootLoop g upper filter cmp (pre ++ [v]) post (rootStep g upper filter cmp pre v subgraphs)

/-- The driver `runEnumeration(graph, upper, filter, compare)`. -/
def runEnumeration (g : Graph α) (upper : Nat) (filter : List α → Bool)
    (cmp : α → α → Bool) : List (List α) :=
  if upper = 0 then []
  else rootLoop g upper filter cmp [] (sort cmp g.nodes) []

/-! ## The validity checker of the test suite -/

/-- The flag `same` of `checkValidity` (lines 49-64 of `CheckSubgraphs.hpp`):
the two sequences have the same size and no position holds two nodes that the
comparator tells apart. -/
def sameSequence (cmp : α → α → Bool) (subgraph other : List α) : Bool :=
  subgraph.length == other.length &&
    (List.zip subgraph other).all (fun p => !(cmp p.1 p.2 || cmp p.2 p.1))

/-- The flag `hasNeighbor` of `checkValidity` (lines 31-47 of
`CheckSubgraphs.hpp`) for one node of an emitted subgraph. -/
def hasNeighbor (g : Graph α) (cmp : α → α → Bool) (subgraph : List α) (node : α) : Bool :=
  (g.adjancency node).any (fun n =>
    iterTest subgraph (lower_bound cmp subgraph n) false (fun f => !cmp n f))

/-! ## Vocabulary of the specification -/

/-- The comparator is a strict total order: irreflexive, transitive, and any
two nodes that it does not order are equal. -/
structure StrictTotal (cmp : α → α → Bool) : Prop where
  irrefl : ∀ a, cmp a a = false
  trans : ∀ a b c, cmp a b = true → cmp b c = true → cmp a c = true
  total : ∀ a b, cmp a b = false → cmp b a = false → a = b

/-- The sequence is strictly increasing under the comparator. -/
def SSorted (cmp : α → α → Bool) (l : List α) : Prop :=
  l.Pairwise (fun a b => cmp a b = true)

/-- The sequence is sorted under the comparator in the sense of
`std::is_sorted`: no element is smaller than an earlier one. -/
def WSorted (cmp : α → α → Bool) (l : List α) : Prop :=
  l.Pairwise (fun a b => cmp b a = false)

/-- Simple graph: the node list and every adjacency list are free of repeats
and no node lists itself as a neighbor. -/
structure Simple (g : Graph α) : Prop where
  nodes_nodup : g.nodes.Nodup
  adj_nodup : ∀ v, (g.adjancency v).Nodup
  no_loop : ∀ v, v ∉ g.adjancency v

/-- The adjacency lists are sorted whenever the graph declares
`listsSorted()`. -/
def SortedIfDeclared (g : Graph α) (cmp : α → α → Bool) : Prop :=
  g.listsSorted = true → ∀ v, WSorted cmp (g.adjancency v)

/-- Every adjacency list is strictly increasing under the comparator. -/
def AdjStrict (g : Graph α) (cmp : α → α → Bool) : Prop :=
  ∀ v, SSorted cmp (g.adjancency v)

/-- Well-formed simple undirected graph: simple, every neighbor is a listed
node, and adjacency is symmetric. -/
structure WellFormed (g : Graph α) extends Simple g : Prop where
  closed : ∀ v ∈ g.nodes, ∀ u ∈ g.adjancency v, u ∈ g.nodes
  symm : ∀ u v, u ∈ g.adjancency v ↔ v ∈ g.adjancency u

/-- The node set `S` induces a connected subgraph: any two of its nodes are
joined by a path of adjacency steps that stays inside `S`. -/
def InducedConnected (g : Graph α) (S : List α) : Prop :=
  ∀ a ∈ S, ∀ b ∈ S, Relation.ReflTransGen (fun x y => y ∈ g.adjancency x ∧ y ∈ S) a b

/-! ## The search tree -/

/-- The arguments `current`, `candidates`, `forbidden` of one call of an
extension procedure. -/
structure Call (α : Type) where
  current : List α
  candidates : List α
  forbidden : List α

/-- The positions of an iterator in the range `rest`, each with the range before
it (prefixed by `pre`), the element it points to and the range after it. -/
def splitsFrom : List α → List α → List (List α × α × List α)
  | _, [] => []
  | pre, c :: post => (pre, c, post) :: splitsFrom (pre ++ [c]) post

/-- The arguments of the recursive call made by the candidate loop of a call
with `current` and `forbidden` at the iterator position `s`. -/
def childCall (cmp : α → α → Bool)
    (next : List α → List α → α → List α → List α → List α × List α)
    (current forbidden : List α) (s : List α × α × List α) : Call α :=
  let current1 := vector_insert current (lower_bound cmp current s.2.1) s.2.1
  let nx := next current1 s.1 s.2.1 s.2.2 forbidden
  ⟨current1, nx.1, nx.2⟩

/-- The recursive calls made by the candidate loop of the call `k`, in
order. -/
def children (cmp : α → α → Bool)
    (next : List α → List α → α → List α → List α → List α × List α)
    (k : Call α) : List (Call α) :=
  (splitsFrom [] k.candidates).map (childCall cmp next k.current k.forbidden)

/-- The sequences that the call `k` and its nested calls append to
`subgraphs`, in order. -/
def emitted (cmp : α → α → Bool)
    (next : List α → List α → α → List α → List α → List α × List α)
    (upper : Nat) (filter : List α → Bool) : Nat → Call α → List (List α)
  | depth, k =>
    (if filter k.current then [k.current] else []) ++
      (if k.current.length < upper then
        match depth with
        | 0 => []
        | depth + 1 => (children cmp next k).flatMap (emitted cmp next upper filter depth)
      else [])

/-- The variant of `next` selected by `listsSorted()`. -/
def nextOf (g : Graph α) (cmp : α → α → Bool) :
    List α → List α → α → List α → List α → List α × List α :=
  if g.listsSorted then linearNext g cmp else nonLinearNext g cmp

/-- The call made by the root loop of `runEnumeration` at the iterator
position `s` of the sorted node vector. -/
def rootCall (g : Graph α) (cmp : α → α → Bool) (s : List α × α × List α) : Call α :=
  ⟨[s.2.1],
   if g.listsSorted then rootCandidatesLinear g cmp s.2.1 s.1
   else rootCandidatesNonLinear g cmp s.2.1 s.1,
   s.1⟩

/-- The calls made by the root loop of `runEnumeration`, in order. -/
def roots (g : Graph α) (cmp : α → α → Bool) : List (Call α) :=
  (splitsFrom [] (sort cmp g.nodes)).map (rootCall g cmp)

/-- The call `k2` is made by the candidate loop of the call `k1`. -/
def Calls (cmp : α → α → Bool)
    (next : List α → List α → α → List α → List α → List α × List α)
    (upper : Nat) (k1 k2 : Call α) : Prop :=
  k1.current.length < upper ∧ k2 ∈ children cmp next k1

/-- The call `k` is reachable from `runEnumeration`: it is a root call or a
nested call of one. -/
def Reachable (g : Graph α) (cmp : α → α → Bool) (upper : Nat) (k : Call α) : Prop :=
  upper ≠ 0 ∧ ∃ r ∈ roots g cmp, Relation.ReflTransGen (Calls cmp (nextOf g cmp) upper) r k

/-- The three vectors of a call are sorted (`candidates` strictly); holds on
every graph. -/
def Call.Weak (cmp : α → α → Bool) (k : Call α) : Prop :=
  WSorted cmp k.current ∧ SSorted cmp k.candidates ∧ WSorted cmp k.forbidden

/-- The set invariant of the search: the three vectors of a call are strictly
sorted and pairwise disjoint. -/
def Call.Inv (cmp : α → α → Bool) (k : Call α) : Prop :=
  SSorted cmp k.current ∧ SSorted cmp k.candidates ∧ SSorted cmp k.forbidden ∧
    (∀ x ∈ k.current, x ∉ k.candidates) ∧ (∀ x ∈ k.current, x ∉ k.forbidden) ∧
    (∀ x ∈ k.candidates, x ∉ k.forbidden)

/-- The candidates of a call are exactly the neighbors of `current` that are in
neither `current` nor `forbidden`. -/
def Call.Exact (g : Graph α) (k : Call α) : Prop :=
  ∀ x, x ∈ k.candidates ↔
    (∃ y ∈ k.current, x ∈ g.adjancency y) ∧ x ∉ k.current ∧ x ∉ k.forbidden

/-- The computation `next` of `(nextCandidates, nextForbidden)` is sound on
sorted vectors: both results are sorted, `nextForbidden` holds exactly the
nodes of `forbidden` and of the candidates before `c`, and every node of
`nextCandidates` is a candidate after `c` or is not in `nextForbidden`. -/
def NextSound (cmp : α → α → Bool)
    (next : List α → List α → α → List α → List α → List α × List α) : Prop :=
  ∀ (cur pre : List α) (c : α) (post forb : List α),
    WSorted cmp cur → WSorted cmp pre → WSorted cmp post → WSorted cmp forb →
      WSorted cmp (next cur pre c post forb).1 ∧ WSorted cmp (next cur pre c post forb).2 ∧
        (∀ x, x ∈ (next cur pre c post forb).2 ↔ x ∈ forb ∨ x ∈ pre) ∧
        (∀ x ∈ (next cur pre c post forb).1, x ∈ post ∨ x ∉ (next cur pre c post forb).2)

/-! ## Test fixtures -/

/-- The clique of `getSimpleGraph(CLIQUE)` in `SimpleTest.cpp`, whose
`GraphTraits` declare `listsSorted()` true. -/
def cliqueGraph : Graph Nat where
  nodes := [1, 2, 3, 4, 5]
  adjancency := fun v =>
    if v = 1 then [2, 3, 4, 5] else if v = 2 then [1, 3, 4, 5] else if v = 3 then [1, 2, 4, 5]
    else if v = 4 then [1, 2, 3, 5] else if v = 5 then [1, 2, 3, 4] else []
  listsSorted := true

/-- The cycle of `getSimpleGraph(CYCLE)` in `SimpleTest.cpp`. -/
def cycleGraph : Graph Nat where
  nodes := [1, 2, 3, 4, 5]
  adjancency := fun v =>
    if v = 1 then [2, 5] else if v = 2 then [1, 3] else if v = 3 then [2, 4]
    else if v = 4 then [3, 5] else if v = 5 then [1, 4] else []
  listsSorted := true

/-- The path of `getSimpleGraph(PATH)` in `SimpleTest.cpp`. -/
def pathGraph : Graph Nat where
  nodes := [1, 2, 3, 4, 5]
  adjancency := fun v =>
    if v = 1 then [2] else if v = 2 then [1, 3] else if v = 3 then [2, 4]
    else if v = 4 then [3, 5] else if v = 5 then [4] else []
  listsSorted := true

/-- The graph of `getSimpleGraph(EMPTY)` in `SimpleTest.cpp`: no node. -/
def emptyGraph : Graph Nat where
  nodes := []
  adjancency := fun _ => []
  listsSorted := true

/-- The graph of `getSimpleGraph(DISCONNECTED)` in `SimpleTest.cpp`: an edge
1-2 and a triangle 3-4-5. -/
def disconnectedGraph : Graph Nat where
  nodes := [1, 2, 3, 4, 5]
  adjancency := fun v =>
    if v = 1 then [2] else if v = 2 then [1] else if v = 3 then [4, 5]
    else if v = 4 then [3, 5] else if v = 5 then [3, 4] else []
  listsSorted := true

/-- A single node that lists itself as its neighbor. -/
def selfLoopGraph : Graph Nat where
  nodes := [1]
  adjancency := fun v => if v = 1 then [1] else []
  listsSorted := true

/-- The value `std::numeric_limits<size_t>::max()` for a 64-bit `size_t`, the bound
the tests use for "unbounded". -/
def sizeMax : Nat := 18446744073709551615

/-- The natural order `std::less` on node numbers. -/
def natLess (a b : Nat) : Bool := decide (a < b)

/-- The filter `LessOrEqualFilter` of `CustomizedTest.cpp`, on node numbers. -/
def LessOrEqualFilter (bound : Nat) (subgraph : List Nat) : Bool :=
  subgraph.all (fun node => !decide (node > bound))

/-- The path 1-2-3 served through the sorted path although the neighbor list
of node 2 is not sorted. -/
def declaredSortedPath : Graph Nat where
  nodes := [1, 2, 3]
  adjancency := fun v => if v = 1 then [2] else if v = 2 then [3, 1] else if v = 3 then [2] else []
  listsSorted := true

/-- A graph whose only listed node has a neighbor that is not listed. -/
def danglingGraph : Graph Nat where
  nodes := [2]
  adjancency := fun v => if v = 2 then [1] else []
  listsSorted := false

end ConsensLib

namespace ConsensLib

variable {α : Type} {cmp : α → α → Bool}

/-! ## The comparator -/

theorem StrictTotal.asymm (h : StrictTotal cmp) {a b : α} (hab : cmp a b = true) :
    cmp b a = false := by
  cases hba : cmp b a with
  | false => rfl
  | true =>
    have h1 := h.trans a b a hab hba
    rw [h.irrefl] at h1
    exact absurd h1 (by simp)

theorem StrictTotal.ne (h : StrictTotal cmp) {a b : α} (hab : cmp a b = true) : a ≠ b := by
  intro e
  subst e
  rw [h.irrefl] at hab
  exact absurd hab (by simp)

theorem StrictTotal.lt_of_ne (h : StrictTotal cmp) {a b : α} (hne : a ≠ b)
    (hba : cmp b a = false) : cmp a b = true := by
  cases hab : cmp a b with
  | true => rfl
  | false => exact absurd (h.total a b hab hba) hne

/-- Transitivity of the induced non-strict order: `a ≤ b` and `b ≤ c` give `a ≤ c`. -/
theorem StrictTotal.le_trans (h : StrictTotal cmp) {a b c : α} (hab : cmp b a = false)
    (hbc : cmp c b = false) : cmp c a = false := by
  cases hca : cmp c a with
  | false => rfl
  | true =>
    cases hab2 : cmp a b with
    | true =>
      have h1 := h.trans c a b hca hab2
      rw [hbc] at h1
      exact absurd h1 (by simp)
    | false =>
      have e := h.total a b hab2 hab
      subst e
      rw [hbc] at hca
      exact absurd hca (by simp)

theorem SSorted.nodup (h : StrictTotal cmp) {l : List α} (hl : SSorted cmp l) : l.Nodup :=
  List.Pairwise.imp (fun hab => h.ne hab) hl

theorem SSorted.wsorted (h : StrictTotal cmp) {l : List α} (hl : SSorted cmp l) :
    WSorted cmp l :=
  List.Pairwise.imp (fun hab => h.asymm hab) hl

theorem WSorted.ssorted (h : StrictTotal cmp) {l : List α} (hl : WSorted cmp l)
    (hn : l.Nodup) : SSorted cmp l := by
  unfold SSorted
  unfold WSorted at hl
  have h2 := List.Pairwise.and hl hn
  exact List.Pairwise.imp (fun hab => h.lt_of_ne hab.2 hab.1) h2

/-- Two strictly increasing sequences with the same elements are equal. -/
theorem SSorted.eq_of_mem_iff (h : StrictTotal cmp) {a b : List α} (ha : SSorted cmp a)
    (hb : SSorted cmp b) (hm : ∀ x, x ∈ a ↔ x ∈ b) : a = b := by
  haveI : IsAntisymm α (fun a b => cmp a b = true) :=
    ⟨fun x y hxy hyx => by
      have h1 := h.asymm hxy
      rw [hyx] at h1
      exact absurd h1 (by simp)⟩
  have hp : a.Perm b := (List.perm_ext_iff_of_nodup (ha.nodup h) (hb.nodup h)).mpr hm
  exact List.eq_of_perm_of_sorted hp ha hb

/-! ## `lower_bound`, `insert` and `erase` -/

theorem perm_vector_insert (l : List α) (p : Nat) (v : α) :
    (vector_insert l p v).Perm (v :: l) := by
  unfold vector_insert
  have h1 : (List.take p l ++ v :: List.drop p l).Perm (v :: (List.take p l ++ List.drop p l)) :=
    List.perm_middle
  rwa [List.take_append_drop] at h1

theorem length_vector_insert (l : List α) (p : Nat) (v : α) :
    (vector_insert l p v).length = l.length + 1 := by
  rw [(perm_vector_insert l p v).length_eq]
  rfl

theorem mem_vector_insert {l : List α} {p : Nat} {v x : α} :
    x ∈ vector_insert l p v ↔ x = v ∨ x ∈ l := by
  rw [(perm_vector_insert l p v).mem_iff]
  simp

theorem insert_lb_cons (e : α) (l : List α) (v : α) :
    vector_insert (e :: l) (lower_bound cmp (e :: l) v) v =
      if cmp e v then e :: vector_insert l (lower_bound cmp l v) v else v :: e :: l := by
  by_cases h : cmp e v = true
  · simp [lower_bound, vector_insert, h]
  · simp [lower_bound, vector_insert, h]

/-- Backtracking: erasing at the lower bound of `c` undoes the insertion of `c`
at its lower bound. -/
theorem restore_current (hirr : cmp c c = false) (l : List α) :
    vector_erase (vector_insert l (lower_bound cmp l c) c)
      (lower_bound cmp (vector_insert l (lower_bound cmp l c) c) c) = l := by
  induction l with
  | nil => simp [lower_bound, vector_insert, vector_erase, hirr]
  | cons e l ih =>
    rw [insert_lb_cons]
    by_cases h : cmp e c = true
    · simp only [h, if_true, lower_bound]
      unfold vector_erase at ih ⊢
      simp [ih]
    · simp [h, lower_bound, hirr, vector_erase]

theorem iterTest_lb_cons (e : α) (l : List α) (n : α) (atEnd : Bool) (p : α → Bool) :
    iterTest (e :: l) (lower_bound cmp (e :: l) n) atEnd p =
      if cmp e n then iterTest l (lower_bound cmp l n) atEnd p else p e := by
  by_cases h : cmp e n = true
  · simp [lower_bound, iterTest, h]
  · simp [lower_bound, iterTest, h]

/-- The binary-search membership test of the source is correct on a sorted
vector. -/
theorem iterTest_found (h : StrictTotal cmp) {l : List α} (hl : WSorted cmp l) (n : α) :
    iterTest l (lower_bound cmp l n) false (fun f => !cmp n f) = true ↔ n ∈ l := by
  induction l with
  | nil => simp [iterTest, lower_bound]
  | cons e l ih =>
    rw [iterTest_lb_cons]
    have hl2 := List.pairwise_cons.mp hl
    by_cases he : cmp e n = true
    · simp only [he, if_true]
      rw [ih hl2.2]
      have hne : n ≠ e := fun e1 => h.ne he e1.symm
      simp [hne]
    · simp only [he]
      have he2 : cmp e n = false := by simpa using he
      constructor
      · intro h1
        have h2 : cmp n e = false := by simpa using h1
        rw [h.total n e h2 he2]
        simp
      · intro h1
        rcases List.mem_cons.mp h1 with h2 | h2
        · subst h2
          simp [h.irrefl]
        · simp [hl2.1 n h2]

theorem iterTest_found_both (h : StrictTotal cmp) {l : List α} (hl : WSorted cmp l) (n : α) :
    iterTest l (lower_bound cmp l n) false (fun x => !cmp x n && !cmp n x) = true ↔ n ∈ l := by
  induction l with
  | nil => simp [iterTest, lower_bound]
  | cons e l ih =>
    rw [iterTest_lb_cons]
    have hl2 := List.pairwise_cons.mp hl
    by_cases he : cmp e n = true
    · simp only [he, if_true]
      rw [ih hl2.2]
      have hne : n ≠ e := fun e1 => h.ne he e1.symm
      simp [hne]
    · simp only [he]
      have he2 : cmp e n = false := by simpa using he
      constructor
      · intro h1
        have h2 : cmp n e = false := by simpa [he2] using h1
        rw [h.total n e h2 he2]
        simp
      · intro h1
        rcases List.mem_cons.mp h1 with h2 | h2
        · subst h2
          simp [h.irrefl]
        · simp [hl2.1 n h2, he2]

theorem iterTest_atEnd (l : List α) (i : Nat) (p : α → Bool) :
    iterTest l i true p = !(iterTest l i false (fun x => !p x)) := by
  unfold iterTest
  cases l[i]? <;> simp

theorem iterTest_absent (h : StrictTotal cmp) {l : List α} (hl : WSorted cmp l) (n : α) :
    iterTest l (lower_bound cmp l n) true (fun y => cmp n y) = true ↔ n ∉ l := by
  rw [iterTest_atEnd, ← iterTest_found h hl n]
  simp

theorem WSorted.insert_lb (h : StrictTotal cmp) {l : List α} (hl : WSorted cmp l) (v : α) :
    WSorted cmp (vector_insert l (lower_bound cmp l v) v) := by
  induction l with
  | nil => simp [vector_insert, lower_bound, WSorted]
  | cons e l ih =>
    rw [insert_lb_cons]
    have hl2 := List.pairwise_cons.mp hl
    by_cases he : cmp e v = true
    · simp only [he, if_true]
      refine List.pairwise_cons.mpr ⟨?_, ih hl2.2⟩
      intro b hb
      rcases mem_vector_insert.mp hb with h1 | h1
      · subst h1
        exact h.asymm he
      · exact hl2.1 b h1
    · simp only [he]
      have he2 : cmp e v = false := by simpa using he
      refine List.pairwise_cons.mpr ⟨?_, hl⟩
      intro b hb
      rcases List.mem_cons.mp hb with h1 | h1
      · subst h1
        exact he2
      · exact h.le_trans he2 (hl2.1 b h1)

theorem SSorted.insert_lb_strict (h : StrictTotal cmp) {l : List α} (hl : SSorted cmp l) {v : α}
    (hv : v ∉ l) : SSorted cmp (vector_insert l (lower_bound cmp l v) v) := by
  induction l with
  | nil => simp [vector_insert, lower_bound, SSorted]
  | cons e l ih =>
    rw [insert_lb_cons]
    have hl2 := List.pairwise_cons.mp hl
    have hne : v ≠ e := fun e1 => hv (by simp [e1])
    have hvl : v ∉ l := fun h1 => hv (List.mem_cons_of_mem _ h1)
    by_cases he : cmp e v = true
    · simp only [he, if_true]
      refine List.pairwise_cons.mpr ⟨?_, ih hl2.2 hvl⟩
      intro b hb
      rcases mem_vector_insert.mp hb with h1 | h1
      · subst h1
        exact he
      · exact hl2.1 b h1
    · simp only [he]
      have he2 : cmp e v = false := by simpa using he
      have hve : cmp v e = true := h.lt_of_ne hne he2
      refine List.pairwise_cons.mpr ⟨?_, hl⟩
      intro b hb
      rcases List.mem_cons.mp hb with h1 | h1
      · subst h1
        exact hve
      · exact h.trans v e b hve (hl2.1 b h1)

/-! ## `set_union`, `set_difference` and `sort` -/

theorem set_union_nil_right (l : List α) : set_union cmp l [] = l := by
  cases l <;> rfl

theorem set_union_cons_cons (x y : α) (l1 l2 : List α) :
    set_union cmp (x :: l1) (y :: l2) =
      if cmp x y then x :: set_union cmp l1 (y :: l2)
      else if cmp y x then y :: set_union cmp (x :: l1) l2
      else x :: set_union cmp l1 l2 := rfl

theorem set_difference_nil_right (l : List α) : set_difference cmp l [] = l := by
  cases l <;> rfl

theorem set_difference_cons_cons (x y : α) (l1 l2 : List α) :
    set_difference cmp (x :: l1) (y :: l2) =
      if cmp x y then x :: set_difference cmp l1 (y :: l2)
      else if cmp y x then set_difference cmp (x :: l1) l2
      else set_difference cmp l1 l2 := rfl

theorem set_union_comm (h : StrictTotal cmp) (a b : List α) :
    set_union cmp a b = set_union cmp b a := by
  induction a generalizing b with
  | nil => rw [set_union_nil_right]; rfl
  | cons x l1 ih1 =>
    induction b with
    | nil => rw [set_union_nil_right]; rfl
    | cons y l2 ih2 =>
      rw [set_union_cons_cons, set_union_cons_cons]
      by_cases hxy : cmp x y = true
      · have hyx := h.asymm hxy
        simp only [hxy, hyx, if_true, Bool.false_eq_true, if_false]
        rw [ih1]
      · have hxy2 : cmp x y = false := by simpa using hxy
        by_cases hyx : cmp y x = true
        · simp only [hxy2, hyx, if_true, Bool.false_eq_true, if_false]
          rw [ih2]
        · have hyx2 : cmp y x = false := by simpa using hyx
          have e := h.total x y hxy2 hyx2
          subst e
          simp only [hxy2, Bool.false_eq_true, if_false]
          rw [ih1]

theorem mem_set_union (h : StrictTotal cmp) (a b : List α) (z : α) :
    z ∈ set_union cmp a b ↔ z ∈ a ∨ z ∈ b := by
  induction a generalizing b with
  | nil => simp [set_union]
  | cons x l1 ih1 =>
    induction b with
    | nil => rw [set_union_nil_right]; simp
    | cons y l2 ih2 =>
      rw [set_union_cons_cons]
      by_cases hxy : cmp x y = true
      · simp only [hxy, if_true, List.mem_cons, ih1]
        tauto
      · have hxy2 : cmp x y = false := by simpa using hxy
        by_cases hyx : cmp y x = true
        · simp only [hxy2, hyx, if_true, Bool.false_eq_true, if_false, List.mem_cons, ih2]
          tauto
        · have hyx2 : cmp y x = false := by simpa using hyx
          have e := h.total x y hxy2 hyx2
          subst e
          simp only [hxy2, Bool.false_eq_true, if_false, List.mem_cons, ih1]
          tauto

theorem WSorted.union (h : StrictTotal cmp) {a b : List α} (ha : WSorted cmp a)
    (hb : WSorted cmp b) : WSorted cmp (set_union cmp a b) := by
  induction a generalizing b with
  | nil => simpa [set_union] using hb
  | cons x l1 ih1 =>
    induction b with
    | nil => rw [set_union_nil_right]; exact ha
    | cons y l2 ih2 =>
      have ha2 := List.pairwise_cons.mp ha
      have hb2 := List.pairwise_cons.mp hb
      rw [set_union_cons_cons]
      by_cases hxy : cmp x y = true
      · simp only [hxy, if_true]
        refine List.pairwise_cons.mpr ⟨?_, ih1 ha2.2 hb⟩
        intro z hz
        rcases (mem_set_union h _ _ z).mp hz with h1 | h1
        · exact ha2.1 z h1
        · rcases List.mem_cons.mp h1 with h2 | h2
          · subst h2; exact h.asymm hxy
          · exact h.le_trans (h.asymm hxy) (hb2.1 z h2)
      · have hxy2 : cmp x y = false := by simpa using hxy
        by_cases hyx : cmp y x = true
        · simp only [hxy2, hyx, if_true, Bool.false_eq_true, if_false]
          refine List.pairwise_cons.mpr ⟨?_, ih2 hb2.2⟩
          intro z hz
          rcases (mem_set_union h _ _ z).mp hz with h1 | h1
          · rcases List.mem_cons.mp h1 with h2 | h2
            · subst h2; exact hxy2
            · exact h.le_trans hxy2 (ha2.1 z h2)
          · exact hb2.1 z h1
        · have hyx2 : cmp y x = false := by simpa using hyx
          have e := h.total x y hxy2 hyx2
          subst e
          simp only [hxy2, Bool.false_eq_true, if_false]
          refine List.pairwise_cons.mpr ⟨?_, ih1 ha2.2 hb2.2⟩
          intro z hz
          rcases (mem_set_union h _ _ z).mp hz with h1 | h1
          · exact ha2.1 z h1
          · exact hb2.1 z h1

theorem SSorted.union_strict (h : StrictTotal cmp) {a b : List α} (ha : SSorted cmp a)
    (hb : SSorted cmp b) : SSorted cmp (set_union cmp a b) := by
  induction a generalizing b with
  | nil => simpa [set_union] using hb
  | cons x l1 ih1 =>
    induction b with
    | nil => rw [set_union_nil_right]; exact ha
    | cons y l2 ih2 =>
      have ha2 := List.pairwise_cons.mp ha
      have hb2 := List.pairwise_cons.mp hb
      rw [set_union_cons_cons]
      by_cases hxy : cmp x y = true
      · simp only [hxy, if_true]
        refine List.pairwise_cons.mpr ⟨?_, ih1 ha2.2 hb⟩
        intro z hz
        rcases (mem_set_union h _ _ z).mp hz with h1 | h1
        · exact ha2.1 z h1
        · rcases List.mem_cons.mp h1 with h2 | h2
          · subst h2; exact hxy
          · exact h.trans x y z hxy (hb2.1 z h2)
      · have hxy2 : cmp x y = false := by simpa using hxy
        by_cases hyx : cmp y x = true
        · simp only [hxy2, hyx, if_true, Bool.false_eq_true, if_false]
          refine List.pairwise_cons.mpr ⟨?_, ih2 hb2.2⟩
          intro z hz
          rcases (mem_set_union h _ _ z).mp hz with h1 | h1
          · rcases List.mem_cons.mp h1 with h2 | h2
            · subst h2; exact hyx
            · exact h.trans y x z hyx (ha2.1 z h2)
          · exact hb2.1 z h1
        · have hyx2 : cmp y x = false := by simpa using hyx
          have e := h.total x y hxy2 hyx2
          subst e
          simp only [hxy2, Bool.false_eq_true, if_false]
          refine List.pairwise_cons.mpr ⟨?_, ih1 ha2.2 hb2.2⟩
          intro z hz
          rcases (mem_set_union h _ _ z).mp hz with h1 | h1
          · exact ha2.1 z h1
          · exact hb2.1 z h1

theorem set_difference_sublist (a b : List α) : (set_difference cmp a b).Sublist a := by
  induction a generalizing b with
  | nil => simp [set_difference]
  | cons x l1 ih1 =>
    induction b with
    | nil => rw [set_difference_nil_right]
    | cons y l2 ih2 =>
      rw [set_difference_cons_cons]
      by_cases hxy : cmp x y = true
      · simp only [hxy, if_true]
        exact (ih1 _).cons₂ x
      · by_cases hyx : cmp y x = true
        · simp only [hxy, hyx, if_true, if_false]
          exact ih2
        · simp only [hxy, hyx, if_false]
          exact (ih1 _).cons x

theorem SSorted.difference {a : List α} (ha : SSorted cmp a) (b : List α) :
    SSorted cmp (set_difference cmp a b) :=
  List.Pairwise.sublist (set_difference_sublist a b) ha

theorem mem_set_difference (h : StrictTotal cmp) {a b : List α} (ha : SSorted cmp a)
    (hb : WSorted cmp b) (z : α) :
    z ∈ set_difference cmp a b ↔ z ∈ a ∧ z ∉ b := by
  induction a generalizing b with
  | nil => simp [set_difference]
  | cons x l1 ih1 =>
    induction b with
    | nil => rw [set_difference_nil_right]; simp
    | cons y l2 ih2 =>
      have ha2 := List.pairwise_cons.mp ha
      have hb2 := List.pairwise_cons.mp hb
      rw [set_difference_cons_cons]
      by_cases hxy : cmp x y = true
      · simp only [hxy, if_true, List.mem_cons, ih1 ha2.2 hb]
        constructor
        · rintro (h1 | h1)
          · subst h1
            refine ⟨Or.inl rfl, ?_⟩
            rintro (h2 | h2)
            · exact h.ne hxy h2
            · have h3 := hb2.1 z h2
              rw [hxy] at h3
              exact absurd h3 (by simp)
          · exact ⟨Or.inr h1.1, h1.2⟩
        · rintro ⟨h1 | h1, h2⟩
          · exact Or.inl h1
          · exact Or.inr ⟨h1, h2⟩
      · have hxy2 : cmp x y = false := by simpa using hxy
        by_cases hyx : cmp y x = true
        · simp only [hxy2, hyx, if_true, Bool.false_eq_true, if_false, ih2 hb2.2,
            List.mem_cons]
          constructor
          · rintro ⟨h1, h2⟩
            refine ⟨h1, ?_⟩
            rintro (h3 | h3)
            · subst h3
              rcases h1 with h4 | h4
              · exact h.ne hyx h4
              · have h5 := ha2.1 z h4
                rw [hxy2] at h5
                exact absurd h5 (by simp)
            · exact h2 h3
          · rintro ⟨h1, h2⟩
            exact ⟨h1, fun h3 => h2 (Or.inr h3)⟩
        · have hyx2 : cmp y x = false := by simpa using hyx
          have e := h.total x y hxy2 hyx2
          subst e
          simp only [hxy2, Bool.false_eq_true, if_false, ih1 ha2.2 hb2.2, List.mem_cons]
          constructor
          · rintro ⟨h1, h2⟩
            refine ⟨Or.inr h1, ?_⟩
            rintro (h3 | h3)
            · subst h3
              exact h.ne (ha2.1 z h1) rfl
            · exact h2 h3
          · rintro ⟨h1 | h1, h2⟩
            · exact absurd (Or.inl h1) h2
            · exact ⟨h1, fun h3 => h2 (Or.inr h3)⟩

theorem perm_sortInsert (v : α) (l : List α) : (sortInsert cmp v l).Perm (v :: l) := by
  induction l with
  | nil => simp [sortInsert]
  | cons e l ih =>
    unfold sortInsert
    by_cases hve : cmp v e = true
    · simp [hve]
    · simp only [hve, if_false]
      exact (List.Perm.cons e ih).trans (List.Perm.swap v e l)

theorem perm_sort (l : List α) : (sort cmp l).Perm l := by
  induction l with
  | nil => simp [sort]
  | cons v l ih =>
    unfold sort
    exact (perm_sortInsert v _).trans (List.Perm.cons v ih)

theorem mem_sort {l : List α} {x : α} : x ∈ sort cmp l ↔ x ∈ l :=
  (perm_sort l).mem_iff

theorem WSorted.sort_insert (h : StrictTotal cmp) {l : List α} (hl : WSorted cmp l) (v : α) :
    WSorted cmp (sortInsert cmp v l) := by
  induction l with
  | nil => simp [sortInsert, WSorted]
  | cons e l ih =>
    have hl2 := List.pairwise_cons.mp hl
    unfold sortInsert
    by_cases hve : cmp v e = true
    · simp only [hve, if_true]
      refine List.pairwise_cons.mpr ⟨?_, hl⟩
      intro b hb
      rcases List.mem_cons.mp hb with h1 | h1
      · subst h1; exact h.asymm hve
      · exact h.le_trans (h.asymm hve) (hl2.1 b h1)
    · have hve2 : cmp v e = false := by simpa using hve
      simp only [hve2, Bool.false_eq_true, if_false]
      refine List.pairwise_cons.mpr ⟨?_, ih hl2.2⟩
      intro b hb
      rcases List.mem_cons.mp ((perm_sortInsert v l).mem_iff.mp hb) with h1 | h1
      · subst h1; exact hve2
      · exact hl2.1 b h1

theorem wsorted_sort (h : StrictTotal cmp) (l : List α) : WSorted cmp (sort cmp l) := by
  induction l with
  | nil => simp [sort, WSorted]
  | cons v l ih =>
    unfold sort
    exact ih.sort_insert h v

theorem ssorted_sort (h : StrictTotal cmp) {l : List α} (hl : l.Nodup) :
    SSorted cmp (sort cmp l) :=
  (wsorted_sort h l).ssorted h ((perm_sort l).nodup_iff.mpr hl)

/-! ## The next candidate and forbidden sets -/

theorem nonLinearNeighbor_spec (h : StrictTotal cmp) {nf cur nc : List α}
    (hnf : WSorted cmp nf) (hcur : WSorted cmp cur) (hnc : SSorted cmp nc) (n : α) :
    SSorted cmp (nonLinearNeighbor cmp nf cur nc n) ∧
      ∀ z, z ∈ nonLinearNeighbor cmp nf cur nc n ↔ z ∈ nc ∨ (z = n ∧ n ∉ nf ∧ n ∉ cur) := by
  unfold nonLinearNeighbor
  simp only []
  by_cases h1 : n ∈ nf
  · rw [if_pos ((iterTest_found h hnf n).mpr h1)]
    refine ⟨hnc, fun z => ?_⟩
    constructor
    · exact fun hz => Or.inl hz
    · rintro (hz | ⟨_, h2, _⟩)
      · exact hz
      · exact absurd h1 h2
  · rw [if_neg (fun h2 => h1 ((iterTest_found h hnf n).mp h2))]
    by_cases h3 : n ∈ cur
    · rw [if_pos ((iterTest_found_both h hcur n).mpr h3)]
      refine ⟨hnc, fun z => ?_⟩
      constructor
      · exact fun hz => Or.inl hz
      · rintro (hz | ⟨_, _, h2⟩)
        · exact hz
        · exact absurd h3 h2
    · rw [if_neg (fun h2 => h3 ((iterTest_found_both h hcur n).mp h2))]
      by_cases h4 : n ∈ nc
      · rw [if_neg (fun h2 => (iterTest_absent h (hnc.wsorted h) n).mp h2 h4)]
        refine ⟨hnc, fun z => ?_⟩
        constructor
        · exact fun hz => Or.inl hz
        · rintro (hz | ⟨hz, _, _⟩)
          · exact hz
          · rw [hz]; exact h4
      · rw [if_pos ((iterTest_absent h (hnc.wsorted h) n).mpr h4)]
        refine ⟨hnc.insert_lb_strict h h4, fun z => ?_⟩
        rw [mem_vector_insert]
        constructor
        · rintro (hz | hz)
          · exact Or.inr ⟨hz, h1, h3⟩
          · exact Or.inl hz
        · rintro (hz | ⟨hz, _, _⟩)
          · exact Or.inr hz
          · exact Or.inl hz

theorem nonLinearNeighbor_foldl (h : StrictTotal cmp) {nf cur : List α}
    (hnf : WSorted cmp nf) (hcur : WSorted cmp cur) (ns : List α) :
    ∀ nc : List α, SSorted cmp nc →
      SSorted cmp (ns.foldl (nonLinearNeighbor cmp nf cur) nc) ∧
        ∀ z, z ∈ ns.foldl (nonLinearNeighbor cmp nf cur) nc ↔
          z ∈ nc ∨ (z ∈ ns ∧ z ∉ nf ∧ z ∉ cur) := by
  induction ns with
  | nil =>
    intro nc hnc
    simp [hnc]
  | cons n ns ih =>
    intro nc hnc
    have h1 := nonLinearNeighbor_spec h hnf hcur hnc n
    have h2 := ih _ h1.1
    rw [List.foldl_cons]
    refine ⟨h2.1, fun z => ?_⟩
    rw [h2.2 z, h1.2 z, List.mem_cons]
    constructor
    · rintro ((hz | ⟨hz, h3, h4⟩) | ⟨hz, h3, h4⟩)
      · exact Or.inl hz
      · exact Or.inr ⟨Or.inl hz, by rw [hz]; exact h3, by rw [hz]; exact h4⟩
      · exact Or.inr ⟨Or.inr hz, h3, h4⟩
    · rintro (hz | ⟨hz | hz, h3, h4⟩)
      · exact Or.inl (Or.inl hz)
      · exact Or.inl (Or.inr ⟨hz, by rw [← hz]; exact h3, by rw [← hz]; exact h4⟩)
      · exact Or.inr ⟨hz, h3, h4⟩

theorem nonLinearNext_forbidden (g : Graph α) (cur pre : List α) (c : α) (post forb : List α) :
    (nonLinearNext g cmp cur pre c post forb).2 = set_union cmp forb pre := rfl

theorem nonLinearNext_candidates (h : StrictTotal cmp) (g : Graph α) {cur pre post forb : List α}
    (c : α) (hcur : WSorted cmp cur) (hpre : WSorted cmp pre) (hpost : SSorted cmp post)
    (hforb : WSorted cmp forb) :
    SSorted cmp (nonLinearNext g cmp cur pre c post forb).1 ∧
      ∀ z, z ∈ (nonLinearNext g cmp cur pre c post forb).1 ↔
        z ∈ post ∨ (z ∈ g.adjancency c ∧ z ∉ set_union cmp forb pre ∧ z ∉ cur) :=
  nonLinearNeighbor_foldl h (hforb.union h hpre) hcur (g.adjancency c) post hpost

/-- On sorted adjacency lists the sorted path computes the same next candidate
and forbidden sets as the unsorted path. -/
theorem linearNext_eq_nonLinearNext (h : StrictTotal cmp) (g : Graph α)
    {cur pre post forb : List α} (c : α) (hadj : SSorted cmp (g.adjancency c))
    (hcur : WSorted cmp cur) (hpre : WSorted cmp pre) (hpost : SSorted cmp post)
    (hforb : WSorted cmp forb) :
    linearNext g cmp cur pre c post forb = nonLinearNext g cmp cur pre c post forb := by
  have hnf : WSorted cmp (set_union cmp forb pre) := hforb.union h hpre
  have h1 := nonLinearNext_candidates h g c hcur hpre hpost hforb
  refine Prod.ext ?_ ?_
  · show set_union cmp post (set_difference cmp (set_difference cmp (g.adjancency c) cur)
      (set_union cmp pre forb)) = _
    rw [set_union_comm h pre forb]
    have h2 : SSorted cmp (set_difference cmp (g.adjancency c) cur) := hadj.difference cur
    have h3 : SSorted cmp (set_difference cmp (set_difference cmp (g.adjancency c) cur)
      (set_union cmp forb pre)) := h2.difference _
    refine SSorted.eq_of_mem_iff h (hpost.union_strict h h3) h1.1 (fun z => ?_)
    rw [h1.2 z, mem_set_union h, mem_set_difference h h2 hnf, mem_set_difference h hadj hcur]
    tauto
  · show set_union cmp pre forb = set_union cmp forb pre
    exact set_union_comm h pre forb

/-! ## The procedures compute the search tree -/

section Tree

variable {next : List α → List α → α → List α → List α → List α × List α}

theorem candidateLoop_eq (hirr : ∀ a, cmp a a = false)
    (child : List α → List α → List α → List (List α) → State α)
    (E : Call α → List (List α))
    (hchild : ∀ cur cands forb sg, child cur cands forb sg = (cur, sg ++ E ⟨cur, cands, forb⟩))
    (cur forb : List α) (rest : List α) :
    ∀ (pre : List α) (sg : List (List α)),
      candidateLoop cmp next child forb pre rest (cur, sg) =
        (cur, sg ++ ((splitsFrom pre rest).map (childCall cmp next cur forb)).flatMap E) := by
  induction rest with
  | nil =>
    intro pre sg
    simp [candidateLoop, splitsFrom]
  | cons c post ih =>
    intro pre sg
    unfold candidateLoop
    simp only [hchild, restore_current (hirr c)]
    rw [ih]
    simp [splitsFrom, childCall, List.append_assoc]

theorem generateRecursive_eq (hirr : ∀ a, cmp a a = false) (upper : Nat)
    (filter : List α → Bool) (depth : Nat) :
    ∀ (cur cands forb : List α) (sg : List (List α)),
      generateRecursive cmp next upper filter depth cur cands forb sg =
        (cur, sg ++ emitted cmp next upper filter depth ⟨cur, cands, forb⟩) := by
  induction depth with
  | zero =>
    intro cur cands forb sg
    unfold generateRecursive emitted
    by_cases hf : filter cur = true <;> by_cases hu : cur.length < upper <;> simp [hf, hu]
  | succ d ih =>
    intro cur cands forb sg
    unfold generateRecursive emitted
    by_cases hu : cur.length < upper
    · simp only [hu, if_true]
      rw [candidateLoop_eq hirr _ (emitted cmp next upper filter d) ih]
      by_cases hf : filter cur = true <;> simp [hf, children]
    · by_cases hf : filter cur = true <;> simp [hf, hu]

end Tree

theorem rootStep_eq (hirr : ∀ a, cmp a a = false) (g : Graph α) (upper : Nat)
    (filter : List α → Bool) (forb : List α) (v : α) (post : List α) (sg : List (List α)) :
    rootStep g upper filter cmp forb v sg =
      sg ++ emitted cmp (nextOf g cmp) upper filter (upper - 1) (rootCall g cmp (forb, v, post)) := by
  unfold rootStep nextOf rootCall generateRecursiveLinear generateRecursiveNonLinear
  by_cases hs : g.listsSorted = true
  · simp [hs, generateRecursive_eq hirr]
  · simp [hs, generateRecursive_eq hirr]

theorem rootLoop_eq (hirr : ∀ a, cmp a a = false) (g : Graph α) (upper : Nat)
    (filter : List α → Bool) (rest : List α) :
    ∀ (pre : List α) (sg : List (List α)),
      rootLoop g upper filter cmp pre rest sg =
        sg ++ ((splitsFrom pre rest).map (rootCall g cmp)).flatMap
          (emitted cmp (nextOf g cmp) upper filter (upper - 1)) := by
  induction rest with
  | nil =>
    intro pre sg
    simp [rootLoop, splitsFrom]
  | cons v post ih =>
    intro pre sg
    unfold rootLoop
    rw [ih, rootStep_eq hirr g upper filter pre v post]
    simp [splitsFrom, List.append_assoc]

/-- The result of the driver is the concatenation, over the root calls in
order, of the sequences emitted in the search tree below each root. -/
theorem runEnumeration_eq (hirr : ∀ a, cmp a a = false) (g : Graph α) (upper : Nat)
    (filter : List α → Bool) :
    runEnumeration g upper filter cmp =
      if upper = 0 then []
      else (roots g cmp).flatMap (emitted cmp (nextOf g cmp) upper filter (upper - 1)) := by
  unfold runEnumeration roots
  by_cases hu : upper = 0
  · simp [hu]
  · simp only [hu, if_false]
    rw [rootLoop_eq hirr]
    simp

/-! ## The depth counter is never exhausted -/

section Depth

variable {next : List α → List α → α → List α → List α → List α × List α}

theorem length_vector_erase_ge (l : List α) (i : Nat) :
    l.length ≤ (vector_erase l i).length + 1 := by
  unfold vector_erase
  rw [List.length_eraseIdx]
  split <;> omega

theorem candidateLoop_length
    (child : List α → List α → List α → List (List α) → State α)
    (hchild : ∀ cur cands forb sg, cur.length ≤ (child cur cands forb sg).1.length)
    (forb rest : List α) :
    ∀ (pre : List α) (st : State α),
      st.1.length ≤ (candidateLoop cmp next child forb pre rest st).1.length := by
  induction rest with
  | nil =>
    intro pre st
    simp [candidateLoop]
  | cons c post ih =>
    intro pre st
    simp only [candidateLoop]
    refine le_trans ?_ (ih _ _)
    have h1 := hchild (vector_insert st.1 (lower_bound cmp st.1 c) c)
      (next (vector_insert st.1 (lower_bound cmp st.1 c) c) pre c post forb).1
      (next (vector_insert st.1 (lower_bound cmp st.1 c) c) pre c post forb).2 st.2
    rw [length_vector_insert] at h1
    have h2 := length_vector_erase_ge
      (child (vector_insert st.1 (lower_bound cmp st.1 c) c)
        (next (vector_insert st.1 (lower_bound cmp st.1 c) c) pre c post forb).1
        (next (vector_insert st.1 (lower_bound cmp st.1 c) c) pre c post forb).2 st.2).1
      (lower_bound cmp
        (child (vector_insert st.1 (lower_bound cmp st.1 c) c)
          (next (vector_insert st.1 (lower_bound cmp st.1 c) c) pre c post forb).1
          (next (vector_insert st.1 (lower_bound cmp st.1 c) c) pre c post forb).2 st.2).1 c)
    simp only
    omega

/-- A call never returns a shorter `current` than it received. -/
theorem generateRecursive_length (upper : Nat) (filter : List α → Bool) (depth : Nat) :
    ∀ (cur cands forb : List α) (sg : List (List α)),
      cur.length ≤ (generateRecursive cmp next upper filter depth cur cands forb sg).1.length := by
  induction depth with
  | zero =>
    intro cur cands forb sg
    unfold generateRecursive
    by_cases hu : cur.length < upper <;> simp [hu]
  | succ d ih =>
    intro cur cands forb sg
    unfold generateRecursive
    by_cases hu : cur.length < upper
    · simp only [hu, if_true]
      exact candidateLoop_length _ ih forb cands [] (cur, _)
    · simp [hu]

theorem candidateLoop_congr_length (n : Nat)
    (child1 child2 : List α → List α → List α → List (List α) → State α)
    (hmono : ∀ cur cands forb sg, cur.length ≤ (child1 cur cands forb sg).1.length)
    (hchild : ∀ cur cands forb sg, n ≤ cur.length →
      child1 cur cands forb sg = child2 cur cands forb sg)
    (forb rest : List α) :
    ∀ (pre : List α) (st : State α), n ≤ st.1.length + 1 →
      candidateLoop cmp next child1 forb pre rest st =
        candidateLoop cmp next child2 forb pre rest st := by
  induction rest with
  | nil =>
    intro pre st _
    simp [candidateLoop]
  | cons c post ih =>
    intro pre st hst
    simp only [candidateLoop]
    have hlen : n ≤ (vector_insert st.1 (lower_bound cmp st.1 c) c).length := by
      rw [length_vector_insert]
      exact hst
    rw [← hchild _ _ _ _ hlen]
    refine ih _ _ ?_
    have h1 := hmono (vector_insert st.1 (lower_bound cmp st.1 c) c)
      (next (vector_insert st.1 (lower_bound cmp st.1 c) c) pre c post forb).1
      (next (vector_insert st.1 (lower_bound cmp st.1 c) c) pre c post forb).2 st.2
    have h2 := length_vector_erase_ge
      (child1 (vector_insert st.1 (lower_bound cmp st.1 c) c)
        (next (vector_insert st.1 (lower_bound cmp st.1 c) c) pre c post forb).1
        (next (vector_insert st.1 (lower_bound cmp st.1 c) c) pre c post forb).2 st.2).1
      (lower_bound cmp
        (child1 (vector_insert st.1 (lower_bound cmp st.1 c) c)
          (next (vector_insert st.1 (lower_bound cmp st.1 c) c) pre c post forb).1
          (next (vector_insert st.1 (lower_bound cmp st.1 c) c) pre c post forb).2 st.2).1 c)
    simp only
    omega

/-- Any two values of the depth counter that are at least
`upper - current.size()` give the same result: the counter of the embedding
never cuts the recursion of the source short. -/
theorem generateRecursive_depth_irrelevant (upper : Nat) (filter : List α → Bool)
    (d1 : Nat) :
    ∀ (d2 : Nat) (cur cands forb : List α) (sg : List (List α)),
      upper - cur.length ≤ d1 → upper - cur.length ≤ d2 →
        generateRecursive cmp next upper filter d1 cur cands forb sg =
          generateRecursive cmp next upper filter d2 cur cands forb sg := by
  induction d1 with
  | zero =>
    intro d2 cur cands forb sg h1 _
    have hu : ¬ cur.length < upper := by omega
    unfold generateRecursive
    simp [hu]
  | succ d ih =>
    intro d2 cur cands forb sg _ h2
    by_cases hu : cur.length < upper
    · cases d2 with
      | zero => omega
      | succ e =>
        unfold generateRecursive
        simp only [hu, if_true]
        refine candidateLoop_congr_length (cur.length + 1) _ _
          (generateRecursive_length upper filter d) ?_ forb cands [] _ (le_refl _)
        intro c cs fb s hc
        exact ih e c cs fb s (by omega) (by omega)
    · unfold generateRecursive
      simp [hu]

end Depth

/-! ## The filter only selects what is reported -/

section Filter

variable {next : List α → List α → α → List α → List α → List α × List α}

theorem candidateLoop_filter (f : List α → Bool)
    (childF childAll : List α → List α → List α → List (List α) → State α)
    (hchild : ∀ cur cands forb sg sg',
      (childF cur cands forb sg).1 = (childAll cur cands forb sg').1 ∧
        ∃ e, (childAll cur cands forb sg').2 = sg' ++ e ∧
          (childF cur cands forb sg).2 = sg ++ e.filter f)
    (forb rest : List α) :
    ∀ (pre cur : List α) (sg sg' : List (List α)),
      (candidateLoop cmp next childF forb pre rest (cur, sg)).1 =
          (candidateLoop cmp next childAll forb pre rest (cur, sg')).1 ∧
        ∃ e, (candidateLoop cmp next childAll forb pre rest (cur, sg')).2 = sg' ++ e ∧
          (candidateLoop cmp next childF forb pre rest (cur, sg)).2 = sg ++ e.filter f := by
  induction rest with
  | nil =>
    intro pre cur sg sg'
    exact ⟨rfl, [], by simp [candidateLoop], by simp [candidateLoop]⟩
  | cons c post ih =>
    intro pre cur sg sg'
    simp only [candidateLoop]
    obtain ⟨h1, e1, h2, h3⟩ := hchild (vector_insert cur (lower_bound cmp cur c) c)
      (next (vector_insert cur (lower_bound cmp cur c) c) pre c post forb).1
      (next (vector_insert cur (lower_bound cmp cur c) c) pre c post forb).2 sg sg'
    rw [h1, h2, h3]
    obtain ⟨h4, e2, h5, h6⟩ := ih (pre ++ [c])
      (vector_erase
        (childAll (vector_insert cur (lower_bound cmp cur c) c)
          (next (vector_insert cur (lower_bound cmp cur c) c) pre c post forb).1
          (next (vector_insert cur (lower_bound cmp cur c) c) pre c post forb).2 sg').1
        (lower_bound cmp
          (childAll (vector_insert cur (lower_bound cmp cur c) c)
            (next (vector_insert cur (lower_bound cmp cur c) c) pre c post forb).1
            (next (vector_insert cur (lower_bound cmp cur c) c) pre c post forb).2 sg').1 c))
      (sg ++ e1.filter f) (sg' ++ e1)
    refine ⟨h4, e1 ++ e2, ?_, ?_⟩
    · rw [h5, List.append_assoc]
    · rw [h6, List.filter_append, List.append_assoc]

theorem generateRecursive_filter (upper : Nat) (f : List α → Bool) (depth : Nat) :
    ∀ (cur cands forb : List α) (sg sg' : List (List α)),
      (generateRecursive cmp next upper f depth cur cands forb sg).1 =
          (generateRecursive cmp next upper NoFilter depth cur cands forb sg').1 ∧
        ∃ e, (generateRecursive cmp next upper NoFilter depth cur cands forb sg').2 = sg' ++ e ∧
          (generateRecursive cmp next upper f depth cur cands forb sg).2 = sg ++ e.filter f := by
  induction depth with
  | zero =>
    intro cur cands forb sg sg'
    unfold generateRecursive
    refine ⟨by by_cases hu : cur.length < upper <;> simp [hu], [cur], ?_, ?_⟩
    · by_cases hu : cur.length < upper <;> simp [hu, NoFilter]
    · by_cases hu : cur.length < upper <;> by_cases hf : f cur = true <;>
        simp [hu, hf, List.filter]
  | succ d ih =>
    intro cur cands forb sg sg'
    unfold generateRecursive
    by_cases hu : cur.length < upper
    · simp only [hu, if_true]
      obtain ⟨h1, e, h2, h3⟩ := candidateLoop_filter f
        (generateRecursive cmp next upper f d) (generateRecursive cmp next upper NoFilter d)
        ih forb cands [] cur (if f cur = true then sg ++ [cur] else sg)
        (if NoFilter cur = true then sg' ++ [cur] else sg')
      refine ⟨h1, cur :: e, ?_, ?_⟩
      · rw [h2]
        simp [NoFilter]
      · rw [h3]
        by_cases hf : f cur = true <;> simp [hf, List.filter]
    · refine ⟨by simp [hu], [cur], by simp [hu, NoFilter], ?_⟩
      by_cases hf : f cur = true <;> simp [hu, hf, List.filter]

end Filter

theorem rootStep_filter (g : Graph α) (upper : Nat) (f : List α → Bool) (forb : List α)
    (v : α) (sg sg' : List (List α)) :
    ∃ e, rootStep g upper NoFilter cmp forb v sg' = sg' ++ e ∧
      rootStep g upper f cmp forb v sg = sg ++ e.filter f := by
  unfold rootStep generateRecursiveLinear generateRecursiveNonLinear
  by_cases hs : g.listsSorted = true
  · simp only [hs, if_true]
    obtain ⟨_, e, h2, h3⟩ := @generateRecursive_filter α cmp (linearNext g cmp)
      upper f (upper - [v].length) [v] (rootCandidatesLinear g cmp v forb) forb sg sg'
    exact ⟨e, h2, h3⟩
  · simp only [hs, if_false]
    obtain ⟨_, e, h2, h3⟩ := @generateRecursive_filter α cmp (nonLinearNext g cmp)
      upper f (upper - [v].length) [v] (rootCandidatesNonLinear g cmp v forb) forb sg sg'
    exact ⟨e, h2, h3⟩

theorem rootLoop_filter (g : Graph α) (upper : Nat) (f : List α → Bool) (rest : List α) :
    ∀ (pre : List α) (sg sg' : List (List α)),
      ∃ e, rootLoop g upper NoFilter cmp pre rest sg' = sg' ++ e ∧
        rootLoop g upper f cmp pre rest sg = sg ++ e.filter f := by
  induction rest with
  | nil =>
    intro pre sg sg'
    exact ⟨[], by simp [rootLoop], by simp [rootLoop]⟩
  | cons v post ih =>
    intro pre sg sg'
    simp only [rootLoop]
    obtain ⟨e1, h1, h2⟩ := @rootStep_filter α cmp g upper f pre v sg sg'
    rw [h1, h2]
    obtain ⟨e2, h3, h4⟩ := ih (pre ++ [v]) (sg ++ e1.filter f) (sg' ++ e1)
    refine ⟨e1 ++ e2, ?_, ?_⟩
    · rw [h3, List.append_assoc]
    · rw [h4, List.filter_append, List.append_assoc]

/-- The run with a filter is the run with `NoFilter`, filtered afterwards. -/
theorem runEnumeration_filter_eq (g : Graph α) (upper : Nat) (f : List α → Bool)
    (cmp : α → α → Bool) :
    runEnumeration g upper f cmp = (runEnumeration g upper NoFilter cmp).filter f := by
  unfold runEnumeration
  by_cases hu : upper = 0
  · simp [hu]
  · simp only [hu, if_false]
    obtain ⟨e, h1, h2⟩ := @rootLoop_filter α cmp g upper f (sort cmp g.nodes) [] [] []
    rw [h1, h2]
    simp

/-! ## Iterator positions and child calls -/

theorem mem_splitsFrom {rest : List α} :
    ∀ {pre : List α} {s : List α × α × List α},
      s ∈ splitsFrom pre rest ↔ ∃ p, s.1 = pre ++ p ∧ rest = p ++ s.2.1 :: s.2.2 := by
  induction rest with
  | nil =>
    intro pre s
    simp [splitsFrom]
  | cons c post ih =>
    intro pre s
    simp only [splitsFrom, List.mem_cons, ih]
    constructor
    · rintro (h1 | ⟨p, h1, h2⟩)
      · subst h1
        exact ⟨[], by simp, by simp⟩
      · exact ⟨c :: p, by simp [h1], by simp [h2]⟩
    · rintro ⟨p, h1, h2⟩
      cases p with
      | nil =>
        left
        simp only [List.nil_append, List.cons.injEq] at h2
        obtain ⟨s1, s2, s3⟩ := s
        simp only [List.append_nil] at h1
        simp only at h2
        simp [h1, h2.1, h2.2]
      | cons x p =>
        right
        simp only [List.cons_append, List.cons.injEq] at h2
        refine ⟨p, ?_, h2.2⟩
        rw [h1, h2.1]
        simp

theorem pairwise_splitsFrom (rest : List α) :
    ∀ pre : List α, (splitsFrom pre rest).Pairwise (fun a b => a.2.1 ∈ b.1) := by
  induction rest with
  | nil =>
    intro pre
    simp [splitsFrom]
  | cons c post ih =>
    intro pre
    simp only [splitsFrom]
    refine List.pairwise_cons.mpr ⟨?_, ih _⟩
    intro b hb
    obtain ⟨p, h1, _⟩ := mem_splitsFrom.mp hb
    rw [h1]
    simp

section Children

variable {next : List α → List α → α → List α → List α → List α × List α}

theorem mem_children {k k1 : Call α} :
    k1 ∈ children cmp next k ↔
      ∃ p c post, k.candidates = p ++ c :: post ∧
        k1 = childCall cmp next k.current k.forbidden (p, c, post) := by
  unfold children
  rw [List.mem_map]
  constructor
  · rintro ⟨⟨p, c, post⟩, h1, h2⟩
    obtain ⟨q, h3, h4⟩ := mem_splitsFrom.mp h1
    simp only [List.nil_append] at h3
    subst h3
    exact ⟨p, c, post, h4, h2.symm⟩
  · rintro ⟨p, c, post, h1, h2⟩
    exact ⟨(p, c, post), mem_splitsFrom.mpr ⟨p, by simp, h1⟩, h2.symm⟩

theorem children_length {k k1 : Call α} (h1 : k1 ∈ children cmp next k) :
    k1.current.length = k.current.length + 1 := by
  obtain ⟨p, c, post, _, h2⟩ := mem_children.mp h1
  rw [h2]
  exact length_vector_insert _ _ _

/-- Every emitted sequence passed the filter and is the `current` of a call of
the search tree. -/
theorem emitted_mem {upper : Nat} {filter : List α → Bool} {s : List α} (d : Nat) :
    ∀ k : Call α, s ∈ emitted cmp next upper filter d k →
      filter s = true ∧
        ∃ k1, Relation.ReflTransGen (Calls cmp next upper) k k1 ∧ k1.current = s := by
  induction d with
  | zero =>
    intro k hs
    unfold emitted at hs
    by_cases hf : filter k.current = true
    · by_cases hu : k.current.length < upper
      · simp [hf, hu] at hs
        subst hs
        exact ⟨hf, k, Relation.ReflTransGen.refl, rfl⟩
      · simp [hf, hu] at hs
        subst hs
        exact ⟨hf, k, Relation.ReflTransGen.refl, rfl⟩
    · by_cases hu : k.current.length < upper <;> simp [hf, hu] at hs
  | succ d ih =>
    intro k hs
    unfold emitted at hs
    rcases List.mem_append.mp hs with h1 | h1
    · by_cases hf : filter k.current = true
      · simp [hf] at h1
        subst h1
        exact ⟨hf, k, Relation.ReflTransGen.refl, rfl⟩
      · simp [hf] at h1
    · by_cases hu : k.current.length < upper
      · simp only [hu, if_true, List.mem_flatMap] at h1
        obtain ⟨k1, h2, h3⟩ := h1
        obtain ⟨h4, k2, h5, h6⟩ := ih k1 h3
        exact ⟨h4, k2, Relation.ReflTransGen.head ⟨hu, h2⟩ h5, h6⟩
      · simp [hu] at h1

/-- The `current` of every call of the search tree that passes the filter is
emitted. -/
theorem emitted_of_calls {upper : Nat} {filter : List α → Bool} {k k1 : Call α}
    (hr : Relation.ReflTransGen (Calls cmp next upper) k k1)
    (hf : filter k1.current = true) :
    ∀ d, upper - k.current.length ≤ d → k1.current ∈ emitted cmp next upper filter d k := by
  induction hr using Relation.ReflTransGen.head_induction_on with
  | refl =>
    intro d _
    unfold emitted
    simp [hf]
  | head hc hr2 ih =>
    rename_i a b
    intro d hd
    have hlen := children_length hc.2
    have hu := hc.1
    cases d with
    | zero => omega
    | succ d =>
      unfold emitted
      refine List.mem_append_right _ ?_
      simp only [hu, if_true, List.mem_flatMap]
      exact ⟨b, hc.2, ih d (by omega)⟩

theorem calls_length_le {upper : Nat} {k k1 : Call α}
    (hr : Relation.ReflTransGen (Calls cmp next upper) k k1) (hk : k.current.length ≤ upper) :
    k1.current.length ≤ upper ∧ k.current.length ≤ k1.current.length := by
  induction hr with
  | refl => exact ⟨hk, le_refl _⟩
  | tail _ hc ih =>
    have hlen := children_length hc.2
    have hu := hc.1
    omega

/-- An invariant of the child relation holds at every call of the tree. -/
theorem calls_invariant {upper : Nat} (P : Call α → Prop)
    (hP : ∀ a b, P a → b ∈ children cmp next a → P b) {k k1 : Call α}
    (hr : Relation.ReflTransGen (Calls cmp next upper) k k1) (hk : P k) : P k1 := by
  induction hr with
  | refl => exact hk
  | tail _ hc ih => exact hP _ _ ih hc.2

end Children

/-! ## Invariants of the unsorted path -/

theorem nodup_split {p post : List α} {c : α} (hn : (p ++ c :: post).Nodup) :
    c ∉ p ∧ c ∉ post ∧ ∀ x ∈ p, x ∉ post := by
  rw [List.nodup_append] at hn
  obtain ⟨_, h2, h3⟩ := hn
  rw [List.nodup_cons] at h2
  refine ⟨fun hc => h3 hc (List.mem_cons_self _ _), h2.1, fun x hx hx2 => ?_⟩
  exact h3 hx (List.mem_cons_of_mem _ hx2)

theorem ssorted_split {p post : List α} {c : α} (hs : SSorted cmp (p ++ c :: post)) :
    SSorted cmp p ∧ SSorted cmp post := by
  unfold SSorted at hs ⊢
  rw [List.pairwise_append] at hs
  exact ⟨hs.1, (List.pairwise_cons.mp hs.2.1).2⟩

/-- Contents and sortedness of the child call for the candidate `c` on the
unsorted path. -/
theorem child_spec (h : StrictTotal cmp) (g : Graph α) {k : Call α} (hk : k.Weak cmp)
    {p post : List α} {c : α} (hc : k.candidates = p ++ c :: post) :
    (∀ x, x ∈ (childCall cmp (nonLinearNext g cmp) k.current k.forbidden (p, c, post)).current ↔
        x = c ∨ x ∈ k.current) ∧
      (∀ x, x ∈ (childCall cmp (nonLinearNext g cmp) k.current k.forbidden
          (p, c, post)).forbidden ↔ x ∈ k.forbidden ∨ x ∈ p) ∧
      (∀ x, x ∈ (childCall cmp (nonLinearNext g cmp) k.current k.forbidden
          (p, c, post)).candidates ↔
        x ∈ post ∨ (x ∈ g.adjancency c ∧ ¬ (x ∈ k.forbidden ∨ x ∈ p) ∧ ¬ (x = c ∨ x ∈ k.current))) ∧
      (childCall cmp (nonLinearNext g cmp) k.current k.forbidden (p, c, post)).Weak cmp := by
  obtain ⟨hcur, hcands, hforb⟩ := hk
  rw [hc] at hcands
  obtain ⟨hp, hpost⟩ := ssorted_split hcands
  have hcur1 : WSorted cmp (vector_insert k.current (lower_bound cmp k.current c) c) :=
    hcur.insert_lb h c
  have hnc := nonLinearNext_candidates h g c hcur1 (hp.wsorted h) hpost hforb
  refine ⟨fun x => mem_vector_insert, fun x => ?_, fun x => ?_, ?_⟩
  · show x ∈ set_union cmp k.forbidden p ↔ _
    exact mem_set_union h _ _ x
  · show x ∈ (nonLinearNext g cmp _ p c post k.forbidden).1 ↔ _
    rw [hnc.2 x, mem_set_union h, mem_vector_insert]
  · exact ⟨hcur1, hnc.1, hforb.union h (hp.wsorted h)⟩

theorem weak_children (h : StrictTotal cmp) (g : Graph α) (a b : Call α) (ha : a.Weak cmp)
    (hb : b ∈ children cmp (nonLinearNext g cmp) a) : b.Weak cmp := by
  obtain ⟨p, c, post, h1, h2⟩ := mem_children.mp hb
  rw [h2]
  exact (child_spec h g ha h1).2.2.2

theorem Call.Inv.weak (h : StrictTotal cmp) {k : Call α} (hk : k.Inv cmp) : k.Weak cmp :=
  ⟨hk.1.wsorted h, hk.2.1, hk.2.2.1.wsorted h⟩

/-- The set invariant is passed on to every child call. -/
theorem inv_children (h : StrictTotal cmp) (g : Graph α) (a b : Call α) (ha : a.Inv cmp)
    (hb : b ∈ children cmp (nonLinearNext g cmp) a) : b.Inv cmp := by
  obtain ⟨p, c, post, h1, h2⟩ := mem_children.mp hb
  obtain ⟨hm1, hm2, hm3, hw⟩ := child_spec h g (ha.weak h) h1
  rw [← h2] at hm1 hm2 hm3 hw
  obtain ⟨hcur, hcands, hforb, hd1, hd2, hd3⟩ := ha
  have hcands2 := hcands
  rw [h1] at hcands2
  obtain ⟨hp, hpost⟩ := ssorted_split hcands2
  obtain ⟨hn1, hn2, hn3⟩ := nodup_split (hcands2.nodup h)
  have hcin : c ∈ a.candidates := by rw [h1]; simp
  have hpin : ∀ x ∈ p, x ∈ a.candidates := fun x hx => by rw [h1]; simp [hx]
  have hpostin : ∀ x ∈ post, x ∈ a.candidates := fun x hx => by rw [h1]; simp [hx]
  have hccur : c ∉ a.current := fun hx => hd1 c hx hcin
  refine ⟨?_, hw.2.1, ?_, ?_, ?_, ?_⟩
  · rw [h2]
    exact hcur.insert_lb_strict h hccur
  · rw [h2]
    exact hforb.union_strict h hp
  · intro x hx hx2
    rcases (hm3 x).mp hx2 with h3 | ⟨_, _, h5⟩
    · rcases (hm1 x).mp hx with h6 | h6
      · subst h6; exact hn2 h3
      · exact hd1 x h6 (hpostin x h3)
    · exact h5 ((hm1 x).mp hx)
  · intro x hx hx2
    rcases (hm1 x).mp hx with h6 | h6
    · subst h6
      rcases (hm2 x).mp hx2 with h7 | h7
      · exact hd3 x hcin h7
      · exact hn1 h7
    · rcases (hm2 x).mp hx2 with h7 | h7
      · exact hd2 x h6 h7
      · exact hd1 x h6 (hpin x h7)
  · intro x hx hx2
    rcases (hm3 x).mp hx with h3 | ⟨_, h4, _⟩
    · rcases (hm2 x).mp hx2 with h7 | h7
      · exact hd3 x (hpostin x h3) h7
      · exact hn3 x h7 h3
    · exact h4 ((hm2 x).mp hx2)

/-- A child call keeps the nodes of `current` and of `forbidden`. -/
theorem frame_children (h : StrictTotal cmp) (g : Graph α) (a b : Call α) (ha : a.Weak cmp)
    (hb : b ∈ children cmp (nonLinearNext g cmp) a) :
    (∀ x ∈ a.current, x ∈ b.current) ∧ (∀ x ∈ a.forbidden, x ∈ b.forbidden) := by
  obtain ⟨p, c, post, h1, h2⟩ := mem_children.mp hb
  obtain ⟨hm1, hm2, _, _⟩ := child_spec h g ha h1
  rw [← h2] at hm1 hm2
  exact ⟨fun x hx => (hm1 x).mpr (Or.inr hx), fun x hx => (hm2 x).mpr (Or.inl hx)⟩

/-- The exact content of the candidate set is passed on to every child call. -/
theorem exact_children (h : StrictTotal cmp) (g : Graph α) (a b : Call α) (ha : a.Inv cmp)
    (he : a.Exact g) (hb : b ∈ children cmp (nonLinearNext g cmp) a) : b.Exact g := by
  obtain ⟨p, c, post, h1, h2⟩ := mem_children.mp hb
  obtain ⟨hm1, hm2, hm3, _⟩ := child_spec h g (ha.weak h) h1
  rw [← h2] at hm1 hm2 hm3
  obtain ⟨_, hcands, _, hd1, _, hd3⟩ := ha
  have hcands2 := hcands
  rw [h1] at hcands2
  obtain ⟨hn1, hn2, hn3⟩ := nodup_split (hcands2.nodup h)
  have hpostin : ∀ x ∈ post, x ∈ a.candidates := fun x hx => by rw [h1]; simp [hx]
  intro x
  rw [hm3 x]
  constructor
  · rintro (h3 | ⟨h3, h4, h5⟩)
    · obtain ⟨⟨y, hy, hxy⟩, h6, h7⟩ := (he x).mp (hpostin x h3)
      refine ⟨⟨y, (hm1 y).mpr (Or.inr hy), hxy⟩, ?_, ?_⟩
      · intro h8
        rcases (hm1 x).mp h8 with h9 | h9
        · subst h9; exact hn2 h3
        · exact h6 h9
      · intro h8
        rcases (hm2 x).mp h8 with h9 | h9
        · exact h7 h9
        · exact hn3 x h9 h3
    · exact ⟨⟨c, (hm1 c).mpr (Or.inl rfl), h3⟩, fun h8 => h5 ((hm1 x).mp h8),
        fun h8 => h4 ((hm2 x).mp h8)⟩
  · rintro ⟨⟨y, hy, hxy⟩, h6, h7⟩
    have h6' : ¬ (x = c ∨ x ∈ a.current) := fun h8 => h6 ((hm1 x).mpr h8)
    have h7' : ¬ (x ∈ a.forbidden ∨ x ∈ p) := fun h8 => h7 ((hm2 x).mpr h8)
    rcases (hm1 y).mp hy with h8 | h8
    · subst h8
      exact Or.inr ⟨hxy, h7', h6'⟩
    · have h9 : x ∈ a.candidates :=
        (he x).mpr ⟨⟨y, h8, hxy⟩, fun h10 => h6' (Or.inr h10), fun h10 => h7' (Or.inl h10)⟩
      rw [h1] at h9
      rcases List.mem_append.mp h9 with h10 | h10
      · exact absurd (Or.inr h10) h7'
      · rcases List.mem_cons.mp h10 with h11 | h11
        · exact absurd (Or.inl h11) h6'
        · exact Or.inl h11

/-! ## The sorted path agrees with the unsorted path -/

theorem children_linear_eq (h : StrictTotal cmp) (g : Graph α) (hadj : AdjStrict g cmp)
    {k : Call α} (hk : k.Weak cmp) :
    children cmp (linearNext g cmp) k = children cmp (nonLinearNext g cmp) k := by
  unfold children
  refine List.map_congr_left (fun s hs => ?_)
  obtain ⟨p, c, post⟩ := s
  obtain ⟨q, h1, h2⟩ := mem_splitsFrom.mp hs
  obtain ⟨hcur, hcands, hforb⟩ := hk
  simp only at h2
  rw [h2] at hcands
  obtain ⟨hq, hpost⟩ := ssorted_split hcands
  simp only [List.nil_append] at h1
  subst h1
  unfold childCall
  simp only
  rw [linearNext_eq_nonLinearNext h g c (hadj c) (hcur.insert_lb h c) (hq.wsorted h) hpost hforb]

theorem emitted_linear_eq (h : StrictTotal cmp) (g : Graph α) (hadj : AdjStrict g cmp)
    (upper : Nat) (filter : List α → Bool) (d : Nat) :
    ∀ k : Call α, k.Weak cmp →
      emitted cmp (linearNext g cmp) upper filter d k =
        emitted cmp (nonLinearNext g cmp) upper filter d k := by
  induction d with
  | zero =>
    intro k _
    unfold emitted
    rfl
  | succ d ih =>
    intro k hk
    unfold emitted
    rw [children_linear_eq h g hadj hk]
    congr 1
    by_cases hu : k.current.length < upper
    · simp only [hu, if_true]
      exact List.flatMap_congr (fun k1 hk1 => ih k1 (weak_children h g k k1 hk hk1))
    · simp [hu]

/-! ## The root calls -/

theorem mem_roots {g : Graph α} {k : Call α} :
    k ∈ roots g cmp ↔
      ∃ pre v post, sort cmp g.nodes = pre ++ v :: post ∧ k = rootCall g cmp (pre, v, post) := by
  unfold roots
  rw [List.mem_map]
  constructor
  · rintro ⟨⟨p, c, post⟩, h1, h2⟩
    obtain ⟨q, h3, h4⟩ := mem_splitsFrom.mp h1
    simp only [List.nil_append] at h3
    subst h3
    exact ⟨p, c, post, h4, h2.symm⟩
  · rintro ⟨p, c, post, h1, h2⟩
    exact ⟨(p, c, post), mem_splitsFrom.mpr ⟨p, by simp, h1⟩, h2.symm⟩

theorem wsorted_split {p post : List α} {c : α} (hs : WSorted cmp (p ++ c :: post)) :
    WSorted cmp p := by
  unfold WSorted at hs ⊢
  rw [List.pairwise_append] at hs
  exact hs.1

theorem rootCandidatesNonLinear_spec (h : StrictTotal cmp) (g : Graph α) (v : α)
    {forb : List α} (hforb : WSorted cmp forb) :
    (∀ x, x ∈ rootCandidatesNonLinear g cmp v forb ↔ x ∈ g.adjancency v ∧ x ∉ forb) ∧
      ((g.adjancency v).Nodup → SSorted cmp (rootCandidatesNonLinear g cmp v forb)) := by
  unfold rootCandidatesNonLinear
  refine ⟨fun x => ?_, fun hn => ssorted_sort h (hn.filter _)⟩
  rw [mem_sort, List.mem_filter, iterTest_absent h hforb]

theorem rootCandidatesLinear_spec (h : StrictTotal cmp) (g : Graph α) (v : α)
    {forb : List α} (hforb : WSorted cmp forb) (hadj : SSorted cmp (g.adjancency v)) :
    (∀ x, x ∈ rootCandidatesLinear g cmp v forb ↔ x ∈ g.adjancency v ∧ x ∉ forb) ∧
      SSorted cmp (rootCandidatesLinear g cmp v forb) :=
  ⟨fun x => mem_set_difference h hadj hforb x, hadj.difference forb⟩

theorem rootCandidates_eq (h : StrictTotal cmp) (g : Graph α) (v : α)
    {forb : List α} (hforb : WSorted cmp forb) (hadj : SSorted cmp (g.adjancency v)) :
    rootCandidatesLinear g cmp v forb = rootCandidatesNonLinear g cmp v forb := by
  have h1 := rootCandidatesLinear_spec h g v hforb hadj
  have h2 := rootCandidatesNonLinear_spec h g v hforb
  exact SSorted.eq_of_mem_iff h h1.2 (h2.2 (hadj.nodup h)) (fun x => by rw [h1.1, h2.1])

theorem withListsSorted_self (g : Graph α) : g.withListsSorted g.listsSorted = g := by
  cases g
  rfl

/-- Every root call of the unsorted path has sorted vectors, provided the
adjacency lists are free of repeats. -/
theorem weak_roots (h : StrictTotal cmp) (g : Graph α) (hs : g.listsSorted = false)
    (hn : ∀ v, (g.adjancency v).Nodup) {k : Call α} (hk : k ∈ roots g cmp) : k.Weak cmp := by
  obtain ⟨pre, v, post, h1, h2⟩ := mem_roots.mp hk
  have hpre : WSorted cmp pre := wsorted_split (h1 ▸ wsorted_sort h g.nodes)
  rw [h2]
  unfold rootCall
  simp only [hs, Bool.false_eq_true, if_false]
  exact ⟨by simp [WSorted], (rootCandidatesNonLinear_spec h g v hpre).2 (hn v), hpre⟩

/-- On strictly increasing adjacency lists the driver returns the same
collection whether or not the graph declares `listsSorted()`. -/
theorem runEnumeration_unsorted (h : StrictTotal cmp) (g : Graph α) (hadj : AdjStrict g cmp)
    (upper : Nat) (filter : List α → Bool) :
    runEnumeration g upper filter cmp =
      runEnumeration (g.withListsSorted false) upper filter cmp := by
  by_cases hs : g.listsSorted = true
  · rw [runEnumeration_eq h.irrefl, runEnumeration_eq h.irrefl]
    by_cases hu : upper = 0
    · simp [hu]
    · simp only [hu, if_false]
      have hroots : roots g cmp = roots (g.withListsSorted false) cmp := by
        unfold roots
        refine List.map_congr_left (fun s hs2 => ?_)
        obtain ⟨pre, v, post⟩ := s
        obtain ⟨q, h1, h2⟩ := mem_splitsFrom.mp hs2
        simp only [List.nil_append] at h1
        subst h1
        simp only at h2
        have hpre : WSorted cmp pre := wsorted_split (h2 ▸ wsorted_sort h g.nodes)
        unfold rootCall
        simp only [hs, if_true, Graph.withListsSorted, Bool.false_eq_true, if_false]
        rw [rootCandidates_eq h g v hpre (hadj v)]
        rfl
      have hnext1 : nextOf g cmp = linearNext g cmp := by
        unfold nextOf
        simp [hs]
      have hnext2 : nextOf (g.withListsSorted false) cmp = nonLinearNext g cmp := by
        unfold nextOf
        simp only [Graph.withListsSorted, Bool.false_eq_true, if_false]
        rfl
      rw [hnext1, hnext2, hroots]
      refine List.flatMap_congr (fun k hk => ?_)
      exact emitted_linear_eq h g hadj upper filter _ k
        (weak_roots h (g.withListsSorted false) rfl (fun v => (hadj v).nodup h) hk)
  · have hs2 : g.listsSorted = false := by simpa using hs
    have h1 := withListsSorted_self g
    rw [hs2] at h1
    rw [h1]

/-! ## The unsorted path on simple graphs -/

section Children2

variable {next : List α → List α → α → List α → List α → List α × List α}

theorem calls_length_mono {upper : Nat} {k k1 : Call α}
    (hr : Relation.ReflTransGen (Calls cmp next upper) k k1) :
    k.current.length ≤ k1.current.length := by
  induction hr with
  | refl => exact le_refl _
  | tail _ hc ih =>
    have hlen := children_length hc.2
    omega

end Children2

/-- Every root call of the unsorted path on a simple graph satisfies the set
invariant and has the exact candidate set. -/
theorem inv_roots (h : StrictTotal cmp) (g : Graph α) (hs : g.listsSorted = false)
    (hg : Simple g) {k : Call α} (hk : k ∈ roots g cmp) : k.Inv cmp ∧ k.Exact g := by
  obtain ⟨pre, v, post, h1, h2⟩ := mem_roots.mp hk
  have hsorted : SSorted cmp (pre ++ v :: post) := h1 ▸ ssorted_sort h hg.nodes_nodup
  obtain ⟨hpre, _⟩ := ssorted_split hsorted
  obtain ⟨hv, _, _⟩ := nodup_split (hsorted.nodup h)
  obtain ⟨hm, hss⟩ := rootCandidatesNonLinear_spec h g v (hpre.wsorted h)
  have hk2 : k = ⟨[v], rootCandidatesNonLinear g cmp v pre, pre⟩ := by
    rw [h2]
    unfold rootCall
    simp [hs]
  rw [hk2]
  refine ⟨⟨by simp [SSorted], hss (hg.adj_nodup v), hpre, ?_, ?_, ?_⟩, ?_⟩
  · intro x hx hx2
    simp only [List.mem_singleton] at hx
    subst hx
    exact hg.no_loop x ((hm x).mp hx2).1
  · intro x hx hx2
    simp only [List.mem_singleton] at hx
    subst hx
    exact hv hx2
  · intro x hx hx2
    exact ((hm x).mp hx).2 hx2
  · intro x
    show x ∈ rootCandidatesNonLinear g cmp v pre ↔ _
    rw [hm x]
    simp only [List.mem_singleton, exists_eq_left]
    constructor
    · rintro ⟨h3, h4⟩
      exact ⟨h3, fun h5 => hg.no_loop v (h5 ▸ h3), h4⟩
    · rintro ⟨h3, _, h4⟩
      exact ⟨h3, h4⟩

/-- Every sequence emitted below a call contains the nodes of its `current`,
avoids the nodes of its `forbidden`, is strictly sorted and is the `current`
of a call that satisfies the set invariant. -/
theorem emitted_frame (h : StrictTotal cmp) (g : Graph α) {upper : Nat}
    {filter : List α → Bool} {d : Nat} {k : Call α} (hk : k.Inv cmp) {s : List α}
    (hs : s ∈ emitted cmp (nonLinearNext g cmp) upper filter d k) :
    (∀ x ∈ k.current, x ∈ s) ∧ (∀ x ∈ k.forbidden, x ∉ s) ∧
      k.current.length ≤ s.length ∧ SSorted cmp s := by
  obtain ⟨_, k1, hr, h1⟩ := emitted_mem d k hs
  have hlen := calls_length_mono hr
  have hP := calls_invariant
    (fun b => b.Inv cmp ∧ (∀ x ∈ k.current, x ∈ b.current) ∧
      (∀ x ∈ k.forbidden, x ∈ b.forbidden))
    (fun a b ha hb => by
      have hf := frame_children h g a b (ha.1.weak h) hb
      exact ⟨inv_children h g a b ha.1 hb, fun x hx => hf.1 x (ha.2.1 x hx),
        fun x hx => hf.2 x (ha.2.2 x hx)⟩)
    hr ⟨hk, fun x hx => hx, fun x hx => hx⟩
  obtain ⟨hinv, hc, hf⟩ := hP
  rw [h1] at hc hlen
  refine ⟨hc, fun x hx hx2 => ?_, hlen, h1 ▸ hinv.1⟩
  rw [← h1] at hx2
  exact hinv.2.2.2.2.1 x hx2 (hf x hx)

/-- No sequence is emitted twice below a call that satisfies the set
invariant. -/
theorem emitted_nodup (h : StrictTotal cmp) (g : Graph α) (upper : Nat)
    (filter : List α → Bool) (d : Nat) :
    ∀ k : Call α, k.Inv cmp →
      (emitted cmp (nonLinearNext g cmp) upper filter d k).Nodup := by
  induction d with
  | zero =>
    intro k _
    unfold emitted
    by_cases hf : filter k.current = true <;> by_cases hu : k.current.length < upper <;>
      simp [hf, hu]
  | succ d ih =>
    intro k hk
    unfold emitted
    rw [List.nodup_append]
    refine ⟨by by_cases hf : filter k.current = true <;> simp [hf], ?_, ?_⟩
    · by_cases hu : k.current.length < upper
      · simp only [hu, if_true]
        rw [List.nodup_flatMap]
        refine ⟨fun k1 hk1 => ih k1 (inv_children h g k k1 hk hk1), ?_⟩
        unfold children
        rw [List.pairwise_map]
        refine List.Pairwise.imp_of_mem ?_ (pairwise_splitsFrom k.candidates [])
        intro a b ha hb hab
        obtain ⟨p1, c1, post1⟩ := a
        obtain ⟨p2, c2, post2⟩ := b
        obtain ⟨q1, h1, h2⟩ := mem_splitsFrom.mp ha
        obtain ⟨q2, h3, h4⟩ := mem_splitsFrom.mp hb
        simp only [List.nil_append] at h1 h3
        subst h1 h3
        simp only at h2 h4 hab
        have hka : childCall cmp (nonLinearNext g cmp) k.current k.forbidden (p1, c1, post1) ∈
            children cmp (nonLinearNext g cmp) k := mem_children.mpr ⟨p1, c1, post1, h2, rfl⟩
        have hkb : childCall cmp (nonLinearNext g cmp) k.current k.forbidden (p2, c2, post2) ∈
            children cmp (nonLinearNext g cmp) k := mem_children.mpr ⟨p2, c2, post2, h4, rfl⟩
        have hsa := child_spec h g (hk.weak h) h2
        have hsb := child_spec h g (hk.weak h) h4
        intro s hs1 hs2
        have hfa := emitted_frame h g (inv_children h g k _ hk hka) hs1
        have hfb := emitted_frame h g (inv_children h g k _ hk hkb) hs2
        exact hfb.2.1 c1 ((hsb.2.1 c1).mpr (Or.inr hab)) (hfa.1 c1 ((hsa.1 c1).mpr (Or.inl rfl)))
      · simp [hu]
    · intro s hs1 hs2
      by_cases hu : k.current.length < upper
      · simp only [hu, if_true, List.mem_flatMap] at hs2
        obtain ⟨k1, hk1, hs3⟩ := hs2
        have hf1 := emitted_frame h g (inv_children h g k k1 hk hk1) hs3
        have hlen := children_length hk1
        by_cases hf : filter k.current = true
        · simp only [hf, if_true, List.mem_singleton] at hs1
          subst hs1
          omega
        · simp [hf] at hs1
      · simp [hu] at hs2

/-- On a simple graph the unsorted path emits no sequence twice. -/
theorem runEnumeration_nodup_unsorted (h : StrictTotal cmp) (g : Graph α)
    (hs : g.listsSorted = false) (hg : Simple g) (upper : Nat) (filter : List α → Bool) :
    (runEnumeration g upper filter cmp).Nodup := by
  rw [runEnumeration_eq h.irrefl]
  by_cases hu : upper = 0
  · simp [hu]
  · simp only [hu, if_false]
    have hnext : nextOf g cmp = nonLinearNext g cmp := by
      unfold nextOf
      simp [hs]
    rw [hnext, List.nodup_flatMap]
    refine ⟨fun k hk => emitted_nodup h g upper filter _ k (inv_roots h g hs hg hk).1, ?_⟩
    have hsorted : SSorted cmp (sort cmp g.nodes) := ssorted_sort h hg.nodes_nodup
    unfold roots
    rw [List.pairwise_map]
    refine List.Pairwise.imp_of_mem ?_ (pairwise_splitsFrom (sort cmp g.nodes) [])
    intro a b ha hb hab
    have hka : rootCall g cmp a ∈ roots g cmp := List.mem_map_of_mem _ ha
    have hkb : rootCall g cmp b ∈ roots g cmp := List.mem_map_of_mem _ hb
    intro s hs1 hs2
    have hfa := emitted_frame h g (inv_roots h g hs hg hka).1 hs1
    have hfb := emitted_frame h g (inv_roots h g hs hg hkb).1 hs2
    exact hfb.2.1 a.2.1 hab (hfa.1 a.2.1 (by simp [rootCall]))

theorem sameSequence_eq (h : StrictTotal cmp) :
    ∀ s t : List α, sameSequence cmp s t = true → s = t := by
  intro s
  induction s with
  | nil =>
    intro t ht
    cases t with
    | nil => rfl
    | cons b t => simp [sameSequence] at ht
  | cons a s ih =>
    intro t ht
    cases t with
    | nil => simp [sameSequence] at ht
    | cons b t =>
      simp only [sameSequence, List.length_cons, beq_iff_eq, add_left_inj, List.zip_cons_cons,
        List.all_cons, Bool.and_eq_true, Bool.not_eq_true', Bool.or_eq_false_iff] at ht
      obtain ⟨h1, ⟨h2, h3⟩, h4⟩ := ht
      have e := h.total a b h2 h3
      subst e
      congr 1
      apply ih
      simp only [sameSequence, beq_iff_eq, Bool.and_eq_true]
      exact ⟨h1, h4⟩

/-! ## Connectivity and completeness on the unsorted path -/

theorem exists_first_split (P : α → Prop) (l : List α) (hex : ∃ x ∈ l, P x) :
    ∃ p c post, l = p ++ c :: post ∧ P c ∧ ∀ x ∈ p, ¬ P x := by
  induction l with
  | nil =>
    obtain ⟨x, hx, _⟩ := hex
    simp at hx
  | cons a l ih =>
    by_cases ha : P a
    · exact ⟨[], a, l, rfl, ha, by simp⟩
    · obtain ⟨x, hx, hpx⟩ := hex
      have hex2 : ∃ x ∈ l, P x := by
        rcases List.mem_cons.mp hx with h1 | h1
        · subst h1; exact absurd hpx ha
        · exact ⟨x, h1, hpx⟩
      obtain ⟨p, c, post, h1, h2, h3⟩ := ih hex2
      refine ⟨a :: p, c, post, by simp [h1], h2, ?_⟩
      intro y hy
      rcases List.mem_cons.mp hy with h4 | h4
      · subst h4; exact ha
      · exact h3 y h4

/-- A connected node set that properly contains `X` has an adjacency step
leaving `X`. -/
theorem exists_crossing (g : Graph α) {S X : List α} (hconn : InducedConnected g S)
    {x0 u : α} (hx0 : x0 ∈ X) (hX : ∀ x ∈ X, x ∈ S) (hu : u ∈ S) (hu2 : u ∉ X) :
    ∃ y ∈ X, ∃ w ∈ S, w ∉ X ∧ w ∈ g.adjancency y := by
  have hpath := hconn x0 (hX x0 hx0) u hu
  have key : ∀ b, Relation.ReflTransGen (fun x y => y ∈ g.adjancency x ∧ y ∈ S) x0 b →
      b ∈ X ∨ ∃ y ∈ X, ∃ w ∈ S, w ∉ X ∧ w ∈ g.adjancency y := by
    intro b hp
    induction hp with
    | refl => exact Or.inl hx0
    | tail hp2 hstep ih =>
      rename_i b c
      rcases ih with h1 | h1
      · by_cases hc : c ∈ X
        · exact Or.inl hc
        · exact Or.inr ⟨b, h1, c, hstep.2, hc, hstep.1⟩
      · exact Or.inr h1
  rcases key u hpath with h1 | h1
  · exact absurd h1 hu2
  · exact h1

/-- Adding a candidate keeps `current` connected. -/
theorem conn_children (h : StrictTotal cmp) (g : Graph α)
    (hsymm : ∀ u v, u ∈ g.adjancency v ↔ v ∈ g.adjancency u) (a b : Call α)
    (ha : a.Inv cmp) (he : a.Exact g) (hconn : InducedConnected g a.current)
    (hb : b ∈ children cmp (nonLinearNext g cmp) a) : InducedConnected g b.current := by
  obtain ⟨p, c, post, h1, h2⟩ := mem_children.mp hb
  obtain ⟨hm1, _, _, _⟩ := child_spec h g (ha.weak h) h1
  rw [← h2] at hm1
  have hcin : c ∈ a.candidates := by rw [h1]; simp
  obtain ⟨⟨y, hy, hcy⟩, _, _⟩ := (he c).mp hcin
  have hyc : y ∈ g.adjancency c := (hsymm c y).mp hcy
  have hyb : y ∈ b.current := (hm1 y).mpr (Or.inr hy)
  have hcb : c ∈ b.current := (hm1 c).mpr (Or.inl rfl)
  have hmono : ∀ u w, Relation.ReflTransGen (fun x z => z ∈ g.adjancency x ∧ z ∈ a.current) u w →
      Relation.ReflTransGen (fun x z => z ∈ g.adjancency x ∧ z ∈ b.current) u w :=
    fun u w hp => Relation.ReflTransGen.mono
      (fun x z hxz => ⟨hxz.1, (hm1 z).mpr (Or.inr hxz.2)⟩) hp
  have hto : ∀ u ∈ b.current,
      Relation.ReflTransGen (fun x z => z ∈ g.adjancency x ∧ z ∈ b.current) u y := by
    intro u hu
    rcases (hm1 u).mp hu with h3 | h3
    · subst h3
      exact Relation.ReflTransGen.single ⟨hyc, hyb⟩
    · exact hmono u y (hconn u h3 y hy)
  have hfrom : ∀ w ∈ b.current,
      Relation.ReflTransGen (fun x z => z ∈ g.adjancency x ∧ z ∈ b.current) y w := by
    intro w hw
    rcases (hm1 w).mp hw with h3 | h3
    · subst h3
      exact Relation.ReflTransGen.single ⟨hcy, hcb⟩
    · exact hmono y w (hconn y hy w h3)
  intro u hu w hw
  exact (hto u hu).trans (hfrom w hw)

/-- Adding a candidate keeps `current` inside the node list. -/
theorem nodes_children (h : StrictTotal cmp) (g : Graph α)
    (hclosed : ∀ v ∈ g.nodes, ∀ u ∈ g.adjancency v, u ∈ g.nodes) (a b : Call α)
    (ha : a.Weak cmp) (he : a.Exact g) (hn : ∀ x ∈ a.current, x ∈ g.nodes)
    (hb : b ∈ children cmp (nonLinearNext g cmp) a) : ∀ x ∈ b.current, x ∈ g.nodes := by
  obtain ⟨p, c, post, h1, h2⟩ := mem_children.mp hb
  obtain ⟨hm1, _, _, _⟩ := child_spec h g ha h1
  rw [← h2] at hm1
  have hcin : c ∈ a.candidates := by rw [h1]; simp
  obtain ⟨⟨y, hy, hcy⟩, _, _⟩ := (he c).mp hcin
  intro x hx
  rcases (hm1 x).mp hx with h3 | h3
  · subst h3
    exact hclosed y (hn y hy) x hcy
  · exact hn x h3

/-- Every sequence returned by the unsorted path is the `current` of a call
below a root call, and passed the filter. -/
theorem runEnumeration_mem_unsorted (h : StrictTotal cmp) (g : Graph α)
    (hs : g.listsSorted = false) (upper : Nat) (filter : List α → Bool) {s : List α}
    (hmem : s ∈ runEnumeration g upper filter cmp) :
    upper ≠ 0 ∧ filter s = true ∧ ∃ r ∈ roots g cmp, ∃ k,
      Relation.ReflTransGen (Calls cmp (nonLinearNext g cmp) upper) r k ∧ k.current = s := by
  rw [runEnumeration_eq h.irrefl] at hmem
  by_cases hu : upper = 0
  · simp [hu] at hmem
  · simp only [hu, if_false, List.mem_flatMap] at hmem
    have hnext : nextOf g cmp = nonLinearNext g cmp := by
      unfold nextOf
      simp [hs]
    rw [hnext] at hmem
    obtain ⟨r, hr, hs2⟩ := hmem
    obtain ⟨hf, k, hk, hk2⟩ := emitted_mem _ r hs2
    exact ⟨hu, hf, r, hr, k, hk, hk2⟩

/-- The invariants of the search on a simple graph, at every call below a
root call `r` of the unsorted path. -/
theorem simple_invariant (h : StrictTotal cmp) (g : Graph α) (hs : g.listsSorted = false)
    (hg : Simple g) {upper : Nat} {r k : Call α} (hr : r ∈ roots g cmp)
    (hreach : Relation.ReflTransGen (Calls cmp (nonLinearNext g cmp) upper) r k) :
    k.Inv cmp ∧ k.Exact g ∧ (∀ x ∈ r.current, x ∈ k.current) ∧
      (∀ x ∈ r.forbidden, x ∈ k.forbidden) := by
  have hroot := inv_roots h g hs hg hr
  exact calls_invariant
    (fun b => b.Inv cmp ∧ b.Exact g ∧ (∀ x ∈ r.current, x ∈ b.current) ∧
      (∀ x ∈ r.forbidden, x ∈ b.forbidden))
    (fun a b ha hb => by
      have hf := frame_children h g a b (ha.1.weak h) hb
      exact ⟨inv_children h g a b ha.1 hb, exact_children h g a b ha.1 ha.2.1 hb,
        fun x hx => hf.1 x (ha.2.2.1 x hx), fun x hx => hf.2 x (ha.2.2.2 x hx)⟩)
    hreach ⟨hroot.1, hroot.2, fun x hx => hx, fun x hx => hx⟩

/-- On a graph whose listed nodes have listed neighbors, every call below a
root call keeps `current` inside the node list. -/
theorem nodes_invariant (h : StrictTotal cmp) (g : Graph α) (hs : g.listsSorted = false)
    (hg : Simple g) (hclosed : ∀ v ∈ g.nodes, ∀ u ∈ g.adjancency v, u ∈ g.nodes)
    {upper : Nat} {r k : Call α} (hr : r ∈ roots g cmp)
    (hreach : Relation.ReflTransGen (Calls cmp (nonLinearNext g cmp) upper) r k) :
    ∀ x ∈ k.current, x ∈ g.nodes := by
  have hroot := inv_roots h g hs hg hr
  have hrn : ∀ x ∈ r.current, x ∈ g.nodes := by
    obtain ⟨pre, v, post, h1, h2⟩ := mem_roots.mp hr
    intro x hx
    rw [h2] at hx
    simp only [rootCall, List.mem_singleton] at hx
    subst hx
    have hv : x ∈ sort cmp g.nodes := by rw [h1]; simp
    exact mem_sort.mp hv
  have hP := calls_invariant
    (fun b => b.Inv cmp ∧ b.Exact g ∧ (∀ x ∈ b.current, x ∈ g.nodes))
    (fun a b ha hb =>
      ⟨inv_children h g a b ha.1 hb, exact_children h g a b ha.1 ha.2.1 hb,
        nodes_children h g hclosed a b (ha.1.weak h) ha.2.1 ha.2.2 hb⟩)
    hreach ⟨hroot.1, hroot.2, hrn⟩
  exact hP.2.2

/-- On a well-formed graph every call below a root call has a non-empty
connected `current`. -/
theorem conn_invariant (h : StrictTotal cmp) (g : Graph α) (hs : g.listsSorted = false)
    (hg : WellFormed g) {upper : Nat} {r k : Call α} (hr : r ∈ roots g cmp)
    (hreach : Relation.ReflTransGen (Calls cmp (nonLinearNext g cmp) upper) r k) :
    InducedConnected g k.current ∧ k.current ≠ [] := by
  have hroot := inv_roots h g hs hg.toSimple hr
  have hrc : InducedConnected g r.current ∧ r.current ≠ [] := by
    obtain ⟨pre, v, post, h1, h2⟩ := mem_roots.mp hr
    rw [h2]
    refine ⟨?_, by simp [rootCall]⟩
    intro a ha b hb
    simp only [rootCall, List.mem_singleton] at ha hb
    rw [ha, hb]
  have hP := calls_invariant
    (fun b => b.Inv cmp ∧ b.Exact g ∧ InducedConnected g b.current ∧ b.current ≠ [])
    (fun a b ha hb =>
      ⟨inv_children h g a b ha.1 hb, exact_children h g a b ha.1 ha.2.1 hb,
        conn_children h g hg.symm a b ha.1 ha.2.1 ha.2.2.1 hb, by
          intro h0
          have hlen := children_length hb
          rw [h0] at hlen
          simp at hlen⟩)
    hreach ⟨hroot.1, hroot.2, hrc.1, hrc.2⟩
  exact ⟨hP.2.2.1, hP.2.2.2⟩

/-- From a call that satisfies the invariants, the search reaches every
connected node set that contains `current` and avoids `forbidden`. -/
theorem complete_calls (h : StrictTotal cmp) (g : Graph α) (upper : Nat) {S : List α}
    (hS : S.Nodup) (hconn : InducedConnected g S) (hlen : S.length ≤ upper) (n : Nat) :
    ∀ k : Call α, k.Inv cmp → k.Exact g → k.current ≠ [] → (∀ x ∈ k.current, x ∈ S) →
      (∀ x ∈ k.forbidden, x ∉ S) → S.length - k.current.length ≤ n →
      ∃ k1, Relation.ReflTransGen (Calls cmp (nonLinearNext g cmp) upper) k k1 ∧
        k1.current = sort cmp S := by
  induction n with
  | zero =>
    intro k hk _ _ hsub _ hn
    have hsp : k.current.Subperm S := List.subperm_of_subset (hk.1.nodup h) hsub
    have hperm : k.current.Perm S := hsp.perm_of_length_le (by omega)
    refine ⟨k, Relation.ReflTransGen.refl, ?_⟩
    exact SSorted.eq_of_mem_iff h hk.1 (ssorted_sort h hS)
      (fun x => by rw [mem_sort, hperm.mem_iff])
  | succ n ih =>
    intro k hk he hne hsub hforb hn
    by_cases hlt : k.current.length < S.length
    · have hex : ∃ u ∈ S, u ∉ k.current := by
        by_contra hcon
        push_neg at hcon
        have hsp : S.Subperm k.current := List.subperm_of_subset hS hcon
        have := hsp.length_le
        omega
      obtain ⟨u, hu, hu2⟩ := hex
      obtain ⟨x0, hx0⟩ := List.exists_mem_of_ne_nil _ hne
      obtain ⟨y, hy, w, hw, hw2, hwy⟩ := exists_crossing g hconn hx0 hsub hu hu2
      have hwc : w ∈ k.candidates := (he w).mpr ⟨⟨y, hy, hwy⟩, hw2, fun h1 => hforb w h1 hw⟩
      obtain ⟨p, c, post, h1, h2, h3⟩ := exists_first_split (fun x => x ∈ S) k.candidates
        ⟨w, hwc, hw⟩
      have hb : childCall cmp (nonLinearNext g cmp) k.current k.forbidden (p, c, post) ∈
          children cmp (nonLinearNext g cmp) k := mem_children.mpr ⟨p, c, post, h1, rfl⟩
      obtain ⟨hm1, hm2, _, _⟩ := child_spec h g (hk.weak h) h1
      have hlen2 := children_length hb
      obtain ⟨k1, hr, hk1⟩ := ih _ (inv_children h g k _ hk hb) (exact_children h g k _ hk he hb)
        (by
          intro h0
          rw [h0] at hlen2
          simp at hlen2)
        (by
          intro x hx
          rcases (hm1 x).mp hx with h4 | h4
          · rw [h4]; exact h2
          · exact hsub x h4)
        (by
          intro x hx
          rcases (hm2 x).mp hx with h4 | h4
          · exact hforb x h4
          · exact h3 x h4)
        (by omega)
      exact ⟨k1, Relation.ReflTransGen.head ⟨by omega, hb⟩ hr, hk1⟩
    · exact ih k hk he hne hsub hforb (by omega)

/-! ## Reduction of both paths to the unsorted path -/

theorem adjStrict_of_declared (h : StrictTotal cmp) (g : Graph α)
    (hn : ∀ v, (g.adjancency v).Nodup) (hs : SortedIfDeclared g cmp)
    (hd : g.listsSorted = true) : AdjStrict g cmp :=
  fun v => (hs hd v).ssorted h (hn v)

/-- With adjacency lists free of repeats, and sorted when the graph declares
so, the driver returns what the unsorted path returns. -/
theorem runEnumeration_reduce (h : StrictTotal cmp) (g : Graph α)
    (hn : ∀ v, (g.adjancency v).Nodup) (hs : SortedIfDeclared g cmp) (upper : Nat)
    (filter : List α → Bool) :
    runEnumeration g upper filter cmp =
      runEnumeration (g.withListsSorted false) upper filter cmp := by
  by_cases hd : g.listsSorted = true
  · exact runEnumeration_unsorted h g (adjStrict_of_declared h g hn hs hd) upper filter
  · have hd2 : g.listsSorted = false := by simpa using hd
    have h1 := withListsSorted_self g
    rw [hd2] at h1
    rw [h1]

theorem simple_withListsSorted {g : Graph α} (hg : Simple g) (b : Bool) :
    Simple (g.withListsSorted b) :=
  ⟨hg.nodes_nodup, hg.adj_nodup, hg.no_loop⟩

theorem wellFormed_withListsSorted {g : Graph α} (hg : WellFormed g) (b : Bool) :
    WellFormed (g.withListsSorted b) :=
  ⟨simple_withListsSorted hg.toSimple b, hg.closed, hg.symm⟩

theorem rootStep_reduce (h : StrictTotal cmp) (g : Graph α)
    (hn : ∀ v, (g.adjancency v).Nodup) (hs : SortedIfDeclared g cmp) (upper : Nat)
    (filter : List α → Bool) {pre : List α} (hpre : WSorted cmp pre) (v : α)
    (sg : List (List α)) :
    rootStep g upper filter cmp pre v sg =
      sg ++ emitted cmp (nonLinearNext g cmp) upper filter (upper - 1)
        ⟨[v], rootCandidatesNonLinear g cmp v pre, pre⟩ := by
  rw [rootStep_eq h.irrefl g upper filter pre v []]
  unfold nextOf rootCall
  by_cases hd : g.listsSorted = true
  · have hadj := adjStrict_of_declared h g hn hs hd
    simp only [hd, if_true]
    rw [rootCandidates_eq h g v hpre (hadj v)]
    rw [emitted_linear_eq h g hadj upper filter _ _
      ⟨by simp [WSorted], (rootCandidatesNonLinear_spec h g v hpre).2 (hn v), hpre⟩]
  · simp [hd]

/-! ## Facts about the fixtures -/

theorem natLess_strictTotal : StrictTotal natLess := by
  refine ⟨fun a => ?_, fun a b c hab hbc => ?_, fun a b hab hba => ?_⟩
  · simp [natLess]
  · simp only [natLess, decide_eq_true_eq] at hab hbc ⊢
    omega
  · simp only [natLess, decide_eq_false_iff_not] at hab hba
    omega

theorem mem_cliqueGraph_adjancency (u v : Nat) :
    u ∈ cliqueGraph.adjancency v ↔ 1 ≤ v ∧ v ≤ 5 ∧ 1 ≤ u ∧ u ≤ 5 ∧ u ≠ v := by
  unfold cliqueGraph
  simp only
  split_ifs <;> simp <;> omega

theorem cliqueGraph_adjancency_cases (v : Nat) :
    cliqueGraph.adjancency v ∈
      [[2, 3, 4, 5], [1, 3, 4, 5], [1, 2, 4, 5], [1, 2, 3, 5], [1, 2, 3, 4], []] := by
  unfold cliqueGraph
  simp only
  split_ifs <;> simp

theorem cliqueGraph_adjStrict : AdjStrict cliqueGraph natLess := by
  intro v
  have h1 : ∀ l ∈ [[2, 3, 4, 5], [1, 3, 4, 5], [1, 2, 4, 5], [1, 2, 3, 5], [1, 2, 3, 4], []],
      List.Pairwise (fun a b => natLess a b = true) l := by decide
  exact h1 _ (cliqueGraph_adjancency_cases v)

theorem cliqueGraph_sorted (b : Bool) :
    SortedIfDeclared (cliqueGraph.withListsSorted b) natLess :=
  fun _ v => (cliqueGraph_adjStrict v).wsorted natLess_strictTotal

theorem cliqueGraph_wellFormed : WellFormed cliqueGraph := by
  refine ⟨⟨by decide, fun v => (cliqueGraph_adjStrict v).nodup natLess_strictTotal, fun v hv => ?_⟩,
    fun v hv u hu => ?_, fun u v => ?_⟩
  · have := (mem_cliqueGraph_adjancency v v).mp hv
    omega
  · have h1 := (mem_cliqueGraph_adjancency u v).mp hu
    have h2 : u = 1 ∨ u = 2 ∨ u = 3 ∨ u = 4 ∨ u = 5 := by omega
    rcases h2 with h3 | h3 | h3 | h3 | h3 <;> subst h3 <;> decide
  · rw [mem_cliqueGraph_adjancency, mem_cliqueGraph_adjancency]
    omega

theorem cliqueGraph_connected_pair : InducedConnected cliqueGraph [2, 1] := by
  intro a ha b hb
  by_cases hab : a = b
  · rw [hab]
  · refine Relation.ReflTransGen.single ⟨(mem_cliqueGraph_adjancency b a).mpr ?_, hb⟩
    simp only [List.mem_cons, List.mem_singleton, List.not_mem_nil, or_false] at ha hb
    omega

theorem declaredSortedPath_simple : Simple declaredSortedPath := by
  refine ⟨by decide, fun v => ?_, fun v => ?_⟩
  · unfold declaredSortedPath
    simp only
    split_ifs <;> decide
  · unfold declaredSortedPath
    simp only
    split_ifs <;> simp [*]

theorem danglingGraph_simple : Simple danglingGraph := by
  refine ⟨by decide, fun v => ?_, fun v => ?_⟩
  · unfold danglingGraph
    simp only
    split_ifs <;> decide
  · unfold danglingGraph
    simp only
    split_ifs <;> simp [*]

/-! ## Properties of `runEnumeration` -/

/-- C1 (completeness): on a well-formed simple undirected graph, with sorted
adjacency lists when the graph declares `listsSorted()`, and for a strict total
order, every non-empty node set `S` of at most `upper` nodes that induces a
connected subgraph and whose sorted sequence passes the filter occurs, as that
sorted sequence, in the result of `runEnumeration`, on either path. -/
theorem completeness (h : StrictTotal cmp) (g : Graph α) (hg : WellFormed g)
    (hs : SortedIfDeclared g cmp) (upper : Nat) (filter : List α → Bool) (S : List α)
    (hne : S ≠ []) (hnd : S.Nodup) (hsub : ∀ x ∈ S, x ∈ g.nodes) (hlen : S.length ≤ upper)
    (hconn : InducedConnected g S) (hf : filter (sort cmp S) = true) :
    sort cmp S ∈ runEnumeration g upper filter cmp := by
  rw [runEnumeration_reduce h g hg.adj_nodup hs, runEnumeration_eq h.irrefl]
  have hS1 : 1 ≤ S.length := by
    cases S with
    | nil => exact absurd rfl hne
    | cons a l => simp
  have hu : upper ≠ 0 := by omega
  simp only [hu, if_false, List.mem_flatMap]
  have hg2 := simple_withListsSorted hg.toSimple false
  have hsortS : SSorted cmp (sort cmp S) := ssorted_sort h hnd
  have hsortN : SSorted cmp (sort cmp g.nodes) := ssorted_sort h hg.nodes_nodup
  -- the smallest node of `S` and its root call
  obtain ⟨v, rest, hv⟩ : ∃ v rest, sort cmp S = v :: rest := by
    cases hc : sort cmp S with
    | nil =>
      have := (@perm_sort α cmp S).length_eq
      rw [hc] at this
      simp at this
      omega
    | cons v rest => exact ⟨v, rest, rfl⟩
  have hvS : v ∈ S := mem_sort.mp (by rw [hv]; simp)
  have hvN : v ∈ sort cmp g.nodes := mem_sort.mpr (hsub v hvS)
  obtain ⟨pre, post, hsplit⟩ := List.append_of_mem hvN
  have hr : rootCall (g.withListsSorted false) cmp (pre, v, post) ∈
      roots (g.withListsSorted false) cmp := mem_roots.mpr ⟨pre, v, post, hsplit, rfl⟩
  have hinv := inv_roots h (g.withListsSorted false) rfl hg2 hr
  have hmin : ∀ x ∈ S, x = v ∨ cmp v x = true := by
    intro x hx
    have hx2 : x ∈ sort cmp S := mem_sort.mpr hx
    rw [hv] at hx2 hsortS
    rcases List.mem_cons.mp hx2 with h1 | h1
    · exact Or.inl h1
    · exact Or.inr ((List.pairwise_cons.mp hsortS).1 x h1)
  have hpre : ∀ x ∈ pre, x ∉ S := by
    intro x hx hxS
    rw [hsplit] at hsortN
    have h1 : cmp x v = true :=
      (List.pairwise_append.mp hsortN).2.2 x hx v (List.mem_cons_self _ _)
    rcases hmin x hxS with h2 | h2
    · exact h.ne h1 h2
    · have h3 := h.asymm h1
      rw [h2] at h3
      exact absurd h3 (by simp)
  obtain ⟨k1, hreach, hk1⟩ := complete_calls h (g.withListsSorted false) upper hnd hconn hlen
    (S.length - 1) (rootCall (g.withListsSorted false) cmp (pre, v, post)) hinv.1 hinv.2
    (by simp [rootCall])
    (by
      intro x hx
      simp only [rootCall, List.mem_singleton] at hx
      rw [hx]; exact hvS)
    hpre (by simp [rootCall])
  have hnext : nextOf (g.withListsSorted false) cmp =
      nonLinearNext (g.withListsSorted false) cmp := by
    unfold nextOf
    simp [Graph.withListsSorted]
  refine ⟨_, hr, ?_⟩
  rw [hnext, ← hk1]
  refine emitted_of_calls hreach (by rw [hk1]; exact hf) _ ?_
  simp [rootCall]

/-- Witness for C1: the node set {2, 1} of the clique fixture is returned as
`[1, 2]`. -/
theorem completeness_witness :
    sort natLess [2, 1] ∈ runEnumeration cliqueGraph 3 NoFilter natLess :=
  completeness natLess_strictTotal cliqueGraph cliqueGraph_wellFormed
    (cliqueGraph_sorted true) 3 NoFilter [2, 1] (by decide) (by decide) (by decide)
    (by decide) cliqueGraph_connected_pair rfl

/-- C2 (uniqueness): on a simple graph, with sorted adjacency lists when the
graph declares `listsSorted()`, and for a strict total order, no two entries at
different positions of the result of `runEnumeration` are the same sequence in
the sense of `checkValidity`. -/
theorem uniqueness (h : StrictTotal cmp) (g : Graph α) (hg : Simple g)
    (hs : SortedIfDeclared g cmp) (upper : Nat) (filter : List α → Bool) (i j : Nat)
    (s t : List α) (hij : i < j) (hi : (runEnumeration g upper filter cmp)[i]? = some s)
    (hj : (runEnumeration g upper filter cmp)[j]? = some t) :
    sameSequence cmp s t = false := by
  have hnd : (runEnumeration g upper filter cmp).Nodup := by
    rw [runEnumeration_reduce h g hg.adj_nodup hs]
    exact runEnumeration_nodup_unsorted h _ rfl (simple_withListsSorted hg false) upper filter
  cases hst : sameSequence cmp s t with
  | false => rfl
  | true =>
    have e := sameSequence_eq h s t hst
    subst e
    obtain ⟨hjlt, _⟩ := List.getElem?_eq_some.mp hj
    have hne := List.nodup_iff_getElem?_ne_getElem?.mp hnd i j hij hjlt
    rw [hi, hj] at hne
    exact absurd rfl hne

/-- Witness for C2: the first two entries returned for the clique fixture. -/
theorem uniqueness_witness : sameSequence natLess [1] [1, 2] = false :=
  uniqueness natLess_strictTotal cliqueGraph cliqueGraph_wellFormed.toSimple
    (cliqueGraph_sorted true) 2 NoFilter 0 1 [1] [1, 2] (by decide) (by decide) (by decide)

/-- C3 (soundness): on a well-formed simple undirected graph, with sorted
adjacency lists when the graph declares `listsSorted()`, every sequence in the
result of `runEnumeration` is non-empty, free of repeats, made of listed nodes,
and induces a connected subgraph. -/
theorem soundness_connected (h : StrictTotal cmp) (g : Graph α) (hg : WellFormed g)
    (hs : SortedIfDeclared g cmp) (upper : Nat) (filter : List α → Bool) (s : List α)
    (hmem : s ∈ runEnumeration g upper filter cmp) :
    s ≠ [] ∧ s.Nodup ∧ (∀ x ∈ s, x ∈ g.nodes) ∧ InducedConnected g s := by
  rw [runEnumeration_reduce h g hg.adj_nodup hs] at hmem
  obtain ⟨_, _, r, hr, k, hreach, hk⟩ :=
    runEnumeration_mem_unsorted h (g.withListsSorted false) rfl upper filter hmem
  have hg2 := wellFormed_withListsSorted hg false
  have h1 := simple_invariant h _ rfl hg2.toSimple hr hreach
  have h2 := nodes_invariant h _ rfl hg2.toSimple hg2.closed hr hreach
  have h3 := conn_invariant h _ rfl hg2 hr hreach
  have h4 : k.current.Nodup := h1.1.1.nodup h
  rw [hk] at h2 h3 h4
  exact ⟨h3.2, h4, h2, h3.1⟩

/-- Witness for C3: the entry `[1, 2]` returned for the clique fixture. -/
theorem soundness_connected_witness :
    ([1, 2] : List Nat) ≠ [] ∧ ([1, 2] : List Nat).Nodup ∧
      (∀ x ∈ ([1, 2] : List Nat), x ∈ cliqueGraph.nodes) ∧
      InducedConnected cliqueGraph [1, 2] :=
  soundness_connected natLess_strictTotal cliqueGraph cliqueGraph_wellFormed
    (cliqueGraph_sorted true) 2 NoFilter [1, 2] (by decide)

/-- C4 (equivalence of the two paths): when every adjacency list is strictly
increasing under a strict total order, the driver returns the same collection,
in the same order, through `generateRecursiveLinear` (graph declared sorted)
and through `generateRecursiveNonLinear` (graph declared unsorted). -/
theorem paths_equivalent (h : StrictTotal cmp) (g : Graph α) (hadj : AdjStrict g cmp)
    (upper : Nat) (filter : List α → Bool) :
    runEnumeration (g.withListsSorted true) upper filter cmp =
      runEnumeration (g.withListsSorted false) upper filter cmp :=
  runEnumeration_unsorted h (g.withListsSorted true) hadj upper filter

/-- Witness for C4: the clique fixture with bound 3. -/
theorem paths_equivalent_witness :
    runEnumeration (cliqueGraph.withListsSorted true) 3 NoFilter natLess =
      runEnumeration (cliqueGraph.withListsSorted false) 3 NoFilter natLess :=
  paths_equivalent natLess_strictTotal cliqueGraph cliqueGraph_adjStrict 3 NoFilter

/-- C5 (size bound): for every graph, filter and bound, and every comparator
that is a strict total order, every sequence in the result of `runEnumeration`
has at most `upper` nodes. -/
theorem size_bound (h : StrictTotal cmp) (g : Graph α) (upper : Nat)
    (filter : List α → Bool) (s : List α) (hmem : s ∈ runEnumeration g upper filter cmp) :
    s.length ≤ upper := by
  rw [runEnumeration_eq h.irrefl] at hmem
  by_cases hu : upper = 0
  · simp [hu] at hmem
  · simp only [hu, if_false, List.mem_flatMap] at hmem
    obtain ⟨r, hr, hs2⟩ := hmem
    obtain ⟨_, k, hk, hk2⟩ := emitted_mem _ r hs2
    obtain ⟨pre, v, post, _, h2⟩ := mem_roots.mp hr
    have hlen : r.current.length ≤ upper := by
      rw [h2]
      simp only [rootCall, List.length_singleton]
      omega
    rw [← hk2]
    exact (calls_length_le hk hlen).1

/-- Witness for C5: the entry `[1, 2]` returned for the clique fixture with
bound 2. -/
theorem size_bound_witness : ([1, 2] : List Nat).length ≤ 2 :=
  size_bound natLess_strictTotal cliqueGraph 2 NoFilter [1, 2] (by decide)

/-- C6 (filter conformance): for every graph, bound, comparator and filter,
the filter holds for every sequence in the result of `runEnumeration`. -/
theorem filter_conformance (g : Graph α) (upper : Nat) (filter : List α → Bool)
    (cmp : α → α → Bool) (s : List α) (hmem : s ∈ runEnumeration g upper filter cmp) :
    filter s = true := by
  rw [runEnumeration_filter_eq] at hmem
  exact (List.mem_filter.mp hmem).2

/-- Witness for C6: the entry `[1, 2]` returned for the clique fixture under
`LessOrEqualFilter` with bound 2. -/
theorem filter_conformance_witness : LessOrEqualFilter 2 [1, 2] = true :=
  filter_conformance cliqueGraph 2 (LessOrEqualFilter 2) natLess [1, 2] (by decide)

/-- C7 (the filter restricts what is reported, not what is explored): for every
graph, bound, comparator and filter `f`, the result of `runEnumeration` with
`f` is the result with `NoFilter` from which the entries failing `f` are
removed, the others keeping their order. -/
theorem filter_restricts_report (g : Graph α) (upper : Nat) (f : List α → Bool)
    (cmp : α → α → Bool) :
    runEnumeration g upper f cmp = (runEnumeration g upper NoFilter cmp).filter f :=
  runEnumeration_filter_eq g upper f cmp

/-- C8 (connectivity as the tests check it): on a well-formed simple undirected
graph, with sorted adjacency lists when the graph declares `listsSorted()`, in
every returned sequence with more than one node every node passes the
`hasNeighbor` check of `checkValidity`: one of its neighbors is in the
sequence. -/
theorem connectivity_check (h : StrictTotal cmp) (g : Graph α) (hg : WellFormed g)
    (hs : SortedIfDeclared g cmp) (upper : Nat) (filter : List α → Bool) (s : List α)
    (hmem : s ∈ runEnumeration g upper filter cmp) (hlen : 1 < s.length) (v : α)
    (hv : v ∈ s) :
    hasNeighbor g cmp s v = true ∧ ∃ u ∈ g.adjancency v, u ∈ s := by
  rw [runEnumeration_reduce h g hg.adj_nodup hs] at hmem
  obtain ⟨_, _, r, hr, k, hreach, hk⟩ :=
    runEnumeration_mem_unsorted h (g.withListsSorted false) rfl upper filter hmem
  have hg2 := wellFormed_withListsSorted hg false
  have h1 := simple_invariant h _ rfl hg2.toSimple hr hreach
  have h3 : InducedConnected g k.current := (conn_invariant h _ rfl hg2 hr hreach).1
  have h4 : SSorted cmp k.current := h1.1.1
  rw [hk] at h3 h4
  have hnd := h4.nodup h
  -- another node of the sequence
  obtain ⟨w, hw, hwv⟩ : ∃ w ∈ s, w ≠ v := by
    match s, hlen, hv, hnd with
    | a :: b :: t, _, hv, hnd =>
      have hab : a ≠ b := by
        intro e
        rw [e] at hnd
        simp at hnd
      by_cases hva : v = a
      · exact ⟨b, by simp, fun e => hab (hva.symm.trans e.symm)⟩
      · exact ⟨a, by simp, fun e => hva e.symm⟩
  have hpath := h3 v hv w hw
  rcases Relation.ReflTransGen.cases_head hpath with h5 | ⟨u, hu, _⟩
  · exact absurd h5.symm hwv
  · refine ⟨?_, u, hu.1, hu.2⟩
    unfold hasNeighbor
    rw [List.any_eq_true]
    exact ⟨u, hu.1, (iterTest_found h (h4.wsorted h) u).mpr hu.2⟩

/-- Witness for C8: node 1 of the entry `[1, 2]` returned for the clique
fixture. -/
theorem connectivity_check_witness :
    hasNeighbor cliqueGraph natLess [1, 2] 1 = true ∧
      ∃ u ∈ cliqueGraph.adjancency 1, u ∈ ([1, 2] : List Nat) :=
  connectivity_check natLess_strictTotal cliqueGraph cliqueGraph_wellFormed
    (cliqueGraph_sorted true) 2 NoFilter [1, 2] (by decide) (by decide) 1 (by decide)

/-- C9 as stated fails: the path 1-2-3 has a duplicate-free node list and
simple adjacency lists, but declares `listsSorted()` with the unsorted neighbor
list `[3, 1]` of node 2, and `runEnumeration` returns `[1, 1, 2, 3]`, which is
not strictly increasing. -/
theorem emitted_strictly_sorted_counterexample :
    Simple declaredSortedPath ∧
      [1, 1, 2, 3] ∈ runEnumeration declaredSortedPath 4 NoFilter natLess ∧
      ¬ SSorted natLess [1, 1, 2, 3] :=
  ⟨declaredSortedPath_simple, by decide, by unfold SSorted; decide⟩

/-- C9 (amended): on a simple graph whose adjacency lists are sorted when the
graph declares `listsSorted()`, and for a strict total order, every sequence in
the result of `runEnumeration` is strictly increasing under the comparator. -/
theorem emitted_strictly_sorted (h : StrictTotal cmp) (g : Graph α) (hg : Simple g)
    (hs : SortedIfDeclared g cmp) (upper : Nat) (filter : List α → Bool) (s : List α)
    (hmem : s ∈ runEnumeration g upper filter cmp) : SSorted cmp s := by
  rw [runEnumeration_reduce h g hg.adj_nodup hs] at hmem
  obtain ⟨_, _, r, hr, k, hreach, hk⟩ :=
    runEnumeration_mem_unsorted h (g.withListsSorted false) rfl upper filter hmem
  have h1 := simple_invariant h _ rfl (simple_withListsSorted hg false) hr hreach
  have h4 : SSorted cmp k.current := h1.1.1
  rw [hk] at h4
  exact h4

/-- Witness for amended C9: the entry `[1, 2, 3]` returned for the clique
fixture. -/
theorem emitted_strictly_sorted_witness : SSorted natLess [1, 2, 3] :=
  emitted_strictly_sorted natLess_strictTotal cliqueGraph cliqueGraph_wellFormed.toSimple
    (cliqueGraph_sorted true) 3 NoFilter [1, 2, 3] (by decide)

/-- C10 as stated fails: `danglingGraph` is simple, its only listed node 2 is
the root at sorted position 0 (no forbidden node), and the root's extension
call appends `[1, 2]`, whose first element is the unlisted neighbor 1, smaller
than the root. -/
theorem root_is_minimum_counterexample :
    Simple danglingGraph ∧ SortedIfDeclared danglingGraph natLess ∧
      sort natLess danglingGraph.nodes = [] ++ 2 :: [] ∧
      rootStep danglingGraph 2 NoFilter natLess [] 2 [] = [] ++ [[2], [1, 2]] ∧
      ([1, 2] : List Nat).head? = some 1 ∧ natLess 1 2 = true :=
  ⟨danglingGraph_simple, fun hd => absurd hd (by decide), by decide, by decide, rfl, by decide⟩

/-- C10 (amended): on a simple graph whose listed nodes have only listed
neighbors, with sorted adjacency lists when the graph declares
`listsSorted()`, when the root loop processes the node `v` of the sorted node
vector `pre ++ v :: post` (with `current = [v]` and `forbidden = pre`), every
sequence appended to `subgraphs` by that iteration has `v` as first element and
no element smaller than `v`. -/
theorem root_is_minimum (h : StrictTotal cmp) (g : Graph α) (hg : Simple g)
    (hs : SortedIfDeclared g cmp)
    (hclosed : ∀ v ∈ g.nodes, ∀ u ∈ g.adjancency v, u ∈ g.nodes)
    (upper : Nat) (filter : List α → Bool) (pre : List α) (v : α) (post : List α)
    (hsplit : sort cmp g.nodes = pre ++ v :: post) (sg : List (List α)) :
    ∃ new, rootStep g upper filter cmp pre v sg = sg ++ new ∧
      ∀ s ∈ new, s.head? = some v ∧ ∀ x ∈ s, cmp x v = false := by
  have hsortN : SSorted cmp (pre ++ v :: post) := hsplit ▸ ssorted_sort h hg.nodes_nodup
  have hpre : WSorted cmp pre := (ssorted_split hsortN).1.wsorted h
  refine ⟨_, rootStep_reduce h g hg.adj_nodup hs upper filter hpre v sg, ?_⟩
  intro s hmem
  have hr : rootCall (g.withListsSorted false) cmp (pre, v, post) ∈
      roots (g.withListsSorted false) cmp := mem_roots.mpr ⟨pre, v, post, hsplit, rfl⟩
  have hmem2 : s ∈ emitted cmp (nonLinearNext (g.withListsSorted false) cmp) upper filter
      (upper - 1) (rootCall (g.withListsSorted false) cmp (pre, v, post)) := hmem
  obtain ⟨_, k, hreach, hk⟩ := emitted_mem _ _ hmem2
  have hg2 := simple_withListsSorted hg false
  have h1 := simple_invariant h _ rfl hg2 hr hreach
  have h2 := nodes_invariant h _ rfl hg2 hclosed hr hreach
  obtain ⟨hinv, _, hcur, hforb⟩ := h1
  have hsorted : SSorted cmp k.current := hinv.1
  have hdisj := hinv.2.2.2.2.1
  have hvk : v ∈ k.current := hcur v (by simp [rootCall])
  have hge : ∀ x ∈ k.current, cmp x v = false := by
    intro x hx
    have hxN : x ∈ pre ++ v :: post := by
      rw [← hsplit]
      exact mem_sort.mpr (h2 x hx)
    rcases List.mem_append.mp hxN with h3 | h3
    · exact absurd (hforb x h3) (hdisj x hx)
    · rcases List.mem_cons.mp h3 with h4 | h4
      · rw [h4]; exact h.irrefl v
      · have h5 : cmp v x = true :=
          (List.pairwise_cons.mp (List.pairwise_append.mp hsortN).2.1).1 x h4
        exact h.asymm h5
  rw [← hk]
  refine ⟨?_, hge⟩
  cases hc : k.current with
  | nil =>
    rw [hc] at hvk
    simp at hvk
  | cons a t =>
    rw [hc] at hvk hsorted hge
    rcases List.mem_cons.mp hvk with h3 | h3
    · simp [h3]
    · have h4 := (List.pairwise_cons.mp hsorted).1 v h3
      have h5 := hge a (List.mem_cons_self _ _)
      rw [h4] at h5
      exact absurd h5 (by simp)

/-- Witness for amended C10: the root 2 of the clique fixture, with node 1
forbidden. -/
theorem root_is_minimum_witness :
    ∃ new, rootStep cliqueGraph 2 NoFilter natLess [1] 2 [] = [] ++ new ∧
      ∀ s ∈ new, s.head? = some 2 ∧ ∀ x ∈ s, natLess x 2 = false :=
  root_is_minimum natLess_strictTotal cliqueGraph cliqueGraph_wellFormed.toSimple
    (cliqueGraph_sorted true) cliqueGraph_wellFormed.closed 2 NoFilter [1] 2 [3, 4, 5]
    (by decide) []

/-! ## Small bounds and empty inputs -/

/-- C11 (bound zero): for every graph, filter and comparator, `runEnumeration`
with `upper = 0` returns the empty collection. -/
theorem bound_zero (g : Graph α) (filter : List α → Bool) (cmp : α → α → Bool) :
    runEnumeration g 0 filter cmp = [] := by
  simp [runEnumeration]

/-- C12 (empty graph): for every bound, filter and comparator, `runEnumeration`
on a graph whose node list is empty returns the empty collection. -/
theorem empty_graph (g : Graph α) (hg : g.nodes = []) (upper : Nat) (filter : List α → Bool)
    (cmp : α → α → Bool) : runEnumeration g upper filter cmp = [] := by
  unfold runEnumeration
  rw [hg]
  by_cases hu : upper = 0 <;> simp [hu, sort, rootLoop]

/-- Witness for C12: the empty fixture with the maximal `size_t` bound. -/
theorem empty_graph_witness : runEnumeration emptyGraph sizeMax NoFilter natLess = [] :=
  empty_graph emptyGraph rfl sizeMax NoFilter natLess

theorem rootStep_one (g : Graph α) (filter : List α → Bool) (cmp : α → α → Bool)
    (forb : List α) (v : α) (sg : List (List α)) :
    rootStep g 1 filter cmp forb v sg = sg ++ List.filter filter [[v]] := by
  unfold rootStep generateRecursiveLinear generateRecursiveNonLinear generateRecursive
  by_cases hs : g.listsSorted = true <;> by_cases hf : filter [v] = true <;>
    simp [hs, hf, List.filter]

theorem rootLoop_one (g : Graph α) (filter : List α → Bool) (cmp : α → α → Bool)
    (rest : List α) :
    ∀ (pre : List α) (sg : List (List α)),
      rootLoop g 1 filter cmp pre rest sg =
        sg ++ List.filter filter (rest.map (fun v => [v])) := by
  induction rest with
  | nil =>
    intro pre sg
    simp [rootLoop]
  | cons v post ih =>
    intro pre sg
    simp only [rootLoop]
    rw [ih, rootStep_one]
    by_cases hf : filter [v] = true <;> simp [hf, List.filter_cons, List.append_assoc]

theorem runEnumeration_one (g : Graph α) (filter : List α → Bool) (cmp : α → α → Bool) :
    runEnumeration g 1 filter cmp =
      List.filter filter ((sort cmp g.nodes).map (fun v => [v])) := by
  unfold runEnumeration
  simp [rootLoop_one]

/-- C13 (bound one yields the singletons): for a duplicate-free node list and a
strict total order, `runEnumeration` with `upper = 1` returns the one-element
sequences `[v]` of the sorted node vector that pass the filter, in that order;
the sorted node vector is strictly increasing and has exactly the nodes of the
graph; with `NoFilter` the result has as many entries as the graph has
nodes. -/
theorem bound_one (h : StrictTotal cmp) (g : Graph α) (hn : g.nodes.Nodup)
    (filter : List α → Bool) :
    runEnumeration g 1 filter cmp =
        List.filter filter ((sort cmp g.nodes).map (fun v => [v])) ∧
      SSorted cmp (sort cmp g.nodes) ∧ (∀ v, v ∈ sort cmp g.nodes ↔ v ∈ g.nodes) ∧
      (runEnumeration g 1 NoFilter cmp).length = g.nodes.length := by
  refine ⟨runEnumeration_one g filter cmp, ssorted_sort h hn, fun v => mem_sort, ?_⟩
  rw [runEnumeration_one]
  have h1 : List.filter NoFilter ((sort cmp g.nodes).map (fun v => [v])) =
      (sort cmp g.nodes).map (fun v => [v]) :=
    List.filter_eq_self.mpr (fun _ _ => rfl)
  rw [h1, List.length_map, (perm_sort g.nodes).length_eq]

/-- Witness for C13: the clique fixture, with `LessOrEqualFilter` of bound 3
and with `NoFilter` (5 entries). -/
theorem bound_one_witness :
    runEnumeration cliqueGraph 1 (LessOrEqualFilter 3) natLess =
        List.filter (LessOrEqualFilter 3) ((sort natLess cliqueGraph.nodes).map (fun v => [v])) ∧
      SSorted natLess (sort natLess cliqueGraph.nodes) ∧
      (∀ v, v ∈ sort natLess cliqueGraph.nodes ↔ v ∈ cliqueGraph.nodes) ∧
      (runEnumeration cliqueGraph 1 NoFilter natLess).length = 5 :=
  bound_one natLess_strictTotal cliqueGraph (by decide) (LessOrEqualFilter 3)

/-! ## Permutations of the input ranges -/

theorem wsorted_eq_of_perm (h : StrictTotal cmp) {a b : List α} (ha : WSorted cmp a)
    (hb : WSorted cmp b) (hp : a.Perm b) : a = b := by
  haveI : IsAntisymm α (fun a b => cmp b a = false) :=
    ⟨fun x y hxy hyx => h.total x y hyx hxy⟩
  exact List.eq_of_perm_of_sorted hp ha hb

theorem sort_perm_eq (h : StrictTotal cmp) {l1 l2 : List α} (hp : l1.Perm l2) :
    sort cmp l1 = sort cmp l2 :=
  wsorted_eq_of_perm h (wsorted_sort h l1) (wsorted_sort h l2)
    ((perm_sort l1).trans (hp.trans (perm_sort l2).symm))

theorem rootLoop_withNodes (g : Graph α) (nodes : List α) (upper : Nat)
    (filter : List α → Bool) (cmp : α → α → Bool) (rest : List α) :
    ∀ (pre : List α) (sg : List (List α)),
      rootLoop (g.withNodes nodes) upper filter cmp pre rest sg =
        rootLoop g upper filter cmp pre rest sg := by
  induction rest with
  | nil =>
    intro pre sg
    simp [rootLoop]
  | cons v post ih =>
    intro pre sg
    simp only [rootLoop]
    rw [ih]
    rfl

/-- C15 (the order of the node list is irrelevant): for a strict total order,
replacing the node range by a permutation of it leaves the result of
`runEnumeration` unchanged. -/
theorem node_order_irrelevant (h : StrictTotal cmp) (g : Graph α) (nodes : List α)
    (hp : nodes.Perm g.nodes) (upper : Nat) (filter : List α → Bool) :
    runEnumeration (g.withNodes nodes) upper filter cmp = runEnumeration g upper filter cmp := by
  unfold runEnumeration
  have h1 : sort cmp (g.withNodes nodes).nodes = sort cmp g.nodes := sort_perm_eq h hp
  rw [h1, rootLoop_withNodes]

/-- Witness for C15: the clique fixture with its nodes listed as
3, 5, 1, 4, 2. -/
theorem node_order_irrelevant_witness :
    runEnumeration (cliqueGraph.withNodes [3, 5, 1, 4, 2]) 3 NoFilter natLess =
      runEnumeration cliqueGraph 3 NoFilter natLess :=
  node_order_irrelevant natLess_strictTotal cliqueGraph [3, 5, 1, 4, 2] (by decide) 3 NoFilter

/-! ## The size bound only truncates -/

section Truncate

variable {next : List α → List α → α → List α → List α → List α × List α}

theorem emitted_length_ge {upper : Nat} {filter : List α → Bool} {d : Nat} {k : Call α}
    {s : List α} (hs : s ∈ emitted cmp next upper filter d k) :
    k.current.length ≤ s.length := by
  obtain ⟨_, k1, hr, h1⟩ := emitted_mem d k hs
  rw [← h1]
  exact calls_length_mono hr

/-- With a smaller bound a call emits what it emits with a larger bound, minus
the sequences that are longer than the smaller bound. -/
theorem emitted_truncate (k k' : Nat) (hk : k ≤ k') (filter : List α → Bool) (d' : Nat) :
    ∀ (d : Nat) (K : Call α), K.current.length ≤ k → k - K.current.length ≤ d →
      k' - K.current.length ≤ d' →
      emitted cmp next k filter d K =
        (emitted cmp next k' filter d' K).filter (fun s => decide (s.length ≤ k)) := by
  induction d' with
  | zero =>
    intro d K hK hd hd'
    have h1 : ¬ K.current.length < k := by omega
    have h2 : ¬ K.current.length < k' := by omega
    unfold emitted
    by_cases hf : filter K.current = true <;> simp [h1, h2, hf, hK]
  | succ e' ih =>
    intro d K hK hd hd'
    by_cases hlt : K.current.length < k
    · have hlt' : K.current.length < k' := by omega
      cases d with
      | zero => omega
      | succ e =>
        unfold emitted
        simp only [hlt, hlt', if_true, List.filter_append, List.filter_flatMap]
        congr 1
        · by_cases hf : filter K.current = true <;> simp [hf, hK]
        · refine List.flatMap_congr (fun c hc => ?_)
          have hlen := children_length hc
          exact ih e c (by omega) (by omega) (by omega)
    · have hnil : (if K.current.length < k' then
          (children cmp next K).flatMap (emitted cmp next k' filter e') else []).filter
            (fun s => decide (s.length ≤ k)) = [] := by
        rw [List.filter_eq_nil_iff]
        intro s hs
        by_cases hlt' : K.current.length < k'
        · simp only [hlt', if_true, List.mem_flatMap] at hs
          obtain ⟨c, hc, hs2⟩ := hs
          have hlen := children_length hc
          have hge := emitted_length_ge hs2
          simp only [decide_eq_true_eq]
          omega
        · simp [hlt'] at hs
      unfold emitted
      rw [List.filter_append, hnil]
      by_cases hf : filter K.current = true <;> cases d <;> simp [hf, hlt, hK]

end Truncate

/-- The result for a bound `k` is the result for a larger bound `k'` from which
the sequences longer than `k` are removed. -/
theorem runEnumeration_truncate (hirr : ∀ a, cmp a a = false) (g : Graph α) (k k' : Nat)
    (hk : k ≤ k') (filter : List α → Bool) :
    runEnumeration g k filter cmp =
      (runEnumeration g k' filter cmp).filter (fun s => decide (s.length ≤ k)) := by
  rw [runEnumeration_eq hirr, runEnumeration_eq hirr]
  by_cases hk0 : k = 0
  · subst hk0
    symm
    simp only [if_true]
    rw [List.filter_eq_nil_iff]
    intro s hs
    by_cases hk0' : k' = 0
    · simp [hk0'] at hs
    · simp only [hk0', if_false, List.mem_flatMap] at hs
      obtain ⟨r, hr, hs2⟩ := hs
      have hge := emitted_length_ge hs2
      obtain ⟨pre, v, post, _, h2⟩ := mem_roots.mp hr
      rw [h2] at hge
      simp only [rootCall, List.length_singleton] at hge
      simp only [decide_eq_true_eq]
      omega
  · have hk0' : k' ≠ 0 := by omega
    simp only [hk0, hk0', if_false, List.filter_flatMap]
    refine List.flatMap_congr (fun r hr => ?_)
    obtain ⟨pre, v, post, _, h2⟩ := mem_roots.mp hr
    have hlen : r.current.length = 1 := by
      rw [h2]
      simp [rootCall]
    exact emitted_truncate k k' hk filter (k' - 1) (k - 1) r (by omega) (by omega) (by omega)

/-- On a simple graph whose listed nodes have listed neighbors no returned
sequence is longer than the node list. -/
theorem runEnumeration_length_le_nodes (h : StrictTotal cmp) (g : Graph α) (hg : Simple g)
    (hclosed : ∀ v ∈ g.nodes, ∀ u ∈ g.adjancency v, u ∈ g.nodes)
    (hs : SortedIfDeclared g cmp) (upper : Nat) (filter : List α → Bool) (s : List α)
    (hmem : s ∈ runEnumeration g upper filter cmp) : s.length ≤ g.nodes.length := by
  rw [runEnumeration_reduce h g hg.adj_nodup hs] at hmem
  obtain ⟨_, _, r, hr, k, hreach, hk⟩ :=
    runEnumeration_mem_unsorted h (g.withListsSorted false) rfl upper filter hmem
  have hg2 := simple_withListsSorted hg false
  have h1 := simple_invariant h _ rfl hg2 hr hreach
  have h2 := nodes_invariant h _ rfl hg2 hclosed hr hreach
  have h4 : k.current.Nodup := h1.1.1.nodup h
  rw [hk] at h2 h4
  exact (List.subperm_of_subset h4 h2).length_le

/-- C14 (a bound that cannot bind is the same as no bound): on a simple graph
whose listed nodes have only listed neighbors, with sorted adjacency lists when
the graph declares `listsSorted()`, and for a strict total order,
`runEnumeration` returns the same collection for any two bounds that are at
least the number of nodes. -/
theorem bound_beyond_nodes (h : StrictTotal cmp) (g : Graph α) (hg : Simple g)
    (hclosed : ∀ v ∈ g.nodes, ∀ u ∈ g.adjancency v, u ∈ g.nodes)
    (hs : SortedIfDeclared g cmp) (filter : List α → Bool) (k k' : Nat)
    (hk : g.nodes.length ≤ k) (hk' : g.nodes.length ≤ k') :
    runEnumeration g k filter cmp = runEnumeration g k' filter cmp := by
  have key : ∀ a b : Nat, g.nodes.length ≤ a → a ≤ b →
      runEnumeration g a filter cmp = runEnumeration g b filter cmp := by
    intro a b ha hab
    rw [runEnumeration_truncate h.irrefl g a b hab filter, List.filter_eq_self]
    intro s hmem
    have := runEnumeration_length_le_nodes h g hg hclosed hs b filter s hmem
    simp only [decide_eq_true_eq]
    omega
  rcases Nat.le_total k k' with h1 | h1
  · exact key k k' hk h1
  · exact (key k' k hk' h1).symm

/-- Witness for C14: the clique fixture with bound 6 and with the maximal
`size_t` value. -/
theorem bound_beyond_nodes_witness :
    runEnumeration cliqueGraph 6 NoFilter natLess =
      runEnumeration cliqueGraph sizeMax NoFilter natLess :=
  bound_beyond_nodes natLess_strictTotal cliqueGraph cliqueGraph_wellFormed.toSimple
    cliqueGraph_wellFormed.closed (cliqueGraph_sorted true) NoFilter 6 sizeMax (by decide)
    (by decide)

/-! ## The neighbor loop of the unsorted path does not depend on the order of the neighbors -/

theorem nonLinearNeighbor_cases (h : StrictTotal cmp) {nf cur z : List α}
    (hnf : WSorted cmp nf) (hcur : WSorted cmp cur) (hz : WSorted cmp z) (x : α) :
    (nonLinearNeighbor cmp nf cur z x = z ∧ (x ∈ nf ∨ x ∈ cur ∨ x ∈ z)) ∨
      (nonLinearNeighbor cmp nf cur z x = vector_insert z (lower_bound cmp z x) x ∧
        ¬ (x ∈ nf ∨ x ∈ cur ∨ x ∈ z)) := by
  unfold nonLinearNeighbor
  simp only []
  by_cases h1 : x ∈ nf
  · rw [if_pos ((iterTest_found h hnf x).mpr h1)]
    exact Or.inl ⟨rfl, Or.inl h1⟩
  · rw [if_neg (fun h2 => h1 ((iterTest_found h hnf x).mp h2))]
    by_cases h3 : x ∈ cur
    · rw [if_pos ((iterTest_found_both h hcur x).mpr h3)]
      exact Or.inl ⟨rfl, Or.inr (Or.inl h3)⟩
    · rw [if_neg (fun h2 => h3 ((iterTest_found_both h hcur x).mp h2))]
      by_cases h4 : x ∈ z
      · rw [if_neg (fun h2 => (iterTest_absent h hz x).mp h2 h4)]
        exact Or.inl ⟨rfl, Or.inr (Or.inr h4)⟩
      · rw [if_pos ((iterTest_absent h hz x).mpr h4)]
        refine Or.inr ⟨rfl, ?_⟩
        rintro (h5 | h5 | h5)
        · exact h1 h5
        · exact h3 h5
        · exact h4 h5

theorem nonLinearNeighbor_wsorted (h : StrictTotal cmp) {nf cur z : List α}
    (hnf : WSorted cmp nf) (hcur : WSorted cmp cur) (hz : WSorted cmp z) (x : α) :
    WSorted cmp (nonLinearNeighbor cmp nf cur z x) := by
  rcases nonLinearNeighbor_cases h hnf hcur hz x with ⟨h1, _⟩ | ⟨h1, _⟩
  · rw [h1]; exact hz
  · rw [h1]; exact hz.insert_lb h x

theorem nonLinearNeighbor_comm (h : StrictTotal cmp) {nf cur z : List α}
    (hnf : WSorted cmp nf) (hcur : WSorted cmp cur) (hz : WSorted cmp z) (x y : α) :
    nonLinearNeighbor cmp nf cur (nonLinearNeighbor cmp nf cur z x) y =
      nonLinearNeighbor cmp nf cur (nonLinearNeighbor cmp nf cur z y) x := by
  have hzx := nonLinearNeighbor_wsorted h hnf hcur hz x
  have hzy := nonLinearNeighbor_wsorted h hnf hcur hz y
  rcases nonLinearNeighbor_cases h hnf hcur hz x with ⟨hx, hx2⟩ | ⟨hx, hx2⟩
  · -- `x` is skipped from `z`, hence also after `y`
    rcases nonLinearNeighbor_cases h hnf hcur hzy x with ⟨hx3, _⟩ | ⟨_, hx4⟩
    · rw [hx, hx3]
    · exfalso
      apply hx4
      rcases hx2 with h1 | h1 | h1
      · exact Or.inl h1
      · exact Or.inr (Or.inl h1)
      · right; right
        rcases nonLinearNeighbor_cases h hnf hcur hz y with ⟨hy, _⟩ | ⟨hy, _⟩
        · rw [hy]; exact h1
        · rw [hy]; exact mem_vector_insert.mpr (Or.inr h1)
  · rcases nonLinearNeighbor_cases h hnf hcur hz y with ⟨hy, hy2⟩ | ⟨hy, hy2⟩
    · -- `y` is skipped from `z`, hence also after `x`
      rcases nonLinearNeighbor_cases h hnf hcur hzx y with ⟨hy3, _⟩ | ⟨_, hy4⟩
      · rw [hy3, hy]
      · exfalso
        apply hy4
        rcases hy2 with h1 | h1 | h1
        · exact Or.inl h1
        · exact Or.inr (Or.inl h1)
        · right; right
          rw [hx]; exact mem_vector_insert.mpr (Or.inr h1)
    · -- both are new
      by_cases hxy : x = y
      · subst hxy
        rfl
      · have hx5 : ¬ (y ∈ nf ∨ y ∈ cur ∨ y ∈ nonLinearNeighbor cmp nf cur z x) := by
          rintro (h1 | h1 | h1)
          · exact hy2 (Or.inl h1)
          · exact hy2 (Or.inr (Or.inl h1))
          · rw [hx] at h1
            rcases mem_vector_insert.mp h1 with h2 | h2
            · exact hxy h2.symm
            · exact hy2 (Or.inr (Or.inr h2))
        have hy5 : ¬ (x ∈ nf ∨ x ∈ cur ∨ x ∈ nonLinearNeighbor cmp nf cur z y) := by
          rintro (h1 | h1 | h1)
          · exact hx2 (Or.inl h1)
          · exact hx2 (Or.inr (Or.inl h1))
          · rw [hy] at h1
            rcases mem_vector_insert.mp h1 with h2 | h2
            · exact hxy h2
            · exact hx2 (Or.inr (Or.inr h2))
        have hl : nonLinearNeighbor cmp nf cur (nonLinearNeighbor cmp nf cur z x) y =
            vector_insert (nonLinearNeighbor cmp nf cur z x)
              (lower_bound cmp (nonLinearNeighbor cmp nf cur z x) y) y := by
          rcases nonLinearNeighbor_cases h hnf hcur hzx y with ⟨_, h1⟩ | ⟨h1, _⟩
          · exact absurd h1 hx5
          · exact h1
        have hr : nonLinearNeighbor cmp nf cur (nonLinearNeighbor cmp nf cur z y) x =
            vector_insert (nonLinearNeighbor cmp nf cur z y)
              (lower_bound cmp (nonLinearNeighbor cmp nf cur z y) x) x := by
          rcases nonLinearNeighbor_cases h hnf hcur hzy x with ⟨_, h1⟩ | ⟨h1, _⟩
          · exact absurd h1 hy5
          · exact h1
        rw [hl, hr]
        refine wsorted_eq_of_perm h (hzx.insert_lb h y) (hzy.insert_lb h x) ?_
        rw [hx, hy]
        refine (perm_vector_insert _ _ _).trans (((perm_vector_insert _ _ _).cons y).trans ?_)
        refine (List.Perm.swap x y z).trans ?_
        exact (((perm_vector_insert z _ y).cons x).symm).trans (perm_vector_insert _ _ _).symm

theorem foldl_perm_of_comm {β : Type} (f : β → α → β) (P : β → Prop)
    (hP : ∀ z x, P z → P (f z x))
    (hcomm : ∀ z x y, P z → f (f z x) y = f (f z y) x) {l1 l2 : List α}
    (hp : l1.Perm l2) : ∀ z, P z → l1.foldl f z = l2.foldl f z := by
  induction hp with
  | nil =>
    intro z _
    rfl
  | cons x _ ih =>
    intro z hz
    simp only [List.foldl_cons]
    exact ih _ (hP z x hz)
  | swap x y l =>
    intro z hz
    simp only [List.foldl_cons]
    rw [hcomm z y x hz]
  | trans _ _ ih1 ih2 =>
    intro z hz
    exact (ih1 z hz).trans (ih2 z hz)

theorem nonLinearNeighbor_foldl_wsorted (h : StrictTotal cmp) {nf cur : List α}
    (hnf : WSorted cmp nf) (hcur : WSorted cmp cur) (ns : List α) :
    ∀ z, WSorted cmp z → WSorted cmp (ns.foldl (nonLinearNeighbor cmp nf cur) z) := by
  induction ns with
  | nil =>
    intro z hz
    exact hz
  | cons n ns ih =>
    intro z hz
    rw [List.foldl_cons]
    exact ih _ (nonLinearNeighbor_wsorted h hnf hcur hz n)

theorem wsorted_split_post {p post : List α} {c : α} (hs : WSorted cmp (p ++ c :: post)) :
    WSorted cmp post := by
  unfold WSorted at hs ⊢
  rw [List.pairwise_append] at hs
  exact (List.pairwise_cons.mp hs.2.1).2

/-- On the unsorted path the next candidates do not depend on the order of the
neighbor list. -/
theorem nonLinearNext_perm (h : StrictTotal cmp) (g : Graph α) (adj : α → List α)
    (hp : ∀ v, (adj v).Perm (g.adjancency v)) {cur pre post forb : List α} (c : α)
    (hcur : WSorted cmp cur) (hpre : WSorted cmp pre) (hpost : WSorted cmp post)
    (hforb : WSorted cmp forb) :
    nonLinearNext (g.withAdjancency adj) cmp cur pre c post forb =
      nonLinearNext g cmp cur pre c post forb := by
  have hnf : WSorted cmp (set_union cmp forb pre) := hforb.union h hpre
  unfold nonLinearNext
  simp only [Graph.withAdjancency]
  rw [foldl_perm_of_comm (nonLinearNeighbor cmp (set_union cmp forb pre) cur) (WSorted cmp)
    (fun z x hz => nonLinearNeighbor_wsorted h hnf hcur hz x)
    (fun z x y hz => nonLinearNeighbor_comm h hnf hcur hz x y) (hp c) post hpost]

/-- Sortedness of the three vectors is passed on to every child call of the
unsorted path, on every graph. -/
theorem wsorted_children (h : StrictTotal cmp) (g : Graph α) (a b : Call α)
    (ha : WSorted cmp a.current ∧ WSorted cmp a.candidates ∧ WSorted cmp a.forbidden)
    (hb : b ∈ children cmp (nonLinearNext g cmp) a) :
    WSorted cmp b.current ∧ WSorted cmp b.candidates ∧ WSorted cmp b.forbidden := by
  obtain ⟨p, c, post, h1, h2⟩ := mem_children.mp hb
  obtain ⟨hcur, hcands, hforb⟩ := ha
  rw [h1] at hcands
  have hp := wsorted_split hcands
  have hpost := wsorted_split_post hcands
  have hnf : WSorted cmp (set_union cmp a.forbidden p) := hforb.union h hp
  rw [h2]
  exact ⟨hcur.insert_lb h c,
    nonLinearNeighbor_foldl_wsorted h hnf (hcur.insert_lb h c) (g.adjancency c) post hpost, hnf⟩

theorem children_perm (h : StrictTotal cmp) (g : Graph α) (adj : α → List α)
    (hp : ∀ v, (adj v).Perm (g.adjancency v)) {k : Call α}
    (hk : WSorted cmp k.current ∧ WSorted cmp k.candidates ∧ WSorted cmp k.forbidden) :
    children cmp (nonLinearNext (g.withAdjancency adj) cmp) k =
      children cmp (nonLinearNext g cmp) k := by
  unfold children
  refine List.map_congr_left (fun s hs => ?_)
  obtain ⟨p, c, post⟩ := s
  obtain ⟨q, h1, h2⟩ := mem_splitsFrom.mp hs
  obtain ⟨hcur, hcands, hforb⟩ := hk
  simp only at h2
  rw [h2] at hcands
  simp only [List.nil_append] at h1
  subst h1
  unfold childCall
  simp only
  rw [nonLinearNext_perm h g adj hp c (hcur.insert_lb h c) (wsorted_split hcands)
    (wsorted_split_post hcands) hforb]

theorem emitted_perm (h : StrictTotal cmp) (g : Graph α) (adj : α → List α)
    (hp : ∀ v, (adj v).Perm (g.adjancency v)) (upper : Nat) (filter : List α → Bool)
    (d : Nat) :
    ∀ k : Call α,
      WSorted cmp k.current ∧ WSorted cmp k.candidates ∧ WSorted cmp k.forbidden →
      emitted cmp (nonLinearNext (g.withAdjancency adj) cmp) upper filter d k =
        emitted cmp (nonLinearNext g cmp) upper filter d k := by
  induction d with
  | zero =>
    intro k _
    unfold emitted
    rfl
  | succ d ih =>
    intro k hk
    unfold emitted
    rw [children_perm h g adj hp hk]
    congr 1
    by_cases hu : k.current.length < upper
    · simp only [hu, if_true]
      exact List.flatMap_congr (fun k1 hk1 => ih k1 (wsorted_children h g k k1 hk hk1))
    · simp [hu]

/-- C16 (on the unsorted path the order of neighbor lists is irrelevant): for a
graph with `listsSorted()` false and a strict total order, replacing every
adjacency list by a permutation of it leaves the result of `runEnumeration`
unchanged. -/
theorem adjacency_order_irrelevant (h : StrictTotal cmp) (g : Graph α)
    (hs : g.listsSorted = false) (adj : α → List α)
    (hp : ∀ v, (adj v).Perm (g.adjancency v)) (upper : Nat) (filter : List α → Bool) :
    runEnumeration (g.withAdjancency adj) upper filter cmp =
      runEnumeration g upper filter cmp := by
  rw [runEnumeration_eq h.irrefl, runEnumeration_eq h.irrefl]
  by_cases hu : upper = 0
  · simp [hu]
  · simp only [hu, if_false]
    have hnext1 : nextOf (g.withAdjancency adj) cmp =
        nonLinearNext (g.withAdjancency adj) cmp := by
      unfold nextOf
      simp [Graph.withAdjancency, hs]
    have hnext2 : nextOf g cmp = nonLinearNext g cmp := by
      unfold nextOf
      simp [hs]
    have hroots : roots (g.withAdjancency adj) cmp = roots g cmp := by
      unfold roots
      refine List.map_congr_left (fun s _ => ?_)
      unfold rootCall
      simp only [Graph.withAdjancency, hs, Bool.false_eq_true, if_false]
      congr 1
      unfold rootCandidatesNonLinear
      exact sort_perm_eq h ((hp s.2.1).filter _)
    rw [hnext1, hnext2, hroots]
    refine List.flatMap_congr (fun k hk => emitted_perm h g adj hp upper filter _ k ?_)
    obtain ⟨pre, v, post, h1, h2⟩ := mem_roots.mp hk
    have hpre : WSorted cmp pre := wsorted_split (h1 ▸ wsorted_sort h g.nodes)
    rw [h2]
    unfold rootCall
    simp only [hs, Bool.false_eq_true, if_false]
    exact ⟨by simp [WSorted], wsorted_sort h _, hpre⟩

/-- Witness for C16: the clique fixture on the unsorted path with every
neighbor list reversed (descending, as `getAdjacency` of `CustomizedTest.cpp`
builds them). -/
theorem adjacency_order_irrelevant_witness :
    runEnumeration ((cliqueGraph.withListsSorted false).withAdjancency
        (fun v => (cliqueGraph.adjancency v).reverse)) 3 NoFilter natLess =
      runEnumeration (cliqueGraph.withListsSorted false) 3 NoFilter natLess :=
  adjacency_order_irrelevant natLess_strictTotal (cliqueGraph.withListsSorted false) rfl
    (fun v => (cliqueGraph.adjancency v).reverse) (fun _ => List.reverse_perm _) 3 NoFilter

/-! ## A violated sorted-path precondition -/

theorem mem_declaredSortedPath_adjancency (u v : Nat) :
    u ∈ declaredSortedPath.adjancency v ↔
      (v = 1 ∧ u = 2) ∨ (v = 2 ∧ (u = 3 ∨ u = 1)) ∨ (v = 3 ∧ u = 2) := by
  unfold declaredSortedPath
  simp only
  split_ifs <;> simp [*]

theorem declaredSortedPath_wellFormed : WellFormed declaredSortedPath := by
  refine ⟨declaredSortedPath_simple, fun v _ u hu => ?_, fun u v => ?_⟩
  · have h1 := (mem_declaredSortedPath_adjancency u v).mp hu
    have h2 : u = 1 ∨ u = 2 ∨ u = 3 := by omega
    rcases h2 with h3 | h3 | h3 <;> subst h3 <;> decide
  · rw [mem_declaredSortedPath_adjancency, mem_declaredSortedPath_adjancency]
    omega

/-- C17 (a violated sorted-path precondition goes undetected): the path 1-2-3 is
a well-formed simple undirected graph that declares `listsSorted()` although
the neighbor list `[3, 1]` of node 2 is not sorted; `runEnumeration` returns a
collection that differs from the one of the unsorted path on the same graph
(the six connected node sets) and contains `[1, 1, 2, 3]`, which repeats node
1. -/
theorem unsorted_lists_undetected :
    WellFormed declaredSortedPath ∧ declaredSortedPath.listsSorted = true ∧
      declaredSortedPath.adjancency 2 = [3, 1] ∧ ¬ WSorted natLess [3, 1] ∧
      runEnumeration declaredSortedPath 4 NoFilter natLess =
        [[1], [1, 2], [1, 2, 3], [1, 1, 2, 3], [1, 1, 2], [2], [2, 3], [1, 2, 3], [1, 2], [3]] ∧
      runEnumeration (declaredSortedPath.withListsSorted false) 4 NoFilter natLess =
        [[1], [1, 2], [1, 2, 3], [2], [2, 3], [3]] ∧
      runEnumeration declaredSortedPath 4 NoFilter natLess ≠
        runEnumeration (declaredSortedPath.withListsSorted false) 4 NoFilter natLess ∧
      ¬ ([1, 1, 2, 3] : List Nat).Nodup :=
  ⟨declaredSortedPath_wellFormed, rfl, rfl, by unfold WSorted; decide, by decide, by decide,
    by decide, by decide⟩

/-! ## The regression fixtures -/

set_option maxHeartbeats 4000000 in
/-- C18 (clique fixture): on the complete graph on nodes 1..5 with `NoFilter`
and the natural order, `runEnumeration` returns 31 sequences for the maximal
`size_t` bound and 5, 15, 25, 30 sequences for the bounds 1, 2, 3, 4. -/
theorem clique_fixture :
    (runEnumeration cliqueGraph sizeMax NoFilter natLess).length = 31 ∧
      (runEnumeration cliqueGraph 1 NoFilter natLess).length = 5 ∧
      (runEnumeration cliqueGraph 2 NoFilter natLess).length = 15 ∧
      (runEnumeration cliqueGraph 3 NoFilter natLess).length = 25 ∧
      (runEnumeration cliqueGraph 4 NoFilter natLess).length = 30 :=
  ⟨by decide, by decide, by decide, by decide, by decide⟩

set_option maxHeartbeats 4000000 in
/-- C19 (cycle fixture): on the cycle 1-2-3-4-5-1 with `NoFilter` and the
natural order, `runEnumeration` returns 21 sequences for the maximal `size_t`
bound and 5, 10, 15, 20 sequences for the bounds 1, 2, 3, 4. -/
theorem cycle_fixture :
    (runEnumeration cycleGraph sizeMax NoFilter natLess).length = 21 ∧
      (runEnumeration cycleGraph 1 NoFilter natLess).length = 5 ∧
      (runEnumeration cycleGraph 2 NoFilter natLess).length = 10 ∧
      (runEnumeration cycleGraph 3 NoFilter natLess).length = 15 ∧
      (runEnumeration cycleGraph 4 NoFilter natLess).length = 20 :=
  ⟨by decide, by decide, by decide, by decide, by decide⟩

set_option maxHeartbeats 4000000 in
/-- C20 (path fixture): on the path 1-2-3-4-5 with `NoFilter` and the natural
order, `runEnumeration` returns 15 sequences for the maximal `size_t` bound and
5, 9, 12, 14 sequences for the bounds 1, 2, 3, 4. -/
theorem path_fixture :
    (runEnumeration pathGraph sizeMax NoFilter natLess).length = 15 ∧
      (runEnumeration pathGraph 1 NoFilter natLess).length = 5 ∧
      (runEnumeration pathGraph 2 NoFilter natLess).length = 9 ∧
      (runEnumeration pathGraph 3 NoFilter natLess).length = 12 ∧
      (runEnumeration pathGraph 4 NoFilter natLess).length = 14 :=
  ⟨by decide, by decide, by decide, by decide, by decide⟩

/-! ## The calls reachable from the driver -/

theorem roots_unsorted (h : StrictTotal cmp) (g : Graph α) (hadj : AdjStrict g cmp) :
    roots g cmp = roots (g.withListsSorted false) cmp := by
  by_cases hs : g.listsSorted = true
  · unfold roots
    refine List.map_congr_left (fun s hs2 => ?_)
    obtain ⟨pre, v, post⟩ := s
    obtain ⟨q, h1, h2⟩ := mem_splitsFrom.mp hs2
    simp only [List.nil_append] at h1
    subst h1
    simp only at h2
    have hpre : WSorted cmp pre := wsorted_split (h2 ▸ wsorted_sort h g.nodes)
    unfold rootCall
    simp only [hs, if_true, Graph.withListsSorted, Bool.false_eq_true, if_false]
    rw [rootCandidates_eq h g v hpre (hadj v)]
    rfl
  · have hs2 : g.listsSorted = false := by simpa using hs
    have h1 := withListsSorted_self g
    rw [hs2] at h1
    rw [h1]

theorem calls_linear (h : StrictTotal cmp) (g : Graph α) (hadj : AdjStrict g cmp)
    {upper : Nat} {r k : Call α} (hr : r.Weak cmp)
    (hreach : Relation.ReflTransGen (Calls cmp (linearNext g cmp) upper) r k) :
    Relation.ReflTransGen (Calls cmp (nonLinearNext g cmp) upper) r k ∧ k.Weak cmp := by
  induction hreach with
  | refl => exact ⟨Relation.ReflTransGen.refl, hr⟩
  | tail _ hc ih =>
    have hmem := hc.2
    rw [children_linear_eq h g hadj ih.2] at hmem
    exact ⟨Relation.ReflTransGen.tail ih.1 ⟨hc.1, hmem⟩, weak_children h g _ _ ih.2 hmem⟩

/-- With adjacency lists free of repeats, and sorted when the graph declares
so, the calls reachable from the driver are the calls of the unsorted path. -/
theorem reachable_unsorted (h : StrictTotal cmp) (g : Graph α)
    (hn : ∀ v, (g.adjancency v).Nodup) (hs : SortedIfDeclared g cmp) {upper : Nat}
    {k : Call α} (hk : Reachable g cmp upper k) :
    ∃ r ∈ roots (g.withListsSorted false) cmp,
      Relation.ReflTransGen (Calls cmp (nonLinearNext (g.withListsSorted false) cmp) upper) r k := by
  obtain ⟨_, r, hr, hreach⟩ := hk
  by_cases hd : g.listsSorted = true
  · have hadj := adjStrict_of_declared h g hn hs hd
    have hnext : nextOf g cmp = linearNext g cmp := by
      unfold nextOf
      simp [hd]
    rw [hnext] at hreach
    rw [roots_unsorted h g hadj] at hr
    have hw := weak_roots h (g.withListsSorted false) rfl hn hr
    exact ⟨r, hr, (calls_linear h g hadj hw hreach).1⟩
  · have hd2 : g.listsSorted = false := by simpa using hd
    have hnext : nextOf g cmp = nonLinearNext g cmp := by
      unfold nextOf
      simp [hd2]
    rw [hnext] at hreach
    have h1 := withListsSorted_self g
    rw [hd2] at h1
    rw [h1]
    exact ⟨r, hr, hreach⟩

/-- On a simple graph every call reachable from the driver, on either path,
satisfies the set invariant and has the exact candidate set. -/
theorem reachable_invariant (h : StrictTotal cmp) (g : Graph α) (hg : Simple g)
    (hs : SortedIfDeclared g cmp) {upper : Nat} {k : Call α}
    (hk : Reachable g cmp upper k) : k.Inv cmp ∧ k.Exact g := by
  obtain ⟨r, hr, hreach⟩ := reachable_unsorted h g hg.adj_nodup hs hk
  have h1 := simple_invariant h _ rfl (simple_withListsSorted hg false) hr hreach
  exact ⟨h1.1, h1.2.1⟩

/-- The call with `current = [1, 2]`, `candidates = [3, 4, 5]` and no
forbidden node is made below the root 1 of the clique fixture. -/
theorem cliqueGraph_reachable :
    Reachable cliqueGraph natLess 3 ⟨[1, 2], [3, 4, 5], []⟩ := by
  refine ⟨by decide, rootCall cliqueGraph natLess ([], 1, [2, 3, 4, 5]),
    mem_roots.mpr ⟨[], 1, [2, 3, 4, 5], by decide, rfl⟩, ?_⟩
  refine Relation.ReflTransGen.single ⟨by decide, ?_⟩
  exact mem_children.mpr ⟨[], 2, [3, 4, 5], by decide, rfl⟩

/-- C22 (set invariant of the search): on a simple graph, with sorted adjacency
lists when the graph declares `listsSorted()`, and for a strict total order, at
every call of an extension procedure reachable from `runEnumeration` the
vectors `current`, `candidates` and `forbidden` are strictly sorted and
pairwise disjoint. -/
theorem set_invariant (h : StrictTotal cmp) (g : Graph α) (hg : Simple g)
    (hs : SortedIfDeclared g cmp) (upper : Nat) (k : Call α)
    (hk : Reachable g cmp upper k) :
    SSorted cmp k.current ∧ SSorted cmp k.candidates ∧ SSorted cmp k.forbidden ∧
      (∀ x ∈ k.current, x ∉ k.candidates) ∧ (∀ x ∈ k.current, x ∉ k.forbidden) ∧
      (∀ x ∈ k.candidates, x ∉ k.forbidden) :=
  (reachable_invariant h g hg hs hk).1

/-- Witness for C22: the call `([1, 2], [3, 4, 5], [])` of the clique
fixture. -/
theorem set_invariant_witness :
    SSorted natLess [1, 2] ∧ SSorted natLess [3, 4, 5] ∧ SSorted natLess [] ∧
      (∀ x ∈ [1, 2], x ∉ [3, 4, 5]) ∧ (∀ x ∈ [1, 2], x ∉ ([] : List Nat)) ∧
      (∀ x ∈ [3, 4, 5], x ∉ ([] : List Nat)) :=
  set_invariant natLess_strictTotal cliqueGraph cliqueGraph_wellFormed.toSimple
    (cliqueGraph_sorted true) 3 ⟨[1, 2], [3, 4, 5], []⟩ cliqueGraph_reachable

/-- C26 (exact content of the candidate set): on a simple graph, with sorted
adjacency lists when the graph declares `listsSorted()`, at every call of an
extension procedure reachable from `runEnumeration` a node is in `candidates`
exactly when it is in the adjacency list of some node of `current` and in
neither `current` nor `forbidden`. -/
theorem candidates_exact (h : StrictTotal cmp) (g : Graph α) (hg : Simple g)
    (hs : SortedIfDeclared g cmp) (upper : Nat) (k : Call α)
    (hk : Reachable g cmp upper k) (x : α) :
    x ∈ k.candidates ↔
      (∃ y ∈ k.current, x ∈ g.adjancency y) ∧ x ∉ k.current ∧ x ∉ k.forbidden :=
  (reachable_invariant h g hg hs hk).2 x

/-- Witness for C26: node 3 at the call `([1, 2], [3, 4, 5], [])` of the
clique fixture. -/
theorem candidates_exact_witness :
    3 ∈ [3, 4, 5] ↔
      (∃ y ∈ [1, 2], 3 ∈ cliqueGraph.adjancency y) ∧ 3 ∉ [1, 2] ∧ 3 ∉ ([] : List Nat) :=
  candidates_exact natLess_strictTotal cliqueGraph cliqueGraph_wellFormed.toSimple
    (cliqueGraph_sorted true) 3 ⟨[1, 2], [3, 4, 5], []⟩ cliqueGraph_reachable 3

/-! ## Backtracking, termination and truncation -/

/-- C24 (backtracking restores the current set): for a strict total order and a
call entered with `current` sorted, both extension procedures return with the
`current` they were entered with; and in a loop iteration for a candidate `c`
(insert at the lower bound, recurse, erase at the lower bound) the inserted
vector is again sorted and the erase gives back `current` as it was before the
insertion. -/
theorem backtracking (h : StrictTotal cmp) (g : Graph α) (upper : Nat)
    (filter : List α → Bool) (current candidates forbidden : List α)
    (subgraphs : List (List α)) (hcur : WSorted cmp current) :
    (generateRecursiveLinear g upper filter current candidates forbidden subgraphs cmp).1 =
        current ∧
      (generateRecursiveNonLinear g upper filter current candidates forbidden subgraphs cmp).1 =
        current ∧
      ∀ (c : α) (nextCandidates nextForbidden : List α),
        WSorted cmp (vector_insert current (lower_bound cmp current c) c) ∧
        vector_erase
            (generateRecursiveLinear g upper filter
              (vector_insert current (lower_bound cmp current c) c)
              nextCandidates nextForbidden subgraphs cmp).1
            (lower_bound cmp
              (generateRecursiveLinear g upper filter
                (vector_insert current (lower_bound cmp current c) c)
                nextCandidates nextForbidden subgraphs cmp).1 c) = current ∧
        vector_erase
            (generateRecursiveNonLinear g upper filter
              (vector_insert current (lower_bound cmp current c) c)
              nextCandidates nextForbidden subgraphs cmp).1
            (lower_bound cmp
              (generateRecursiveNonLinear g upper filter
                (vector_insert current (lower_bound cmp current c) c)
                nextCandidates nextForbidden subgraphs cmp).1 c) = current := by
  unfold generateRecursiveLinear generateRecursiveNonLinear
  refine ⟨by rw [generateRecursive_eq h.irrefl], by rw [generateRecursive_eq h.irrefl], ?_⟩
  intro c nc nf
  refine ⟨hcur.insert_lb h c, ?_, ?_⟩
  · rw [generateRecursive_eq h.irrefl]
    exact restore_current (h.irrefl c) current
  · rw [generateRecursive_eq h.irrefl]
    exact restore_current (h.irrefl c) current

/-- Witness for C24: the root call of node 1 of the clique fixture with
bound 3. -/
theorem backtracking_witness :
    (generateRecursiveLinear cliqueGraph 3 NoFilter [1] [2, 3, 4, 5] [] [] natLess).1 = [1] ∧
      (generateRecursiveNonLinear cliqueGraph 3 NoFilter [1] [2, 3, 4, 5] [] [] natLess).1 = [1] ∧
      ∀ (c : Nat) (nextCandidates nextForbidden : List Nat),
        WSorted natLess (vector_insert [1] (lower_bound natLess [1] c) c) ∧
        vector_erase
            (generateRecursiveLinear cliqueGraph 3 NoFilter
              (vector_insert [1] (lower_bound natLess [1] c) c)
              nextCandidates nextForbidden [] natLess).1
            (lower_bound natLess
              (generateRecursiveLinear cliqueGraph 3 NoFilter
                (vector_insert [1] (lower_bound natLess [1] c) c)
                nextCandidates nextForbidden [] natLess).1 c) = [1] ∧
        vector_erase
            (generateRecursiveNonLinear cliqueGraph 3 NoFilter
              (vector_insert [1] (lower_bound natLess [1] c) c)
              nextCandidates nextForbidden [] natLess).1
            (lower_bound natLess
              (generateRecursiveNonLinear cliqueGraph 3 NoFilter
                (vector_insert [1] (lower_bound natLess [1] c) c)
                nextCandidates nextForbidden [] natLess).1 c) = [1] :=
  backtracking natLess_strictTotal cliqueGraph 3 NoFilter [1] [2, 3, 4, 5] [] []
    (by unfold WSorted; decide)

/-! ## Forbidden nodes -/

theorem nonLinearNeighbor_foldl_sub (h : StrictTotal cmp) {nf cur : List α}
    (hnf : WSorted cmp nf) (hcur : WSorted cmp cur) (ns : List α) :
    ∀ z, WSorted cmp z → ∀ x ∈ ns.foldl (nonLinearNeighbor cmp nf cur) z, x ∈ z ∨ x ∉ nf := by
  induction ns with
  | nil =>
    intro z _ x hx
    exact Or.inl hx
  | cons n ns ih =>
    intro z hz x hx
    rw [List.foldl_cons] at hx
    rcases ih _ (nonLinearNeighbor_wsorted h hnf hcur hz n) x hx with h1 | h1
    · rcases nonLinearNeighbor_cases h hnf hcur hz n with ⟨h2, _⟩ | ⟨h2, h3⟩
      · rw [h2] at h1
        exact Or.inl h1
      · rw [h2] at h1
        rcases mem_vector_insert.mp h1 with h4 | h4
        · right
          rw [h4]
          exact fun h5 => h3 (Or.inl h5)
        · exact Or.inl h4
    · exact Or.inr h1

theorem nonLinearNext_sound (h : StrictTotal cmp) (g : Graph α) :
    NextSound cmp (nonLinearNext g cmp) := by
  intro cur pre c post forb hcur hpre hpost hforb
  have hnf : WSorted cmp (set_union cmp forb pre) := hforb.union h hpre
  refine ⟨nonLinearNeighbor_foldl_wsorted h hnf hcur (g.adjancency c) post hpost, hnf,
    fun x => mem_set_union h forb pre x, ?_⟩
  intro x hx
  exact nonLinearNeighbor_foldl_sub h hnf hcur (g.adjancency c) post hpost x hx

theorem linearNext_sound (h : StrictTotal cmp) (g : Graph α) (hadj : AdjStrict g cmp) :
    NextSound cmp (linearNext g cmp) := by
  intro cur pre c post forb hcur hpre hpost hforb
  have hnf : WSorted cmp (set_union cmp pre forb) := hpre.union h hforb
  have h2 : SSorted cmp (set_difference cmp (g.adjancency c) cur) := (hadj c).difference cur
  have h3 : SSorted cmp (set_difference cmp (set_difference cmp (g.adjancency c) cur)
      (set_union cmp pre forb)) := h2.difference _
  refine ⟨hpost.union h (h3.wsorted h), hnf, fun x => ?_, ?_⟩
  · show x ∈ set_union cmp pre forb ↔ _
    rw [mem_set_union h]
    tauto
  · intro x hx
    have hx2 : x ∈ set_union cmp post (set_difference cmp
        (set_difference cmp (g.adjancency c) cur) (set_union cmp pre forb)) := hx
    rcases (mem_set_union h _ _ x).mp hx2 with h4 | h4
    · exact Or.inl h4
    · exact Or.inr ((mem_set_difference h h2 hnf x).mp h4).2

section Forbidden

variable {next : List α → List α → α → List α → List α → List α × List α}

/-- Sortedness of the three vectors, and the absence of the nodes of `F` from
`current` and `candidates`, are passed on to every child call, whose
`forbidden` keeps the nodes of `F`. -/
theorem forbidden_children (h : StrictTotal cmp) (hnext : NextSound cmp next) (F : List α)
    (a b : Call α)
    (ha : (WSorted cmp a.current ∧ WSorted cmp a.candidates ∧ WSorted cmp a.forbidden) ∧
      (∀ x ∈ F, x ∉ a.current) ∧ (∀ x ∈ F, x ∉ a.candidates) ∧ ∀ x ∈ F, x ∈ a.forbidden)
    (hb : b ∈ children cmp next a) :
    (WSorted cmp b.current ∧ WSorted cmp b.candidates ∧ WSorted cmp b.forbidden) ∧
      (∀ x ∈ F, x ∉ b.current) ∧ (∀ x ∈ F, x ∉ b.candidates) ∧ ∀ x ∈ F, x ∈ b.forbidden := by
  obtain ⟨p, c, post, h1, h2⟩ := mem_children.mp hb
  obtain ⟨⟨hcur, hcands, hforb⟩, hj1, hj2, hj3⟩ := ha
  have hcands2 := hcands
  rw [h1] at hcands2
  have hp := wsorted_split hcands2
  have hpost := wsorted_split_post hcands2
  have hcur1 := hcur.insert_lb h c
  obtain ⟨hs1, hs2, hs3, hs4⟩ := hnext _ p c post a.forbidden hcur1 hp hpost hforb
  have hcin : c ∈ a.candidates := by rw [h1]; simp
  have hpostin : ∀ x ∈ post, x ∈ a.candidates := fun x hx => by rw [h1]; simp [hx]
  rw [h2]
  refine ⟨⟨hcur1, hs1, hs2⟩, ?_, ?_, ?_⟩
  · intro x hx hx2
    rcases mem_vector_insert.mp hx2 with h3 | h3
    · rw [h3] at hx
      exact hj2 c hx hcin
    · exact hj1 x hx h3
  · intro x hx hx2
    rcases hs4 x hx2 with h3 | h3
    · exact hj2 x hx (hpostin x h3)
    · exact h3 ((hs3 x).mpr (Or.inl (hj3 x hx)))
  · intro x hx
    exact (hs3 x).mpr (Or.inl (hj3 x hx))

/-- No sequence emitted below a call contains a node that is forbidden in that
call. -/
theorem emitted_avoids_forbidden (h : StrictTotal cmp) (hnext : NextSound cmp next)
    {upper : Nat} {filter : List α → Bool} {d : Nat} {k : Call α}
    (hw : WSorted cmp k.current ∧ WSorted cmp k.candidates ∧ WSorted cmp k.forbidden)
    (hd2 : ∀ x ∈ k.current, x ∉ k.forbidden) (hd3 : ∀ x ∈ k.candidates, x ∉ k.forbidden)
    {s : List α} (hs : s ∈ emitted cmp next upper filter d k) :
    ∀ x ∈ k.forbidden, x ∉ s := by
  obtain ⟨_, k1, hr, h1⟩ := emitted_mem d k hs
  have hP := calls_invariant
    (fun b => (WSorted cmp b.current ∧ WSorted cmp b.candidates ∧ WSorted cmp b.forbidden) ∧
      (∀ x ∈ k.forbidden, x ∉ b.current) ∧ (∀ x ∈ k.forbidden, x ∉ b.candidates) ∧
      ∀ x ∈ k.forbidden, x ∈ b.forbidden)
    (fun a b ha hb => forbidden_children h hnext k.forbidden a b ha hb)
    hr ⟨hw, fun x hx hx2 => hd2 x hx2 hx, fun x hx hx2 => hd3 x hx2 hx, fun x hx => hx⟩
  intro x hx
  rw [← h1]
  exact hP.2.1 x hx

end Forbidden

/-- The `forbidden` passed to a child call contains the `forbidden` of the
calling procedure, in both extension procedures and on every graph. -/
theorem forbidden_superset (h : StrictTotal cmp) (g : Graph α) (k k1 : Call α)
    (hk1 : k1 ∈ children cmp (linearNext g cmp) k ∨ k1 ∈ children cmp (nonLinearNext g cmp) k) :
    ∀ x ∈ k.forbidden, x ∈ k1.forbidden := by
  intro x hx
  rcases hk1 with hk1 | hk1
  · obtain ⟨p, c, post, _, h2⟩ := mem_children.mp hk1
    rw [h2]
    show x ∈ set_union cmp p k.forbidden
    exact (mem_set_union h _ _ x).mpr (Or.inr hx)
  · obtain ⟨p, c, post, _, h2⟩ := mem_children.mp hk1
    rw [h2]
    show x ∈ set_union cmp k.forbidden p
    exact (mem_set_union h _ _ x).mpr (Or.inl hx)

/-- In `generateRecursiveNonLinear`, on every graph: when the three vectors are
sorted and `forbidden` is disjoint from `current` and `candidates`, no sequence
appended during the call contains a node of `forbidden`. -/
theorem nonLinear_avoids_forbidden (h : StrictTotal cmp) (g : Graph α) (upper : Nat)
    (filter : List α → Bool) (current candidates forbidden : List α)
    (subgraphs : List (List α)) (hcur : WSorted cmp current) (hcands : WSorted cmp candidates)
    (hforb : WSorted cmp forbidden) (hd2 : ∀ x ∈ current, x ∉ forbidden)
    (hd3 : ∀ x ∈ candidates, x ∉ forbidden) :
    ∃ new, generateRecursiveNonLinear g upper filter current candidates forbidden subgraphs
        cmp = (current, subgraphs ++ new) ∧
      ∀ s ∈ new, ∀ x ∈ forbidden, x ∉ s := by
  refine ⟨_, generateRecursive_eq h.irrefl upper filter _ current candidates forbidden
    subgraphs, ?_⟩
  intro s hs
  exact emitted_avoids_forbidden h (nonLinearNext_sound h g) ⟨hcur, hcands, hforb⟩ hd2 hd3 hs

/-- In `generateRecursiveLinear`, when no adjacency list repeats a neighbor
(every list is strictly increasing): under the same conditions on the three
vectors, no sequence appended during the call contains a node of
`forbidden`. -/
theorem linear_avoids_forbidden (h : StrictTotal cmp) (g : Graph α) (hadj : AdjStrict g cmp)
    (upper : Nat) (filter : List α → Bool) (current candidates forbidden : List α)
    (subgraphs : List (List α)) (hcur : WSorted cmp current) (hcands : WSorted cmp candidates)
    (hforb : WSorted cmp forbidden) (hd2 : ∀ x ∈ current, x ∉ forbidden)
    (hd3 : ∀ x ∈ candidates, x ∉ forbidden) :
    ∃ new, generateRecursiveLinear g upper filter current candidates forbidden subgraphs
        cmp = (current, subgraphs ++ new) ∧
      ∀ s ∈ new, ∀ x ∈ forbidden, x ∉ s := by
  refine ⟨_, generateRecursive_eq h.irrefl upper filter _ current candidates forbidden
    subgraphs, ?_⟩
  intro s hs
  exact emitted_avoids_forbidden h (linearNext_sound h g hadj) ⟨hcur, hcands, hforb⟩ hd2 hd3 hs

section Chain

variable {next : List α → List α → α → List α → List α → List α × List α}

/-- A chain of nested calls that starts at a call with `current.size() <= upper`
ends at a call with `current.size() <= upper`: every nested call adds one
node. -/
theorem chain_length_le {upper : Nat} (l : List (Call α)) :
    ∀ k : Call α, List.Chain (Calls cmp next upper) k l → k.current.length ≤ upper →
      k.current.length + l.length ≤ upper := by
  induction l with
  | nil =>
    intro k _ hk
    simpa using hk
  | cons a l ih =>
    intro k hc hk
    rw [List.chain_cons] at hc
    have hlen := children_length hc.1.2
    have hu := hc.1.1
    have := ih a hc.2 (by omega)
    simp only [List.length_cons]
    omega

end Chain

/-- C25 (termination and depth): for every graph, filter, comparator and bound,
the extension procedures return, and any depth counter that is at least
`upper - current.size()` gives their result; a nested call is made only from a
call with `current.size() < upper` and has one node more, so
`upper - current.size()` strictly decreases; and a chain of nested calls
starting at a root call holds at most `upper` calls. -/
theorem termination_depth (g : Graph α) (upper : Nat) (filter : List α → Bool)
    (cmp : α → α → Bool) (current candidates forbidden : List α)
    (subgraphs : List (List α)) (depth : Nat) (hd : upper - current.length ≤ depth) :
    generateRecursive cmp (linearNext g cmp) upper filter depth current candidates forbidden
          subgraphs =
        generateRecursiveLinear g upper filter current candidates forbidden subgraphs cmp ∧
      generateRecursive cmp (nonLinearNext g cmp) upper filter depth current candidates forbidden
          subgraphs =
        generateRecursiveNonLinear g upper filter current candidates forbidden subgraphs cmp ∧
      (∀ k k1 : Call α, Calls cmp (nextOf g cmp) upper k k1 →
        k.current.length < upper ∧ k1.current.length = k.current.length + 1 ∧
          upper - k1.current.length < upper - k.current.length) ∧
      (∀ r ∈ roots g cmp, ∀ l : List (Call α), upper ≠ 0 →
        List.Chain (Calls cmp (nextOf g cmp) upper) r l → 1 + l.length ≤ upper) := by
  refine ⟨?_, ?_, ?_, ?_⟩
  · exact generateRecursive_depth_irrelevant upper filter depth _ current candidates forbidden
      subgraphs hd (le_refl _)
  · exact generateRecursive_depth_irrelevant upper filter depth _ current candidates forbidden
      subgraphs hd (le_refl _)
  · intro k k1 hc
    have hlen := children_length hc.2
    have hu := hc.1
    omega
  · intro r hr l hu hc
    obtain ⟨pre, v, post, _, h2⟩ := mem_roots.mp hr
    have hlen : r.current.length = 1 := by
      rw [h2]
      simp [rootCall]
    have := chain_length_le l r hc (by omega)
    omega

/-- Witness for C25: the root 1 of the clique fixture with bound 3 and depth
counter 7. -/
theorem termination_depth_witness :
    generateRecursive natLess (linearNext cliqueGraph natLess) 3 NoFilter 7 [1] [2, 3, 4, 5] []
          [] =
        generateRecursiveLinear cliqueGraph 3 NoFilter [1] [2, 3, 4, 5] [] [] natLess ∧
      generateRecursive natLess (nonLinearNext cliqueGraph natLess) 3 NoFilter 7 [1]
          [2, 3, 4, 5] [] [] =
        generateRecursiveNonLinear cliqueGraph 3 NoFilter [1] [2, 3, 4, 5] [] [] natLess ∧
      (∀ k k1 : Call Nat, Calls natLess (nextOf cliqueGraph natLess) 3 k k1 →
        k.current.length < 3 ∧ k1.current.length = k.current.length + 1 ∧
          3 - k1.current.length < 3 - k.current.length) ∧
      (∀ r ∈ roots cliqueGraph natLess, ∀ l : List (Call Nat), 3 ≠ 0 →
        List.Chain (Calls natLess (nextOf cliqueGraph natLess) 3) r l → 1 + l.length ≤ 3) :=
  termination_depth cliqueGraph 3 NoFilter natLess [1] [2, 3, 4, 5] [] [] 7 (by decide)

/-- C27 (the size bound only truncates): for every graph and filter, every
comparator that is a strict total order and bounds `k <= k'`, the result of
`runEnumeration` with bound `k` is the result with bound `k'` from which the
sequences longer than `k` are removed, the others keeping their order. -/
theorem bound_truncates (h : StrictTotal cmp) (g : Graph α) (filter : List α → Bool)
    (k k' : Nat) (hk : k ≤ k') :
    runEnumeration g k filter cmp =
      (runEnumeration g k' filter cmp).filter (fun s => decide (s.length ≤ k)) :=
  runEnumeration_truncate h.irrefl g k k' hk filter

/-- Witness for C27: the clique fixture with bounds 2 and 4. -/
theorem bound_truncates_witness :
    runEnumeration cliqueGraph 2 NoFilter natLess =
      (runEnumeration cliqueGraph 4 NoFilter natLess).filter (fun s => decide (s.length ≤ 2)) :=
  bound_truncates natLess_strictTotal cliqueGraph NoFilter 2 4 (by decide)

set_option maxHeartbeats 4000000 in
/-- C21 (disconnected fixture): on the graph with components {1, 2} and
{3, 4, 5}, `NoFilter` and the natural order, `runEnumeration` returns 10
sequences for the maximal `size_t` bound and 5, 9, 10, 10 sequences for the
bounds 1, 2, 3, 4; every returned sequence lies inside one component. -/
theorem disconnected_fixture :
    (runEnumeration disconnectedGraph sizeMax NoFilter natLess).length = 10 ∧
      (runEnumeration disconnectedGraph 1 NoFilter natLess).length = 5 ∧
      (runEnumeration disconnectedGraph 2 NoFilter natLess).length = 9 ∧
      (runEnumeration disconnectedGraph 3 NoFilter natLess).length = 10 ∧
      (runEnumeration disconnectedGraph 4 NoFilter natLess).length = 10 ∧
      ∀ upper ∈ [sizeMax, 1, 2, 3, 4],
        ∀ s ∈ runEnumeration disconnectedGraph upper NoFilter natLess,
          (∀ x ∈ s, x ∈ [1, 2]) ∨ (∀ x ∈ s, x ∈ [3, 4, 5]) :=
  ⟨by decide, by decide, by decide, by decide, by decide, by decide⟩

/-- C28 (self-loops are not filtered at the root): node 1 of `selfLoopGraph`
lists itself as a neighbor; on either path the root call made by
`runEnumeration` has `current = [1]` and `candidates = [1]`, so `current` and
`candidates` are not disjoint, and for every bound of at least 2 the result
contains `[1, 1]`, in which node 1 occurs twice. -/
theorem self_loop_not_filtered (upper : Nat) (hu : 2 ≤ upper) :
    1 ∈ selfLoopGraph.adjancency 1 ∧
      rootCandidatesLinear selfLoopGraph natLess 1 [] = [1] ∧
      rootCandidatesNonLinear (selfLoopGraph.withListsSorted false) natLess 1 [] = [1] ∧
      rootCall selfLoopGraph natLess ([], 1, []) ∈ roots selfLoopGraph natLess ∧
      rootCall selfLoopGraph natLess ([], 1, []) = ⟨[1], [1], []⟩ ∧
      rootCall (selfLoopGraph.withListsSorted false) natLess ([], 1, []) ∈
        roots (selfLoopGraph.withListsSorted false) natLess ∧
      rootCall (selfLoopGraph.withListsSorted false) natLess ([], 1, []) = ⟨[1], [1], []⟩ ∧
      ¬ Call.Inv natLess ⟨[1], [1], []⟩ ∧
      runEnumeration selfLoopGraph 2 NoFilter natLess = [[1], [1, 1]] ∧
      runEnumeration (selfLoopGraph.withListsSorted false) 2 NoFilter natLess = [[1], [1, 1]] ∧
      [1, 1] ∈ runEnumeration selfLoopGraph upper NoFilter natLess ∧
      [1, 1] ∈ runEnumeration (selfLoopGraph.withListsSorted false) upper NoFilter natLess ∧
      ¬ ([1, 1] : List Nat).Nodup := by
  have h1 : [1, 1] ∈ runEnumeration selfLoopGraph 2 NoFilter natLess := by decide
  have h2 : [1, 1] ∈ runEnumeration (selfLoopGraph.withListsSorted false) 2 NoFilter natLess := by
    decide
  rw [runEnumeration_truncate natLess_strictTotal.irrefl selfLoopGraph 2 upper hu NoFilter] at h1
  rw [runEnumeration_truncate natLess_strictTotal.irrefl (selfLoopGraph.withListsSorted false) 2
    upper hu NoFilter] at h2
  refine ⟨by decide, by decide, by decide, mem_roots.mpr ⟨[], 1, [], by decide, rfl⟩, rfl,
    mem_roots.mpr ⟨[], 1, [], by decide, rfl⟩, rfl, ?_, by decide, by decide,
    (List.mem_filter.mp h1).1, (List.mem_filter.mp h2).1, by decide⟩
  intro hinv
  exact hinv.2.2.2.1 1 (by decide) (by decide)

/-- Witness for C28: the bound 3. -/
theorem self_loop_not_filtered_witness :
    1 ∈ selfLoopGraph.adjancency 1 ∧
      rootCandidatesLinear selfLoopGraph natLess 1 [] = [1] ∧
      rootCandidatesNonLinear (selfLoopGraph.withListsSorted false) natLess 1 [] = [1] ∧
      rootCall selfLoopGraph natLess ([], 1, []) ∈ roots selfLoopGraph natLess ∧
      rootCall selfLoopGraph natLess ([], 1, []) = ⟨[1], [1], []⟩ ∧
      rootCall (selfLoopGraph.withListsSorted false) natLess ([], 1, []) ∈
        roots (selfLoopGraph.withListsSorted false) natLess ∧
      rootCall (selfLoopGraph.withListsSorted false) natLess ([], 1, []) = ⟨[1], [1], []⟩ ∧
      ¬ Call.Inv natLess ⟨[1], [1], []⟩ ∧
      runEnumeration selfLoopGraph 2 NoFilter natLess = [[1], [1, 1]] ∧
      runEnumeration (selfLoopGraph.withListsSorted false) 2 NoFilter natLess = [[1], [1, 1]] ∧
      [1, 1] ∈ runEnumeration selfLoopGraph 3 NoFilter natLess ∧
      [1, 1] ∈ runEnumeration (selfLoopGraph.withListsSorted false) 3 NoFilter natLess ∧
      ¬ ([1, 1] : List Nat).Nodup :=
  self_loop_not_filtered 3 (by decide)

end ConsensLib
